import Mathlib

/-!
Red-black sequence tree (`My Library/Range Querys/BBST/Red_Black_Tree.cpp`)

A shallow embedding of `RedBlackTree<S, op, e>`.

Modelling conventions.

* A value of `Node S` is what a C++ `Node*` points to: `Node.null` is
  `nullptr`, `Node.node l r color level size self_val sum` is a live node
  with exactly the fields of `struct Node`.  Nodes are held by value, so two
  pointers are never aliases of each other; the virtual `clone` of the base
  class is the identity and is left out.
* `int` is `Int`; the sizes handled are bounded by the pool capacity, so
  wrap-around is not modelled.
* Dereferencing `nullptr`, indexing a vector out of range, a failed `assert`
  and writing past the end of a vector have no defined result: the function
  returns `none`.
* `pool.alloc()` / `pool.free()` only decide *where* a node is stored; the
  tree operations are modelled on the stored values.
-/

namespace RedBlackTree

/-- The enumeration `COLOR`. -/
inductive COLOR where
  | BLACK
  | RED
  deriving DecidableEq, Repr

open COLOR

/-- The pointee of a `Node*`: `null` is `nullptr`. -/
inductive Node (S : Type) where
  | null : Node S
  | node (l r : Node S) (color : COLOR) (level size : Int) (self_val sum : S) : Node S
  deriving DecidableEq, Repr

open Node

variable {S : Type}

/-- The test `!t` on a pointer. -/
def Node.isNull : Node S → Bool
  | null => true
  | node .. => false

/-- The test `t && t->color == RED` on a pointer. -/
def Node.isRed : Node S → Bool
  | null => false
  | node _ _ c _ _ _ _ => c = RED

/-- The constructor `Node(const S &k)`: a black leaf. -/
def Node.leaf (k : S) : Node S := node null null BLACK 0 1 k k

/-- Number of stored nodes below a pointer (termination measure only). -/
def Node.nodes : Node S → Nat
  | null => 0
  | node l r _ _ _ _ _ => l.nodes + r.nodes + 1

/-- The member `get_size`: `t ? t->size : 0`. -/
def get_size : Node S → Int
  | null => 0
  | node _ _ _ _ sz _ _ => sz

/-- The member `sum`: `t ? t->sum : e()`. -/
def sum (e : S) : Node S → S
  | null => e
  | node _ _ _ _ _ _ s => s

/-- The member `update`: recomputes `size`, `level` and `sum` of `*t` from its
children. -/
def update (op : S → S → S) (e : S) : Node S → Option (Node S)
  | null => none
  | node l r c _ _ v _ =>
    some (node l r c
      (match l with
        | null => 0
        | node _ _ lc llev _ _ _ => llev + (if lc = BLACK then 1 else 0))
      (get_size l + get_size r + (if l.isNull || r.isNull then 1 else 0))
      v
      (op (op (sum e l) v) (sum e r)))

/-- The private member `alloc(Node *l, Node *r)`: a red node over `l` and `r`
carrying `e()`, then `update`.  The fields the constructor `Node(l, r, k)`
leaves uninitialised are overwritten by `update`. -/
def alloc (op : S → S → S) (e : S) (l r : Node S) : Option (Node S) :=
  update op e (node l r RED 0 0 e e)

/-- The member `rotate(Node *t, bool b)`. -/
def rotate (op : S → S → S) (e : S) : Node S → Bool → Option (Node S)
  | null, _ => none
  | node tl tr tc tlev tsz tv ts, true =>
    match tl with
    | null => none
    | node sl sr sc slev ssz sv ss => do
      let t1 ← update op e (node sr tr tc tlev tsz tv ts)
      update op e (node sl t1 sc slev ssz sv ss)
  | node tl tr tc tlev tsz tv ts, false =>
    match tr with
    | null => none
    | node sl sr sc slev ssz sv ss => do
      let t1 ← update op e (node tl sl tc tlev tsz tv ts)
      update op e (node t1 sr sc slev ssz sv ss)

/-- The member `submerge(Node *l, Node *r)`. -/
@[semireducible]
def submerge (op : S → S → S) (e : S) : Node S → Node S → Option (Node S)
  | null, _ => none
  | node _ _ _ _ _ _ _, null => none
  | node ll lr lc llev lsz lv ls, node rl rr rc rlev rsz rv rs =>
    if llev < rlev then
      match submerge op e (node ll lr lc llev lsz lv ls) rl with
      | none => none
      | some null => none
      | some (node cl cr cc clev csz cv cs) =>
        if rc = BLACK ∧ cc = RED ∧ cl.isRed then
          match rr with
          | null => none
          | node rrl rrr rrc rrlev rrsz rrv rrs =>
            if rrc = BLACK then
              rotate op e (node (node cl cr BLACK clev csz cv cs) rr RED rlev rsz rv rs) true
            else
              update op e (node (node cl cr BLACK clev csz cv cs)
                (node rrl rrr BLACK rrlev rrsz rrv rrs) RED rlev rsz rv rs)
        else update op e (node (node cl cr cc clev csz cv cs) rr rc rlev rsz rv rs)
    else if llev > rlev then
      match submerge op e lr (node rl rr rc rlev rsz rv rs) with
      | none => none
      | some null => none
      | some (node cl cr cc clev csz cv cs) =>
        if lc = BLACK ∧ cc = RED ∧ cr.isRed then
          match ll with
          | null => none
          | node lll llr llc lllev llsz llv lls =>
            if llc = BLACK then
              rotate op e (node ll (node cl cr BLACK clev csz cv cs) RED llev lsz lv ls) false
            else
              update op e (node (node lll llr BLACK lllev llsz llv lls)
                (node cl cr BLACK clev csz cv cs) RED llev lsz lv ls)
        else update op e (node ll (node cl cr cc clev csz cv cs) lc llev lsz lv ls)
    else alloc op e (node ll lr lc llev lsz lv ls) (node rl rr rc rlev rsz rv rs)
termination_by l r => l.nodes + r.nodes
decreasing_by
  all_goals simp_wf
  all_goals simp only [Node.nodes]
  all_goals omega

/-- The binary instance of the variadic member `merge(Node *l, Args... rest)`
(the unary `merge(Node *l)` is the identity). -/
def merge (op : S → S → S) (e : S) (l r : Node S) : Option (Node S) :=
  if l.isNull || r.isNull then some (if !l.isNull then l else r)
  else
    match submerge op e l r with
    | none => none
    | some null => none
    | some (node cl cr _ clev csz cv cs) => some (node cl cr BLACK clev csz cv cs)

/-- The private member `build(int l, int r, const vector<S> &v)`; the leaf is
`alloc(v[l])`, the public `alloc(const S&)` being the constructor `Node(k)`. -/
@[semireducible]
def buildRange (op : S → S → S) (e : S) (v : List S) (l r : Int) : Option (Node S) :=
  if l + 1 ≥ r then
    if 0 ≤ l then (v.get? l.toNat).map Node.leaf else none
  else do
    let a ← buildRange op e v l ((l + r) >>> (1 : Nat))
    let b ← buildRange op e v ((l + r) >>> (1 : Nat)) r
    merge op e a b
termination_by (r - l).toNat
decreasing_by
  all_goals simp_wf
  all_goals
    have h2 : (l + r) >>> (1 : Nat) = (l + r) / 2 := by
      rw [Int.shiftRight_eq_div_pow]; rfl
    omega

/-- The public member `build(const vector<S> &v)`. -/
def build (op : S → S → S) (e : S) (v : List S) : Option (Node S) :=
  buildRange op e v 0 v.length

/-- The private member `dump(Node *r, iterator &it)`: the values written
through `it`, in the order they are written. -/
def dumpIter : Node S → Option (List S)
  | null => none
  | node l r _ _ _ v _ =>
    if l.isNull then some [v]
    else do
      let a ← dumpIter l
      let b ← dumpIter r
      some (a ++ b)

/-- The public member `dump(Node *r)`: a vector of `get_size(r)`
value-initialised elements, overwritten from the front by `dumpIter`. -/
def dump [Inhabited S] (r : Node S) : Option (List S) := do
  let w ← dumpIter r
  if (w.length : Int) ≤ get_size r then
    some (w ++ List.replicate ((get_size r).toNat - w.length) default)
  else none

/-- The member `split(Node *t, int k)`. -/
def split (op : S → S → S) (e : S) : Node S → Int → Option (Node S × Node S)
  | null, _ => some (null, null)
  | node l r c lev sz v s, k =>
    if k = 0 then some (null, node l r c lev sz v s)
    else if k ≥ sz then some (node l r c lev sz v s, null)
    else if k < get_size l then do
      let pp ← split op e l k
      let m ← merge op e pp.2 r
      some (pp.1, m)
    else if k > get_size l then do
      let pp ← split op e r (k - get_size l)
      let m ← merge op e l pp.1
      some (m, pp.2)
    else some (l, r)

/-- The member `insert(Node *&t, int k, const S &v)`; the result is the new
value of `t`. -/
def insert (op : S → S → S) (e : S) (t : Node S) (k : Int) (v : S) : Option (Node S) := do
  let x ← split op e t k
  let m ← merge op e x.1 (Node.leaf v)
  merge op e m x.2

/-- The member `erase(Node *&t, int k)`; the result is the new value of `t`
and the returned value. -/
def erase (op : S → S → S) (e : S) (t : Node S) (k : Int) : Option (Node S × S) := do
  let x ← split op e t k
  let y ← split op e x.2 1
  match y.1 with
  | null => none
  | node _ _ _ _ _ v _ => do
    let t1 ← merge op e x.1 y.2
    some (t1, v)

/-- The private member `prod(Node *t, int a, int b, int l, int r)`. -/
def prodRange (op : S → S → S) (e : S) : Node S → Int → Int → Int → Int → Option S
  | null, a, b, l, r => if r ≤ a ∨ b ≤ l then some e else none
  | node tl tr _ _ _ _ s, a, b, l, r =>
    if r ≤ a ∨ b ≤ l then some e
    else if a ≤ l ∧ r ≤ b then some s
    else do
      let x ← prodRange op e tl a b l (l + get_size tl)
      let y ← prodRange op e tr a b (r - get_size tr) r
      some (op x y)

/-- The public member `prod(Node *t, int a, int b)`. -/
def prod (op : S → S → S) (e : S) (t : Node S) (a b : Int) : Option S :=
  prodRange op e t a b 0 (get_size t)

/-- The member `set(Node *&t, int k, const S &x)`; the result is the new value
of `t`. -/
def set (op : S → S → S) (e : S) : Node S → Int → S → Option (Node S)
  | null, _, _ => none
  | node l r c lev sz v s, k, x =>
    if l.isNull then some (node l r c lev sz x x)
    else if k < get_size l then do
      let l1 ← set op e l k x
      update op e (node l1 r c lev sz v s)
    else do
      let r1 ← set op e r (k - get_size l) x
      update op e (node l r1 c lev sz v s)

/-- The member `binary_search_right(Node *t, const F &f, S lsum)`. -/
def binary_search_right (op : S → S → S) (f : S → Bool) : Node S → S → Option Int
  | null, _ => some 0
  | node l r _ _ sz v s, lsum =>
    if f (op lsum s) then some sz
    else if r.isNull then binary_search_right op f l lsum
    else
      match l with
      | null => none
      | node ll lr lc llev lsz lv ls =>
        if f (op (op lsum ls) v) then do
          let x ← binary_search_right op f r (op (op lsum ls) v)
          some (lsz + x)
        else if f (op lsum ls) then some lsz
        else binary_search_right op f (node ll lr lc llev lsz lv ls) lsum

/-- The member `binary_search_left(Node *t, const F &f, S rsum)`. -/
def binary_search_left (op : S → S → S) (f : S → Bool) : Node S → S → Option Int
  | null, _ => some 0
  | node l r _ _ _ v s, rsum =>
    if f (op s rsum) then some 0
    else if r.isNull then
      if l.isNull then some 1
      else binary_search_left op f l (op v rsum)
    else
      match l, r with
      | null, _ => none
      | _, null => none
      | node ll lr lc llev lsz lv ls, node rl rr rc rlev rsz rv rs =>
        if f (op v (op rs rsum)) then
          binary_search_left op f (node ll lr lc llev lsz lv ls) (op v (op rs rsum))
        else if f (op rs rsum) then some lsz
        else do
          let x ← binary_search_left op f (node rl rr rc rlev rsz rv rs) rsum
          some (lsz + x)

/-! ### Specification vocabulary -/

/-- The leaf values below a pointer, left to right; none below `nullptr`. -/
def leaves : Node S → List S
  | null => []
  | node l r _ _ _ v _ => if l.isNull then [v] else leaves l ++ leaves r

/-- The sequence a tree stands for: the empty sequence for the absent tree,
`dump` otherwise. -/
def toSeq [Inhabited S] (t : Node S) : Option (List S) :=
  if t.isNull then some [] else dump t

/-- Shape and cached `size`: every node has both children or none, and its
`size` is the one `update` computes. -/
def SizeOk : Node S → Prop
  | null => True
  | node l r _ _ sz _ _ =>
    l.isNull = r.isNull ∧
    sz = get_size l + get_size r + (if l.isNull || r.isNull then 1 else 0) ∧
    SizeOk l ∧ SizeOk r

/-- Cached `level`: at every node it is the one `update` computes. -/
def LevelOk : Node S → Prop
  | null => True
  | node l r _ lev _ _ _ =>
    lev = (match l with
      | null => 0
      | node _ _ lc llev _ _ _ => llev + (if lc = BLACK then 1 else 0)) ∧
    LevelOk l ∧ LevelOk r

/-- Cached `sum`: at every node,
`op (op (sum left) (value if leaf else e)) (sum right)`. -/
def SumOk (op : S → S → S) (e : S) : Node S → Prop
  | null => True
  | node l r _ _ _ v s =>
    s = op (op (sum e l) (if l.isNull then v else e)) (sum e r) ∧
    SumOk op e l ∧ SumOk op e r

/-- Internal nodes carry `e()` as `self_val`, as `alloc(l, r)` makes them. -/
def PayloadOk (e : S) : Node S → Prop
  | null => True
  | node l r _ _ _ v _ =>
    (l.isNull = false → v = e) ∧ PayloadOk e l ∧ PayloadOk e r

/-- A tree whose cached `size` and `level` fields are those `update` computes. -/
def Valid (t : Node S) : Prop := SizeOk t ∧ LevelOk t

/-- The monoid laws the template parameters `op` and `e` are required to
satisfy: associativity and two-sided identity. -/
structure Monoidal (op : S → S → S) (e : S) : Prop where
  assoc : ∀ a b c, op (op a b) c = op a (op b c)
  id_left : ∀ a, op e a = a
  id_right : ∀ a, op a e = a

/-- Left-to-right fold of `op` over a sequence, starting from `e()`. -/
def fold (op : S → S → S) (e : S) (xs : List S) : S := xs.foldl op e

/-- The aggregate invariant: cached sums and empty internal payloads. -/
def AggOk (op : S → S → S) (e : S) (t : Node S) : Prop := SumOk op e t ∧ PayloadOk e t

/-- What a node built over `l` and `r` has to satisfy: it is there, its fields
are valid, it stands for `xs`, and it keeps the aggregate invariant when the
parts have it. -/
def Joins (op : S → S → S) (e : S) (pre : Prop) (xs : List S) (c : Node S) : Prop :=
  c.isNull = false ∧ Valid c ∧ leaves c = xs ∧ (pre → AggOk op e c)

/-- The elements of `xs` at positions `a ≤ i < b`. -/
def slice (xs : List S) (a b : Nat) : List S := (xs.drop a).take (b - a)

/-! ### The instance of the source file and concrete trees -/

/-- The operator `op` of the source file on `S = pii`. -/
def op_pii (x y : Int × Int) : Int × Int := (max x.1 y.1, max x.2 y.2)

/-- The identity `e()` of the source file, `make_pair(-INF, -INF)`; the macro
`INF` is defined outside the file and is a parameter here. -/
def e_pii (INF : Int) : Int × Int := (-INF, -INF)

/-- The sequence of the concrete scenario. -/
def seq3 : List (Int × Int) := [(1, 2), (5, 1), (3, 9)]

/-- The tree `build` makes of `seq3` (with `INF = 1000000000`). -/
def tree3 : Node (Int × Int) :=
  node (node (Node.leaf (1, 2)) (Node.leaf (5, 1)) RED 1 2 (-1000000000, -1000000000) (5, 2))
    (Node.leaf (3, 9)) BLACK 1 3 (-1000000000, -1000000000) (5, 9)

/-- A lawful non-commutative instance: lists under concatenation. -/
def tree3L : Node (List Nat) :=
  node (node (Node.leaf [1]) (Node.leaf [2]) RED 1 2 [] [1, 2])
    (Node.leaf [3]) BLACK 1 3 [] [1, 2, 3]

/-- The predicate `f(x) = (x.first >= 5)` of the concrete scenario. -/
def pred5 (x : Int × Int) : Bool := decide (x.1 ≥ 5)

/-- A predicate on lists that holds on short lists only. -/
def shortList (x : List Nat) : Bool := decide (x.length ≤ 1)

/-- The elements of `tree3L`. -/
def seq3L : List (List Nat) := [[1], [2], [3]]

/-! ### Balance vocabulary -/

/-- The colour behind a pointer; the absent tree counts as black. -/
def colorOf : Node S → COLOR
  | null => BLACK
  | node _ _ c _ _ _ _ => c

/-- The cached `level` behind a pointer; `0` for the absent tree. -/
def levelOf : Node S → Int
  | null => 0
  | node _ _ _ lev _ _ _ => lev

/-- The level a parent derives from a child: `level(child) + [child is black]`. -/
def childLevel (c : Node S) : Int := levelOf c + (if colorOf c = BLACK then 1 else 0)

/-- The balance invariants below a pointer: a leaf has level `0`; an internal
node has both children, its cached level is `level(child) + [child is black]`
for the left and for the right child (the same black-height on every path),
and a red node has no red child. -/
def RB : Node S → Prop
  | null => True
  | node l r c lev _ _ _ =>
    (l.isNull = true → r.isNull = true ∧ lev = 0) ∧
    (l.isNull = false → r.isNull = false ∧ lev = childLevel l ∧ lev = childLevel r ∧
      (c = RED → colorOf l = BLACK ∧ colorOf r = BLACK)) ∧
    RB l ∧ RB r

/-- Every leaf below the pointer is black. -/
def LeavesBlack : Node S → Prop
  | null => True
  | node l r c _ _ _ _ => (l.isNull = true → c = BLACK) ∧ LeavesBlack l ∧ LeavesBlack r

/-- Number of edges on the longest path from the node to a leaf. -/
def height : Node S → Nat
  | null => 0
  | node l r _ _ _ _ _ => if l.isNull then 0 else max (height l) (height r) + 1

/-- The tree `build` makes of `[0, 1, 2, 3, 4]` under addition. -/
def tree5 : Node Int :=
  node (node (Node.leaf 0) (Node.leaf 1) BLACK 1 2 0 1)
    (node (node (Node.leaf 2) (Node.leaf 3) RED 1 2 0 5) (Node.leaf 4) BLACK 1 3 0 9)
    BLACK 2 5 0 10

/-- A balanced node except that it may be red with a red left child; its
right child is black. -/
def RBweakL : Node S → Prop
  | null => False
  | node l r _ lev _ _ _ =>
    l.isNull = false ∧ r.isNull = false ∧ lev = childLevel l ∧ lev = childLevel r ∧
      colorOf r = BLACK ∧ RB l ∧ RB r

/-- A balanced node except that it may be red with a red right child; its
left child is black. -/
def RBweakR : Node S → Prop
  | null => False
  | node l r _ lev _ _ _ =>
    l.isNull = false ∧ r.isNull = false ∧ lev = childLevel l ∧ lev = childLevel r ∧
      colorOf l = BLACK ∧ RB l ∧ RB r

end RedBlackTree

/-!
Node pool (`VectorPool<T>` of `Red_Black_Tree.cpp`).

A pointer `&pool[i]` is the index `i`; the contents of `pool` play no part in
allocation and are left out.  Both constructors give `pool` and `stock` the
same length and no member changes it, so `pool.size()` is the length of
`stock`.  An index outside `stock` has no defined result.
-/

namespace VectorPool

/-- The allocation state of a `VectorPool<T>`: `stock` is the vector of slot
pointers, `ptr` the member `ptr`. -/
structure Pool where
  stock : List Nat
  ptr : Int
  deriving DecidableEq, Repr

/-- The member `alloc()`: `return stock[--ptr]`. -/
def alloc (p : Pool) : Option (Nat × Pool) :=
  if 0 ≤ p.ptr - 1 then
    match p.stock.get? (p.ptr - 1).toNat with
    | none => none
    | some x => some (x, Pool.mk p.stock (p.ptr - 1))
  else none

/-- The member `free(T *t)`: `stock[ptr++] = t`. -/
def free (p : Pool) (t : Nat) : Option Pool :=
  if 0 ≤ p.ptr ∧ p.ptr.toNat < p.stock.length then
    some (Pool.mk (p.stock.set p.ptr.toNat t) (p.ptr + 1))
  else none

/-- The member `clear()`: `ptr = pool.size()` and `stock[i] = &pool[i]` for
every `i < pool.size()`. -/
def clear (p : Pool) : Pool :=
  Pool.mk (List.range p.stock.length) p.stock.length

/-- The constructor `VectorPool(int sz)`: `pool(sz), stock(sz)`, the slots of
`stock` being null pointers (written `0`); the member `ptr` is not
initialised, its value is the parameter `ptr0`. -/
def new (sz : Nat) (ptr0 : Int) : Pool := Pool.mk (List.replicate sz 0) ptr0

/-- The states reached from `clear()` on a pool of capacity `c` by calls of
`alloc()` and `free(x)`, together with the list of slots currently issued:
`alloc()` is called only while fewer than `c` slots are issued, and `free(x)`
only on a slot that is currently issued. -/
inductive Run (c : Nat) : Pool → List Nat → Prop
  | clear (p : Pool) (hl : p.stock.length = c) : Run c (clear p) []
  | alloc (p q : Pool) (issued : List Nat) (x : Nat) (h : Run c p issued)
      (hc : issued.length < c) (ha : alloc p = some (x, q)) : Run c q (x :: issued)
  | free (p q : Pool) (issued : List Nat) (x : Nat) (h : Run c p issued)
      (hx : x ∈ issued) (hf : free p x = some q) : Run c q (issued.erase x)

end VectorPool

/-!
Strongly connected components (`My Library/Graph/SCC/strongly_connected_components.cpp`).

A graph is the adjacency list `vector<vector<int>>`, a list of lists; vertex
numbers are naturals (a negative entry would index out of range just as one
that is too large).  Indexing a vector out of range has no defined result:
the function returns `none`.  The recursion depth of `dfs` and `dfs2` is
bounded by the `fuel` argument, and `none` is also returned when it runs out;
the constructor supplies `n`, which is shown to be enough.
-/

namespace StronglyConnectedComponents

/-- The guarded call `if(!used[e]) dfs(e)` (in `dfs`: `if(used[e]) continue;
dfs(e);`), `f` being the call. -/
def visitIfUnused (f : Nat → List Bool × List Nat → Option (List Bool × List Nat))
    (st : List Bool × List Nat) (e : Nat) : Option (List Bool × List Nat) :=
  match st.1.get? e with
  | none => none
  | some true => some st
  | some false => f e st

/-- The member `dfs(int v)`, on the members `used` and `order`. -/
def dfs (graph : List (List Nat)) : Nat → Nat → List Bool × List Nat →
    Option (List Bool × List Nat)
  | 0, _, _ => none
  | fuel + 1, v, st =>
    if v < st.1.length then
      match graph.get? v with
      | none => none
      | some es =>
        match es.foldlM (visitIfUnused (dfs graph fuel)) (st.1.set v true, st.2) with
        | none => none
        | some st2 => some (st2.1, st2.2 ++ [v])
    else none

/-- The guarded call `if(component[e] == -1) dfs2(e, k)`, `f` being the call. -/
def assignIfUnset (f : Nat → List Int → Option (List Int)) (c : List Int) (e : Nat) :
    Option (List Int) :=
  match c.get? e with
  | none => none
  | some x => if x = -1 then f e c else some c

/-- The member `dfs2(int v, int k)`, on the member `component`. -/
def dfs2 (reversed_graph : List (List Nat)) : Nat → Nat → Int → List Int → Option (List Int)
  | 0, _, _, _ => none
  | fuel + 1, v, k, component =>
    if v < component.length then
      match reversed_graph.get? v with
      | none => none
      | some es =>
        es.foldlM (assignIfUnset (fun e c => dfs2 reversed_graph fuel e k c))
          (component.set v k)
    else none

/-- The statement `reversed_graph[e].push_back(v)`. -/
def pushAt {α : Type} (g : List (List α)) (i : Nat) (x : α) : Option (List (List α)) :=
  match g.get? i with
  | none => none
  | some row => some (g.set i (row ++ [x]))

/-- The first loop of the constructor: `reversed_graph` after
`resize(n)` and `reversed_graph[e].push_back(v)` for every edge. -/
def reverseGraph (graph : List (List Nat)) : Option (List (List Nat)) :=
  (List.range graph.length).foldlM (fun rg v =>
    match graph.get? v with
    | none => none
    | some es => es.foldlM (fun rg1 e => pushAt rg1 e v) rg)
    (List.replicate graph.length [])

/-- The second loop of the constructor: `if(!used[v]) dfs(v)` for every `v`. -/
def firstPass (graph : List (List Nat)) : Option (List Bool × List Nat) :=
  (List.range graph.length).foldlM (visitIfUnused (dfs graph graph.length))
    (List.replicate graph.length false, [])

/-- The last loop of the constructor, over the reversed `order`:
`if(component[e] == -1) dfs2(e, k), k++`. -/
def secondPass (reversed_graph : List (List Nat)) (n : Nat) (order : List Nat) :
    Option (List Int × Int) :=
  order.foldlM (fun ck e =>
    match ck.1.get? e with
    | none => none
    | some x =>
      if x = -1 then
        match dfs2 reversed_graph n e ck.2 ck.1 with
        | none => none
        | some c => some (c, ck.2 + 1)
      else some ck)
    (List.replicate n (-1), 0)

/-- The members of `struct StronglyConnectedComponents`. -/
structure SCC where
  n : Nat
  graph : List (List Nat)
  reversed_graph : List (List Nat)
  order : List Nat
  component : List Int
  used : List Bool
  deriving DecidableEq, Repr

/-- The constructor `StronglyConnectedComponents(vector<vector<int>> &G_)`. -/
def new (G_ : List (List Nat)) : Option SCC :=
  match reverseGraph G_ with
  | none => none
  | some rg =>
    match firstPass G_ with
    | none => none
    | some st =>
      match secondPass rg G_.length st.2.reverse with
      | none => none
      | some ck => some (SCC.mk G_.length G_ rg st.2.reverse ck.1 st.1)

/-- The member `issame(int u, int v)`. -/
def issame (s : SCC) (u v : Nat) : Option Bool :=
  match s.component.get? u, s.component.get? v with
  | some a, some b => some (decide (a = b))
  | _, _ => none

/-- The member `number_of_components()`: the number of distinct values in
`component`. -/
def number_of_components (s : SCC) : Nat := s.component.eraseDups.length

/-- The two `push_back` statements of `rebuild()`. -/
def pushBoth (rg : List (List Int)) (a b : Int) : Option (List (List Int)) :=
  if 0 ≤ a ∧ 0 ≤ b then
    match pushAt rg a.toNat b with
    | none => none
    | some rg1 => pushAt rg1 b.toNat a
  else none

/-- The member `rebuild()`. -/
def rebuild (s : SCC) : Option (List (List Int)) :=
  match s.component.max? with
  | none => none
  | some m =>
    (List.range (m + 1).toNat).foldlM (fun rg v =>
      match s.graph.get? v with
      | none => none
      | some es =>
        es.foldlM (fun rg1 e =>
          match s.component.get? v, s.component.get? e with
          | some cv, some ce => if cv ≠ ce then pushBoth rg1 cv ce else some rg1
          | _, _ => none) rg)
      (List.replicate (m + 1).toNat [])

/-- The member `pull_groups()`. -/
def pull_groups (s : SCC) : Option (List (List Nat)) :=
  match s.component.max? with
  | none => none
  | some m =>
    (List.range s.n).foldlM (fun groups i =>
      match s.component.get? i with
      | none => none
      | some c => if 0 ≤ c then pushAt groups c.toNat i else none)
      (List.replicate (m + 1).toNat [])

/-- The graph of the scenario: edges `0→1, 1→2, 2→0, 1→3`. -/
def graph4 : List (List Nat) := [[1], [2, 3], [0], []]

end StronglyConnectedComponents

namespace StronglyConnectedComponents

/-- The graph has the edge `u → v`: `v` occurs in `graph[u]`. -/
def Edge (g : List (List Nat)) (u v : Nat) : Prop := ∃ es, g.get? u = some es ∧ v ∈ es

/-- Every entry of the adjacency list is a vertex `0..n-1`. -/
def InRange (g : List (List Nat)) : Prop :=
  ∀ u es, g.get? u = some es → ∀ v ∈ es, v < g.length

/-- There is a path from `u` to `v`. -/
def Reach (g : List (List Nat)) (u v : Nat) : Prop := Relation.ReflTransGen (Edge g) u v

/-- The vertices `u` and `v` are mutually reachable. -/
def MutReach (g : List (List Nat)) (u v : Nat) : Prop := Reach g u v ∧ Reach g v u

/-- There is a path from `x` to `y` none of whose vertices satisfies `U`. -/
def ReachAvoiding (g : List (List Nat)) (U : Nat → Prop) (x y : Nat) : Prop :=
  ¬ U x ∧ Relation.ReflTransGen (fun a b => Edge g a b ∧ ¬ U b) x y

/-- The vertex `x` is marked in `used`. -/
def Vis (used : List Bool) (x : Nat) : Prop := used.get? x = some true

/-- The vertex `x` has a component number in `component`. -/
def Assigned (component : List Int) (x : Nat) : Prop :=
  ∃ c, component.get? x = some c ∧ c ≠ -1

/-- Among the vertices of `L` related to `x`, the vertex `y` comes last. -/
def LastReach (R : Nat → Nat → Prop) (L : List Nat) (x y : Nat) : Prop :=
  R x y ∧ y ∈ L ∧ ∀ z ∈ L, R x z → L.indexOf z ≤ L.indexOf y

/-- For every vertex of `L`, the last vertex of `L` related to it is related
back to it. -/
def BackLinked (R : Nat → Nat → Prop) (L : List Nat) : Prop :=
  ∀ x ∈ L, ∀ y, LastReach R L x y → R y x

/-- Every edge out of `L` ends in `U` or in `L`. -/
def Closed (g : List (List Nat)) (U : Nat → Prop) (L : List Nat) : Prop :=
  ∀ x ∈ L, ∀ y, Edge g x y → U y ∨ y ∈ L

/-- What a call `dfs(v)` from the marking `used` has done: it has marked the
vertices of `seg`, which were unmarked, are reachable from `v` along unmarked
vertices, and are listed in the order they were finished. -/
structure DfsPost (g : List (List Nat)) (used : List Bool) (v : Nat) (used1 : List Bool)
    (seg : List Nat) : Prop where
  len : used1.length = g.length
  vis : ∀ x, Vis used1 x ↔ Vis used x ∨ x ∈ seg
  nodup : seg.Nodup
  fresh : ∀ x ∈ seg, ¬ Vis used x
  root : v ∈ seg
  reach : ∀ x ∈ seg, ReachAvoiding g (Vis used) v x
  closed : Closed g (Vis used) seg
  back : BackLinked (ReachAvoiding g (Vis used)) seg
  count : used1.count false ≤ used.count false

/-- The state of a loop of guarded `dfs` calls: beyond the vertices of `U`,
the marked vertices are those of `acc`, listed in the order they were
finished. -/
structure LoopInv (g : List (List Nat)) (U : Nat → Prop) (cur : List Bool)
    (acc : List Nat) : Prop where
  len : cur.length = g.length
  vis : ∀ x, Vis cur x ↔ U x ∨ x ∈ acc
  nodup : acc.Nodup
  fresh : ∀ x ∈ acc, ¬ U x
  closed : Closed g U acc
  back : BackLinked (ReachAvoiding g U) acc

end StronglyConnectedComponents

namespace StronglyConnectedComponents

/-- What a call `dfs2(v, k)` from the numbering `comp` has done: the numbers
already given are kept, the newly numbered vertices have the number `k`, are
reachable from `v` along unnumbered vertices, and have all their edges ending
in numbered vertices. -/
structure Dfs2Post (rg : List (List Nat)) (comp : List Int) (v : Nat) (k : Int)
    (comp1 : List Int) : Prop where
  len : comp1.length = comp.length
  keep : ∀ x, Assigned comp x → comp1.get? x = comp.get? x
  newk : ∀ x, ¬ Assigned comp x → Assigned comp1 x → comp1.get? x = some k
  root : Assigned comp1 v
  reach : ∀ x, ¬ Assigned comp x → Assigned comp1 x → ReachAvoiding rg (Assigned comp) v x
  closed : ∀ x, ¬ Assigned comp x → Assigned comp1 x → ∀ y, Edge rg x y → Assigned comp1 y
  count : comp1.count (-1) < comp.count (-1)

/-- The state of the loop of `dfs2(v, k)` over the edges of `v`, where `comp`
is the numbering the call started from. -/
structure Loop2Inv (rg : List (List Nat)) (comp : List Int) (v : Nat) (k : Int)
    (cur : List Int) : Prop where
  len : cur.length = comp.length
  keep : ∀ x, Assigned comp x → cur.get? x = comp.get? x
  rootk : cur.get? v = some k
  newk : ∀ x, ¬ Assigned comp x → Assigned cur x → cur.get? x = some k
  reach : ∀ x, ¬ Assigned comp x → Assigned cur x → ReachAvoiding rg (Assigned comp) v x
  closed : ∀ x, ¬ Assigned comp x → x ≠ v → Assigned cur x →
    ∀ y, Edge rg x y → Assigned cur y

end StronglyConnectedComponents

namespace StronglyConnectedComponents

/-- The state of the last loop of the constructor after the vertices of `done`:
the numbered vertices are whole classes of mutually reachable vertices, one
number below `k` per class, and every edge into a numbered vertex comes from a
numbered vertex with a number that is not larger. -/
structure PassInv (g : List (List Nat)) (done : List Nat) (comp : List Int) (k : Int) :
    Prop where
  len : comp.length = g.length
  kpos : 0 ≤ k
  kcount : k + comp.count (-1) ≤ g.length
  done : ∀ x ∈ done, Assigned comp x
  range : ∀ x c, comp.get? x = some c → c ≠ -1 → 0 ≤ c ∧ c < k
  same : ∀ x y, Assigned comp x → Assigned comp y →
    (comp.get? x = comp.get? y ↔ MutReach g x y)
  sat : ∀ x y, Assigned comp x → MutReach g x y → Assigned comp y
  pred : ∀ u v, Edge g u v → Assigned comp v → Assigned comp u
  le : ∀ u v cu cv, Edge g u v → Assigned comp v → comp.get? u = some cu →
    comp.get? v = some cv → cu ≤ cv

/-- The numbering `comp` of the vertices of `g` numbers the classes of
mutually reachable vertices, in an order that no edge goes against. -/
structure SccNumbering (g : List (List Nat)) (comp : List Int) : Prop where
  len : comp.length = g.length
  range : ∀ x c, comp.get? x = some c → 0 ≤ c ∧ c < g.length
  same : ∀ x y cx cy, comp.get? x = some cx → comp.get? y = some cy →
    (cx = cy ↔ MutReach g x y)
  le : ∀ u v cu cv, Edge g u v → comp.get? u = some cu → comp.get? v = some cv → cu ≤ cv

end StronglyConnectedComponents

namespace StronglyConnectedComponents

/-- The list `g[a]` exists and contains `b`. -/
def Adj {α : Type} (g : List (List α)) (a : Nat) (b : α) : Prop :=
  ∃ row, g.get? a = some row ∧ b ∈ row

end StronglyConnectedComponents

/-! ## Theorems -/

namespace RedBlackTree
open Node COLOR

variable {S : Type} {op : S → S → S} {e : S}

/-- On `int`, `x >> 1` is the floor of `x / 2`. -/
theorem shiftRight_one (x : Int) : x >>> (1 : Nat) = x / 2 := by
  rw [Int.shiftRight_eq_div_pow]; rfl

/-! ### Basic facts on the vocabulary -/

@[simp]
theorem get_size_null : get_size (null : Node S) = 0 := rfl

@[simp]
theorem get_size_node (l r : Node S) (c : COLOR) (lev sz : Int) (v s : S) :
    get_size (node l r c lev sz v s) = sz := rfl

@[simp]
theorem sum_null : sum e (null : Node S) = e := rfl

@[simp]
theorem sum_node (l r : Node S) (c : COLOR) (lev sz : Int) (v s : S) :
    sum e (node l r c lev sz v s) = s := rfl

@[simp]
theorem isNull_null : (null : Node S).isNull = true := rfl

@[simp]
theorem isNull_node (l r : Node S) (c : COLOR) (lev sz : Int) (v s : S) :
    (node l r c lev sz v s).isNull = false := rfl

@[simp]
theorem leaves_null : leaves (null : Node S) = [] := rfl

theorem isNull_iff (t : Node S) : t.isNull = true ↔ t = null := by
  cases t <;> simp [Node.isNull]

theorem isNull_false_iff (t : Node S) : t.isNull = false ↔ ∃ l r c lev sz v s, t = node l r c lev sz v s := by
  cases t <;> simp [Node.isNull]

theorem valid_null : Valid (null : Node S) := ⟨trivial, trivial⟩

theorem aggOk_null : AggOk op e (null : Node S) := ⟨trivial, trivial⟩

theorem valid_leaf (k : S) : Valid (Node.leaf k) := by
  simp [Valid, Node.leaf, SizeOk, LevelOk]

theorem aggOk_leaf (h : Monoidal op e) (k : S) : AggOk op e (Node.leaf k) := by
  simp [AggOk, Node.leaf, SumOk, PayloadOk, h.id_left, h.id_right]

theorem leaves_leaf (k : S) : leaves (Node.leaf k) = [k] := by
  simp [Node.leaf, leaves]

theorem level_nonneg : ∀ (t : Node S), LevelOk t →
    ∀ l r c lev sz v s, t = node l r c lev sz v s → 0 ≤ lev := by
  intro t
  induction t with
  | null => intro _ l r c lev sz v s h; cases h
  | node l r c lev sz v s ihl _ =>
    intro h l1 r1 c1 lev1 sz1 v1 s1 heq
    cases heq
    cases l with
    | null => simp [LevelOk] at h; omega
    | node ll lr lc llev lsz lv ls =>
      simp only [LevelOk] at h
      have := ihl h.2.1 ll lr lc llev lsz lv ls rfl
      split_ifs at h <;> omega

theorem size_eq_length : ∀ (t : Node S), SizeOk t → get_size t = (leaves t).length := by
  intro t
  induction t with
  | null => intro _; simp
  | node l r c lev sz v s ihl ihr =>
    intro h
    simp only [SizeOk] at h
    obtain ⟨hsh, hsz, hl, hr⟩ := h
    cases hn : l.isNull
    · have hrn : r.isNull = false := by rw [← hsh, hn]
      simp [leaves, hn, hrn] at hsz ⊢
      rw [hsz, ihl hl, ihr hr]
    · have hrn : r.isNull = true := by rw [← hsh, hn]
      rw [isNull_iff] at hn hrn
      subst hn hrn
      simp [leaves] at hsz ⊢
      exact hsz

theorem dumpIter_eq : ∀ (t : Node S), SizeOk t → t.isNull = false → dumpIter t = some (leaves t) := by
  intro t
  induction t with
  | null => intro _ h; simp at h
  | node l r c lev sz v s ihl ihr =>
    intro h _
    simp only [SizeOk] at h
    obtain ⟨hsh, _, hl, hr⟩ := h
    cases hn : l.isNull
    · have hrn : r.isNull = false := by rw [← hsh, hn]
      simp [dumpIter, leaves, hn, ihl hl hn, ihr hr hrn]
    · simp [dumpIter, leaves, hn]

theorem dump_eq [Inhabited S] (t : Node S) (h : SizeOk t) (hn : t.isNull = false) :
    dump t = some (leaves t) := by
  simp [dump, dumpIter_eq t h hn, size_eq_length t h]

theorem toSeq_eq [Inhabited S] (t : Node S) (h : SizeOk t) : toSeq t = some (leaves t) := by
  unfold toSeq
  cases hn : t.isNull
  · simp [dump_eq t h hn]
  · rw [isNull_iff] at hn; subst hn; simp

/-! ### `update`, `rotate`, `submerge`, `merge` -/

theorem valid_recolor {l r : Node S} {c : COLOR} {lev sz : Int} {v s : S} (c1 : COLOR)
    (h : Valid (node l r c lev sz v s)) : Valid (node l r c1 lev sz v s) := by
  simpa [Valid, SizeOk, LevelOk] using h

theorem aggOk_recolor {l r : Node S} {c : COLOR} {lev sz : Int} {v s : S} (c1 : COLOR)
    (h : AggOk op e (node l r c lev sz v s)) : AggOk op e (node l r c1 lev sz v s) := by
  simpa [AggOk, SumOk, PayloadOk] using h

theorem leaves_recolor (l r : Node S) (c c1 : COLOR) (lev sz : Int) (v s : S) :
    leaves (node l r c1 lev sz v s) = leaves (node l r c lev sz v s) := by
  simp [leaves]

variable (op e)

theorem update_spec (l r : Node S) (c : COLOR) (lev sz : Int) (v s : S) (pre : Prop)
    (hl : Valid l) (hr : Valid r) (hln : l.isNull = false) (hrn : r.isNull = false)
    (hagg : pre → AggOk op e l ∧ AggOk op e r ∧ v = e) :
    ∃ t, update op e (node l r c lev sz v s) = some t ∧
      Joins op e pre (leaves l ++ leaves r) t := by
  refine ⟨_, rfl, rfl, ⟨?_, ?_⟩, ?_, ?_⟩
  · simp [SizeOk, hln, hrn, hl.1, hr.1]
  · simp [LevelOk, hl.2, hr.2]
  · simp [leaves, hln]
  · intro hp
    obtain ⟨⟨h1, h2⟩, ⟨h3, h4⟩, h5⟩ := hagg hp
    simp [AggOk, SumOk, PayloadOk, hln, h1, h2, h3, h4, h5]

theorem rotate_true_spec (sl sr tr : Node S) (sc tc : COLOR) (slev ssz tlev tsz : Int)
    (sv ss tv ts : S) (pre : Prop)
    (h1 : Valid sl) (h2 : Valid sr) (h3 : Valid tr)
    (n1 : sl.isNull = false) (n2 : sr.isNull = false) (n3 : tr.isNull = false)
    (hagg : pre → AggOk op e sl ∧ AggOk op e sr ∧ AggOk op e tr ∧ sv = e ∧ tv = e) :
    ∃ t, rotate op e (node (node sl sr sc slev ssz sv ss) tr tc tlev tsz tv ts) true = some t ∧
      Joins op e pre (leaves sl ++ (leaves sr ++ leaves tr)) t := by
  obtain ⟨t1, e1, n4, v4, l4, a4⟩ := update_spec op e sr tr tc tlev tsz tv ts pre
    h2 h3 n2 n3 (fun hp => ⟨(hagg hp).2.1, (hagg hp).2.2.1, (hagg hp).2.2.2.2⟩)
  obtain ⟨t2, e2, j2⟩ := update_spec op e sl t1 sc slev ssz sv ss pre
    h1 v4 n1 n4 (fun hp => ⟨(hagg hp).1, a4 hp, (hagg hp).2.2.2.1⟩)
  refine ⟨t2, ?_, ?_⟩
  · simp only [rotate, e1, Option.bind_eq_bind, Option.some_bind, e2]
  · rw [l4] at j2; exact j2

theorem rotate_false_spec (tl sl sr : Node S) (sc tc : COLOR) (slev ssz tlev tsz : Int)
    (sv ss tv ts : S) (pre : Prop)
    (h1 : Valid tl) (h2 : Valid sl) (h3 : Valid sr)
    (n1 : tl.isNull = false) (n2 : sl.isNull = false) (n3 : sr.isNull = false)
    (hagg : pre → AggOk op e tl ∧ AggOk op e sl ∧ AggOk op e sr ∧ sv = e ∧ tv = e) :
    ∃ t, rotate op e (node tl (node sl sr sc slev ssz sv ss) tc tlev tsz tv ts) false = some t ∧
      Joins op e pre ((leaves tl ++ leaves sl) ++ leaves sr) t := by
  obtain ⟨t1, e1, n4, v4, l4, a4⟩ := update_spec op e tl sl tc tlev tsz tv ts pre
    h1 h2 n1 n2 (fun hp => ⟨(hagg hp).1, (hagg hp).2.1, (hagg hp).2.2.2.2⟩)
  obtain ⟨t2, e2, j2⟩ := update_spec op e t1 sr sc slev ssz sv ss pre
    v4 h3 n4 n3 (fun hp => ⟨a4 hp, (hagg hp).2.2.1, (hagg hp).2.2.2.1⟩)
  refine ⟨t2, ?_, ?_⟩
  · simp only [rotate, e1, Option.bind_eq_bind, Option.some_bind, e2]
  · rw [l4] at j2; exact j2

variable {op e}

/-- Parts of a valid internal node. -/
theorem valid_node_parts {l r : Node S} {c : COLOR} {lev sz : Int} {v s : S}
    (h : Valid (node l r c lev sz v s)) (hn : l.isNull = false) :
    Valid l ∧ Valid r ∧ r.isNull = false := by
  obtain ⟨hs, hl⟩ := h
  simp only [SizeOk] at hs
  simp only [LevelOk] at hl
  exact ⟨⟨hs.2.2.1, hl.2.1⟩, ⟨hs.2.2.2, hl.2.2⟩, by rw [← hs.1, hn]⟩

theorem aggOk_node_parts {l r : Node S} {c : COLOR} {lev sz : Int} {v s : S}
    (h : AggOk op e (node l r c lev sz v s)) (hn : l.isNull = false) :
    AggOk op e l ∧ AggOk op e r ∧ v = e := by
  obtain ⟨hs, hp⟩ := h
  simp only [SumOk] at hs
  simp only [PayloadOk] at hp
  exact ⟨⟨hs.2.1, hp.2.1⟩, ⟨hs.2.2, hp.2.2⟩, hp.1 hn⟩

/-- A valid node whose level is positive has a left child. -/
theorem left_of_level_pos {l r : Node S} {c : COLOR} {lev sz : Int} {v s : S}
    (h : Valid (node l r c lev sz v s)) (hpos : 0 < lev) : l.isNull = false := by
  cases l with
  | null => have := h.2; simp [LevelOk] at this; omega
  | node _ _ _ _ _ _ _ => rfl

theorem isNull_of_isRed {t : Node S} (h : t.isRed = true) : t.isNull = false := by
  cases t with
  | null => simp [Node.isRed] at h
  | node _ _ _ _ _ _ _ => rfl

variable (op e)

theorem submerge_spec (pre : Prop) : ∀ (n : Nat) (l r : Node S), l.nodes + r.nodes = n →
    Valid l → Valid r → l.isNull = false → r.isNull = false →
    (pre → AggOk op e l ∧ AggOk op e r) →
    ∃ c, submerge op e l r = some c ∧ Joins op e pre (leaves l ++ leaves r) c := by
  intro n
  induction n using Nat.strong_induction_on with
  | _ n ih =>
    intro l r hn hl hr hln hrn hagg
    obtain ⟨ll, lr, lc, llev, lsz, lv, ls, rfl⟩ := (isNull_false_iff l).1 hln
    obtain ⟨rl, rr, rc, rlev, rsz, rv, rs, rfl⟩ := (isNull_false_iff r).1 hrn
    have hl0 : 0 ≤ llev := level_nonneg _ hl.2 _ _ _ _ _ _ _ rfl
    have hr0 : 0 ≤ rlev := level_nonneg _ hr.2 _ _ _ _ _ _ _ rfl
    rw [submerge]
    by_cases h1 : llev < rlev
    · rw [if_pos h1]
      have hrl : rl.isNull = false := left_of_level_pos hr (by omega)
      obtain ⟨vrl, vrr, hrr⟩ := valid_node_parts hr hrl
      obtain ⟨c, ec, nc, vc, lvc, ac⟩ := ih (Node.nodes (node ll lr lc llev lsz lv ls) + rl.nodes)
        (by simp only [Node.nodes] at hn ⊢; omega) (node ll lr lc llev lsz lv ls) rl rfl hl vrl hln hrl
        (fun hp => ⟨(hagg hp).1, (aggOk_node_parts (hagg hp).2 hrl).1⟩)
      rw [ec]
      obtain ⟨cl, cr, cc, clev, csz, cv, cs, rfl⟩ := (isNull_false_iff c).1 nc
      have hleaves : leaves (node ll lr lc llev lsz lv ls) ++ leaves (node rl rr rc rlev rsz rv rs)
          = leaves (node cl cr cc clev csz cv cs) ++ leaves rr := by
        rw [lvc, List.append_assoc]; simp [leaves, hrl]
      rw [hleaves]
      dsimp only
      by_cases h2 : rc = BLACK ∧ cc = RED ∧ cl.isRed = true
      · rw [if_pos h2]
        have hcl : cl.isNull = false := isNull_of_isRed h2.2.2
        obtain ⟨vcl, vcr, hcr⟩ := valid_node_parts vc hcl
        obtain ⟨rrl, rrr, rrc, rrlev, rrsz, rrv, rrs, rfl⟩ := (isNull_false_iff rr).1 hrr
        dsimp only
        have hlv : leaves (node cl cr cc clev csz cv cs) = leaves cl ++ leaves cr := by
          simp [leaves, hcl]
        by_cases h3 : rrc = BLACK
        · rw [if_pos h3, hlv, List.append_assoc]
          exact rotate_true_spec op e cl cr _ _ _ _ _ _ _ _ _ _ _ pre vcl vcr vrr hcl hcr rfl
            (fun hp => ⟨(aggOk_node_parts (ac hp) hcl).1, (aggOk_node_parts (ac hp) hcl).2.1,
              (aggOk_node_parts (hagg hp).2 hrl).2.1, (aggOk_node_parts (ac hp) hcl).2.2,
              (aggOk_node_parts (hagg hp).2 hrl).2.2⟩)
        · rw [if_neg h3]
          have := update_spec op e (node cl cr BLACK clev csz cv cs)
            (node rrl rrr BLACK rrlev rrsz rrv rrs) RED rlev rsz rv rs pre
            (valid_recolor _ vc) (valid_recolor _ vrr) rfl rfl
            (fun hp => ⟨aggOk_recolor _ (ac hp),
              aggOk_recolor _ (aggOk_node_parts (hagg hp).2 hrl).2.1,
              (aggOk_node_parts (hagg hp).2 hrl).2.2⟩)
          rw [leaves_recolor cl cr cc BLACK, leaves_recolor rrl rrr rrc BLACK] at this
          exact this
      · rw [if_neg h2]
        exact update_spec op e _ rr rc rlev rsz rv rs pre vc vrr rfl hrr
          (fun hp => ⟨ac hp, (aggOk_node_parts (hagg hp).2 hrl).2.1,
            (aggOk_node_parts (hagg hp).2 hrl).2.2⟩)
    · rw [if_neg h1]
      by_cases h4 : llev > rlev
      · rw [if_pos h4]
        have hll : ll.isNull = false := left_of_level_pos hl (by omega)
        obtain ⟨vll, vlr, hlr⟩ := valid_node_parts hl hll
        obtain ⟨c, ec, nc, vc, lvc, ac⟩ := ih (lr.nodes + Node.nodes (node rl rr rc rlev rsz rv rs))
          (by simp only [Node.nodes] at hn ⊢; omega) lr (node rl rr rc rlev rsz rv rs) rfl vlr hr hlr hrn
          (fun hp => ⟨(aggOk_node_parts (hagg hp).1 hll).2.1, (hagg hp).2⟩)
        rw [ec]
        obtain ⟨cl, cr, cc, clev, csz, cv, cs, rfl⟩ := (isNull_false_iff c).1 nc
        have hleaves : leaves (node ll lr lc llev lsz lv ls) ++ leaves (node rl rr rc rlev rsz rv rs)
            = leaves ll ++ leaves (node cl cr cc clev csz cv cs) := by
          rw [lvc, ← List.append_assoc]; simp [leaves, hll]
        rw [hleaves]
        dsimp only
        by_cases h2 : lc = BLACK ∧ cc = RED ∧ cr.isRed = true
        · rw [if_pos h2]
          have hcr : cr.isNull = false := isNull_of_isRed h2.2.2
          have hcl : cl.isNull = false := by
            have := vc.1; simp only [SizeOk] at this; rw [this.1, hcr]
          obtain ⟨vcl, vcr, _⟩ := valid_node_parts vc hcl
          obtain ⟨lll, llr, llc, lllev, llsz, llv, lls, rfl⟩ := (isNull_false_iff ll).1 hll
          dsimp only
          have hlv : leaves (node cl cr cc clev csz cv cs) = leaves cl ++ leaves cr := by
            simp [leaves, hcl]
          by_cases h3 : llc = BLACK
          · rw [if_pos h3, hlv, ← List.append_assoc]
            exact rotate_false_spec op e _ cl cr _ _ _ _ _ _ _ _ _ _ pre vll vcl vcr rfl hcl hcr
              (fun hp => ⟨(aggOk_node_parts (hagg hp).1 hll).1, (aggOk_node_parts (ac hp) hcl).1,
                (aggOk_node_parts (ac hp) hcl).2.1, (aggOk_node_parts (ac hp) hcl).2.2,
                (aggOk_node_parts (hagg hp).1 hll).2.2⟩)
          · rw [if_neg h3]
            have := update_spec op e (node lll llr BLACK lllev llsz llv lls)
              (node cl cr BLACK clev csz cv cs) RED llev lsz lv ls pre
              (valid_recolor _ vll) (valid_recolor _ vc) rfl rfl
              (fun hp => ⟨aggOk_recolor _ (aggOk_node_parts (hagg hp).1 hll).1,
                aggOk_recolor _ (ac hp), (aggOk_node_parts (hagg hp).1 hll).2.2⟩)
            rw [leaves_recolor cl cr cc BLACK, leaves_recolor lll llr llc BLACK] at this
            exact this
        · rw [if_neg h2]
          exact update_spec op e ll _ lc llev lsz lv ls pre vll vc hll rfl
            (fun hp => ⟨(aggOk_node_parts (hagg hp).1 hll).1, ac hp,
              (aggOk_node_parts (hagg hp).1 hll).2.2⟩)
      · rw [if_neg h4]
        exact update_spec op e _ _ RED 0 0 e e pre hl hr rfl rfl
          (fun hp => ⟨(hagg hp).1, (hagg hp).2, rfl⟩)

theorem merge_null_left (r : Node S) : merge op e null r = some r := by
  cases r <;> simp [merge]

theorem merge_null_right (l : Node S) : merge op e l null = some l := by
  cases l <;> simp [merge]

/-- On valid operands `merge` is defined and yields a valid tree for the
concatenation; it is absent only when both operands are. -/
theorem merge_spec (pre : Prop) (l r : Node S) (hl : Valid l) (hr : Valid r)
    (hagg : pre → AggOk op e l ∧ AggOk op e r) :
    ∃ c, merge op e l r = some c ∧ Valid c ∧ leaves c = leaves l ++ leaves r ∧
      (pre → AggOk op e c) ∧ c.isNull = (l.isNull && r.isNull) := by
  cases hln : l.isNull
  · cases hrn : r.isNull
    · obtain ⟨c, ec, nc, vc, lc, ac⟩ := submerge_spec op e pre _ l r rfl hl hr hln hrn hagg
      obtain ⟨cl, cr, cc, clev, csz, cv, cs, rfl⟩ := (isNull_false_iff c).1 nc
      refine ⟨node cl cr BLACK clev csz cv cs, ?_, valid_recolor _ vc, ?_,
        fun hp => aggOk_recolor _ (ac hp), rfl⟩
      · simp [merge, hln, hrn, ec]
      · rw [leaves_recolor cl cr cc BLACK, lc]
    · rw [isNull_iff] at hrn; subst hrn
      exact ⟨l, merge_null_right op e l, hl, by simp, fun hp => (hagg hp).1, by simp [hln]⟩
  · rw [isNull_iff] at hln; subst hln
    exact ⟨r, merge_null_left op e r, hr, by simp, fun hp => (hagg hp).2, by simp⟩

/-- The member `split` on a valid tree within range: both parts are valid and stand for
the first `k` and the remaining elements. -/
theorem split_spec (pre : Prop) : ∀ (t : Node S), Valid t → (pre → AggOk op e t) →
    ∀ k : Int, 0 ≤ k → k ≤ get_size t →
    ∃ p s, split op e t k = some (p, s) ∧ Valid p ∧ Valid s ∧
      leaves p = (leaves t).take k.toNat ∧ leaves s = (leaves t).drop k.toNat ∧
      (pre → AggOk op e p ∧ AggOk op e s) := by
  intro t
  induction t with
  | null =>
    intro _ _ k _ _
    exact ⟨null, null, rfl, valid_null, valid_null, by simp, by simp,
      fun _ => ⟨aggOk_null, aggOk_null⟩⟩
  | node l r c lev sz v s ihl ihr =>
    intro ht hagg k hk0 hkn
    have hlen := size_eq_length _ ht.1
    simp only [get_size_node] at hkn hlen
    rw [split]
    by_cases h0 : k = 0
    · rw [if_pos h0]
      subst h0
      exact ⟨null, _, rfl, valid_null, ht, by simp, by simp, fun hp => ⟨aggOk_null, hagg hp⟩⟩
    rw [if_neg h0]
    by_cases h1 : k ≥ sz
    · rw [if_pos h1]
      have hk : (leaves (node l r c lev sz v s)).length ≤ k.toNat := by omega
      exact ⟨_, null, rfl, ht, valid_null, (List.take_of_length_le hk).symm,
        by rw [List.drop_of_length_le hk]; rfl, fun hp => ⟨hagg hp, aggOk_null⟩⟩
    rw [if_neg h1]
    have hln : l.isNull = false := by
      cases hq : l.isNull
      · rfl
      · exfalso
        have h2 := ht.1
        simp only [SizeOk] at h2
        have hrq : r.isNull = true := by rw [← h2.1, hq]
        rw [isNull_iff] at hq hrq
        subst hq hrq
        simp at h2
        omega
    obtain ⟨vl, vr, hrn⟩ := valid_node_parts ht hln
    have hll := size_eq_length _ vl.1
    have hlr := size_eq_length _ vr.1
    have hlv : leaves (node l r c lev sz v s) = leaves l ++ leaves r := by simp [leaves, hln]
    rw [hlv] at hlen ⊢
    rw [List.length_append] at hlen
    by_cases h2 : k < get_size l
    · rw [if_pos h2]
      obtain ⟨p1, s1, e1, vp, vs, lp, ls, ag⟩ := ihl vl
        (fun hp => (aggOk_node_parts (hagg hp) hln).1) k hk0 (by omega)
      obtain ⟨m, em, vm, lm, am, _⟩ := merge_spec op e pre s1 r vs vr
        (fun hp => ⟨(ag hp).2, (aggOk_node_parts (hagg hp) hln).2.1⟩)
      refine ⟨p1, m, ?_, vp, vm, ?_, ?_, fun hp => ⟨(ag hp).1, am hp⟩⟩
      · simp [e1, em]
      · rw [lp, List.take_append_of_le_length (by omega)]
      · rw [lm, ls, List.drop_append_of_le_length (by omega)]
    rw [if_neg h2]
    by_cases h3 : k > get_size l
    · rw [if_pos h3]
      obtain ⟨p1, s1, e1, vp, vs, lp, ls, ag⟩ := ihr vr
        (fun hp => (aggOk_node_parts (hagg hp) hln).2.1) (k - get_size l) (by omega) (by omega)
      obtain ⟨m, em, vm, lm, am, _⟩ := merge_spec op e pre l p1 vl vp
        (fun hp => ⟨(aggOk_node_parts (hagg hp) hln).1, (ag hp).1⟩)
      have hk : k.toNat = (leaves l).length + (k - get_size l).toNat := by omega
      refine ⟨m, s1, ?_, vm, vs, ?_, ?_, fun hp => ⟨am hp, (ag hp).2⟩⟩
      · simp [e1, em]
      · rw [lm, lp, hk, List.take_append]
      · rw [ls, hk, List.drop_append]
    · rw [if_neg h3]
      have hk : k.toNat = (leaves l).length := by omega
      refine ⟨l, r, rfl, vl, vr, ?_, ?_, fun hp =>
        ⟨(aggOk_node_parts (hagg hp) hln).1, (aggOk_node_parts (hagg hp) hln).2.1⟩⟩
      · rw [hk, List.take_left]
      · rw [hk, List.drop_left]

/-- On a non-empty index range inside `v`, `buildRange` is defined and yields a
valid tree for `v[l..r)`. -/
theorem buildRange_spec (pre : Prop) (hm : pre → Monoidal op e) (v : List S) :
    ∀ (n : Nat) (l r : Int), (r - l).toNat = n → 0 ≤ l → l < r → r ≤ v.length →
    ∃ t, buildRange op e v l r = some t ∧ t.isNull = false ∧ Valid t ∧
      leaves t = (v.drop l.toNat).take (r - l).toNat ∧ (pre → AggOk op e t) := by
  intro n
  induction n using Nat.strong_induction_on with
  | _ n ih =>
    intro l r hn hl hlr hr
    rw [buildRange]
    by_cases h1 : l + 1 ≥ r
    · rw [if_pos h1, if_pos hl]
      have hlt : l.toNat < v.length := by omega
      have hrl : (r - l).toNat = 1 := by omega
      refine ⟨Node.leaf (v.get ⟨l.toNat, hlt⟩), ?_, rfl, valid_leaf _, ?_,
        fun hp => aggOk_leaf (hm hp) _⟩
      · rw [List.get?_eq_get hlt]; rfl
      · rw [leaves_leaf, hrl, List.drop_eq_getElem_cons hlt]
        rfl
    · rw [if_neg h1]
      have h2 := shiftRight_one (l + r)
      obtain ⟨a, ea, na, va, la, aa⟩ := ih _ (by omega) l ((l + r) >>> (1 : Nat)) rfl hl
        (by omega) (by omega)
      obtain ⟨b, eb, nb, vb, lb, ab⟩ := ih _ (by omega) ((l + r) >>> (1 : Nat)) r rfl
        (by omega) (by omega) hr
      obtain ⟨c, ec, vc, lc, ac, nc⟩ := merge_spec op e pre a b va vb (fun hp => ⟨aa hp, ab hp⟩)
      refine ⟨c, ?_, ?_, vc, ?_, ac⟩
      · simp only [ea, eb, Option.bind_eq_bind, Option.some_bind, ec]
      · rw [nc, na]; rfl
      · rw [lc, la, lb]
        have e1 : ((l + r) >>> (1 : Nat)).toNat = l.toNat + ((l + r) >>> (1 : Nat) - l).toNat := by
          omega
        have e2 : (r - l).toNat =
            ((l + r) >>> (1 : Nat) - l).toNat + (r - (l + r) >>> (1 : Nat)).toNat := by omega
        rw [e2, List.take_add, List.drop_drop, ← e1]

variable {op e}

/-! ### Folds and cached aggregates -/

theorem fold_nil : fold op e [] = e := rfl

theorem foldl_op_init (h : Monoidal op e) (a : S) (xs : List S) :
    xs.foldl op a = op a (xs.foldl op e) := by
  induction xs generalizing a with
  | nil => simp [h.id_right]
  | cons x xs ih =>
    simp only [List.foldl_cons]
    rw [ih (op a x), ih (op e x), h.id_left, h.assoc]

theorem fold_append (h : Monoidal op e) (xs ys : List S) :
    fold op e (xs ++ ys) = op (fold op e xs) (fold op e ys) := by
  unfold fold
  rw [List.foldl_append, foldl_op_init h]

theorem fold_singleton (h : Monoidal op e) (x : S) : fold op e [x] = x := by
  simp [fold, h.id_left]

/-- The cached aggregate of a tree is the fold of its leaves. -/
theorem sum_eq_fold (h : Monoidal op e) : ∀ (t : Node S), SizeOk t → SumOk op e t →
    sum e t = fold op e (leaves t) := by
  intro t
  induction t with
  | null => intro _ _; rfl
  | node l r c lev sz v s ihl ihr =>
    intro hz hs
    simp only [SumOk] at hs
    simp only [SizeOk] at hz
    obtain ⟨h1, h2, h3⟩ := hs
    cases hn : l.isNull
    · simp only [hn, Bool.false_eq_true, if_false] at h1
      simp only [sum_node, leaves, hn, Bool.false_eq_true, if_false]
      rw [h1, h.id_right, fold_append h, ihl hz.2.2.1 h2, ihr hz.2.2.2 h3]
    · have hrn : r.isNull = true := by rw [← hz.1, hn]
      rw [isNull_iff] at hn hrn
      subst hn hrn
      simp only [isNull_null, if_true, sum_null] at h1
      simp only [sum_node, leaves, isNull_null, if_true]
      rw [h1, h.id_left, h.id_right, fold_singleton h]

/-- A non-absent tree with a valid shape holds at least one element. -/
theorem size_pos : ∀ (t : Node S), SizeOk t → t.isNull = false → 1 ≤ get_size t := by
  intro t
  induction t with
  | null => intro _ h; simp at h
  | node l r c lev sz v s ihl ihr =>
    intro hz _
    simp only [SizeOk] at hz
    obtain ⟨hsh, hsz, hl, hr⟩ := hz
    simp only [get_size_node]
    cases hn : l.isNull
    · have hrn : r.isNull = false := by rw [← hsh, hn]
      have := ihl hl hn
      have := ihr hr hrn
      simp [hn, hrn] at hsz
      omega
    · simp [hn] at hsz
      have hrn : r.isNull = true := by rw [← hsh, hn]
      rw [isNull_iff] at hn hrn
      subst hn hrn
      simp at hsz
      omega

/-- A valid tree of size one is a leaf, and its value is its only element. -/
theorem singleton_self_val {l r : Node S} {c : COLOR} {lev sz : Int} {v s x : S}
    (hz : SizeOk (node l r c lev sz v s)) (hx : leaves (node l r c lev sz v s) = [x]) :
    v = x := by
  have hlen := size_eq_length _ hz
  simp only [SizeOk] at hz
  obtain ⟨hsh, hsz, hl, hr⟩ := hz
  cases hn : l.isNull
  · exfalso
    have hrn : r.isNull = false := by rw [← hsh, hn]
    have h1 := size_pos l hl hn
    have h2 := size_pos r hr hrn
    rw [hx] at hlen
    simp [hn, hrn] at hsz hlen
    omega
  · simp [leaves, hn] at hx
    exact hx

theorem monoidal_append : Monoidal (fun x y : List Nat => x ++ y) [] :=
  ⟨List.append_assoc, List.nil_append, List.append_nil⟩

theorem valid_tree3 : Valid tree3 := by
  simp [Valid, SizeOk, LevelOk, tree3, Node.leaf]

theorem valid_tree3L : Valid tree3L := by
  simp [Valid, SizeOk, LevelOk, tree3L, Node.leaf]

theorem sumOk_tree3L : SumOk (fun x y : List Nat => x ++ y) [] tree3L := by
  simp [SumOk, tree3L, Node.leaf]

theorem payloadOk_tree3L : PayloadOk ([] : List Nat) tree3L := by
  simp [PayloadOk, tree3L, Node.leaf]

variable (op e)

/-- The member `insert` on a valid tree puts `v` in front of position `k`. -/
theorem insert_spec (pre : Prop) (hm : pre → Monoidal op e) (t : Node S) (k : Int) (v : S)
    (ht : Valid t) (hagg : pre → AggOk op e t) (hk0 : 0 ≤ k) (hkn : k ≤ get_size t) :
    ∃ t1, insert op e t k v = some t1 ∧ Valid t1 ∧
      leaves t1 = (leaves t).take k.toNat ++ v :: (leaves t).drop k.toNat ∧
      (pre → AggOk op e t1) := by
  obtain ⟨p, s, es, vp, vs, lp, ls, ag⟩ := split_spec op e pre t ht hagg k hk0 hkn
  obtain ⟨m, em, vm, lm, am, _⟩ := merge_spec op e pre p (Node.leaf v) vp (valid_leaf v)
    (fun hp => ⟨(ag hp).1, aggOk_leaf (hm hp) v⟩)
  obtain ⟨c, ec, vc, lc, ac, _⟩ := merge_spec op e pre m s vm vs (fun hp => ⟨am hp, (ag hp).2⟩)
  refine ⟨c, ?_, vc, ?_, ac⟩
  · simp [insert, es, em, ec]
  · rw [lc, lm, lp, ls, leaves_leaf]; simp

/-- The member `erase` on a valid tree returns the element at position `k` and removes it. -/
theorem erase_spec (pre : Prop) (t : Node S) (k : Int)
    (ht : Valid t) (hagg : pre → AggOk op e t) (hk0 : 0 ≤ k) (hkn : k < get_size t) :
    ∃ t1 v, erase op e t k = some (t1, v) ∧ Valid t1 ∧
      (leaves t).get? k.toNat = some v ∧
      leaves t1 = (leaves t).eraseIdx k.toNat ∧ (pre → AggOk op e t1) := by
  have hlen := size_eq_length t ht.1
  obtain ⟨p, s, es, vp, vs, lp, ls, ag⟩ := split_spec op e pre t ht hagg k hk0 (by omega)
  have hls := size_eq_length s vs.1
  have hsl : (leaves s).length = (leaves t).length - k.toNat := by rw [ls, List.length_drop]
  obtain ⟨y1, y2, ey, vy1, vy2, ly1, ly2, agy⟩ := split_spec op e pre s vs (fun hp => (ag hp).2)
    1 (by omega) (by omega)
  obtain ⟨c, ec, vc, lc, ac, _⟩ := merge_spec op e pre p y2 vp vy2
    (fun hp => ⟨(ag hp).1, (agy hp).2⟩)
  have hkl : k.toNat < (leaves t).length := by omega
  have hy1 : leaves y1 = [(leaves t).get ⟨k.toNat, hkl⟩] := by
    rw [ly1, ls, List.drop_eq_getElem_cons hkl]; rfl
  cases y1 with
  | null => simp at hy1
  | node yl yr yc ylev ysz yv ys =>
    have hv := singleton_self_val vy1.1 hy1
    refine ⟨c, yv, ?_, vc, ?_, ?_, ac⟩
    · simp [erase, es, ey, ec]
    · rw [hv, List.get?_eq_get hkl]
    · rw [lc, lp, ly2, ls, List.drop_drop, List.eraseIdx_eq_take_drop_succ]
      rfl

variable {op e}

/-! ### Construction and traversal -/

/-- For a non-empty input `build` is defined and `dump` of the result is the
input, in order. -/
theorem build_dump_of_ne_nil [Inhabited S] (op : S → S → S) (e : S) (L : List S)
    (hL : L ≠ []) : ∃ t, build op e L = some t ∧ Valid t ∧ dump t = some L := by
  have hpos : 0 < L.length := List.length_pos.2 hL
  obtain ⟨t, et, nt, vt, lt, _⟩ := buildRange_spec op e False (fun h => h.elim) L _ 0 L.length rfl
    (le_refl 0) (by omega) (le_refl _)
  refine ⟨t, et, vt, ?_⟩
  rw [dump_eq t vt.1 nt, lt]
  simp

/-- C1 (at the empty input): `build` of the empty vector has no defined
result, since `build(0, 0, v)` takes the branch `l + 1 >= r` and reads `v[0]`;
so `dump(build([]))` is not the empty sequence. -/
theorem build_nil_undefined (op : S → S → S) (e : S) :
    build op e ([] : List S) = none := by
  unfold build
  rw [buildRange]
  simp

/-- C2: on a tree `t` with valid cached fields and `0 ≤ k ≤ size(t)`,
`split(t, k)` is defined and gives `(p, s)` with `size(p) = k`,
`size(s) = size(t) - k` and `dump(p) ++ dump(s) = dump(t)`, the absent tree
standing for the empty sequence. -/
theorem split_size_dump [Inhabited S] (op : S → S → S) (e : S) (t : Node S) (k : Int)
    (ht : Valid t) (hk0 : 0 ≤ k) (hkn : k ≤ get_size t) :
    ∃ p s xs ys, split op e t k = some (p, s) ∧
      get_size p = k ∧ get_size s = get_size t - k ∧
      toSeq p = some xs ∧ toSeq s = some ys ∧ toSeq t = some (xs ++ ys) := by
  obtain ⟨p, s, es, vp, vs, lp, ls, _⟩ := split_spec op e False t ht (fun h => h.elim) k hk0 hkn
  have hlen := size_eq_length t ht.1
  refine ⟨p, s, leaves p, leaves s, es, ?_, ?_, toSeq_eq p vp.1, toSeq_eq s vs.1, ?_⟩
  · rw [size_eq_length p vp.1, lp, List.length_take]; omega
  · rw [size_eq_length s vs.1, ls, List.length_drop]; omega
  · rw [toSeq_eq t ht.1, lp, ls, List.take_append_drop]

/-- C2 on the scenario of the specification: the tree built from
`[(1,2),(5,1),(3,9)]`, split at `1`, gives `[(1,2)]` and `[(5,1),(3,9)]`. -/
theorem split_size_dump_witness :
    build op_pii (e_pii 1000000000) seq3 = some tree3 ∧
    (Valid tree3 ∧ (0 : Int) ≤ 1 ∧ (1 : Int) ≤ get_size tree3) ∧
    (∃ p s xs ys, split op_pii (e_pii 1000000000) tree3 1 = some (p, s) ∧
      get_size p = 1 ∧ get_size s = get_size tree3 - 1 ∧
      toSeq p = some xs ∧ toSeq s = some ys ∧ toSeq tree3 = some (xs ++ ys)) ∧
    (∃ p s, split op_pii (e_pii 1000000000) tree3 1 = some (p, s) ∧
      dump p = some [(1, 2)] ∧ dump s = some [(5, 1), (3, 9)]) :=
  ⟨by decide, ⟨valid_tree3, by decide, by decide⟩,
    split_size_dump op_pii (e_pii 1000000000) tree3 1 valid_tree3 (by decide) (by decide),
    ⟨_, _, rfl, by decide, by decide⟩⟩

/-- C3: for trees `l` and `r` (either may be absent) whose cached size and
level fields are those `update` computes, `merge(l, r)` is defined, stands for
`dump(l) ++ dump(r)`, has size `size(l) + size(r)`, and is the other operand
itself when one operand is absent. -/
theorem merge_concat [Inhabited S] (op : S → S → S) (e : S) (l r : Node S)
    (hl : Valid l) (hr : Valid r) :
    ∃ c xs ys, merge op e l r = some c ∧
      toSeq l = some xs ∧ toSeq r = some ys ∧ toSeq c = some (xs ++ ys) ∧
      get_size c = get_size l + get_size r ∧
      (l = null → c = r) ∧ (r = null → c = l) := by
  obtain ⟨c, ec, vc, lc, _, _⟩ := merge_spec op e False l r hl hr (fun h => h.elim)
  refine ⟨c, leaves l, leaves r, ec, toSeq_eq l hl.1, toSeq_eq r hr.1, ?_, ?_, ?_, ?_⟩
  · rw [toSeq_eq c vc.1, lc]
  · rw [size_eq_length c vc.1, size_eq_length l hl.1, size_eq_length r hr.1, lc,
      List.length_append]
    push_cast; rfl
  · intro h; subst h
    rw [merge_null_left] at ec
    exact (Option.some.inj ec).symm
  · intro h; subst h
    rw [merge_null_right] at ec
    exact (Option.some.inj ec).symm

/-- C3 on a concrete pair of trees. -/
theorem merge_concat_witness :
    (Valid tree3 ∧ Valid (Node.leaf ((7 : Int), (8 : Int)))) ∧
    ∃ c xs ys, merge op_pii (e_pii 1000000000) tree3 (Node.leaf (7, 8)) = some c ∧
      toSeq tree3 = some xs ∧ toSeq (Node.leaf ((7 : Int), (8 : Int))) = some ys ∧
      toSeq c = some (xs ++ ys) ∧
      get_size c = get_size tree3 + get_size (Node.leaf ((7 : Int), (8 : Int))) ∧
      (tree3 = null → c = Node.leaf (7, 8)) ∧ (Node.leaf ((7 : Int), (8 : Int)) = null → c = tree3) :=
  ⟨⟨valid_tree3, valid_leaf _⟩,
    merge_concat op_pii (e_pii 1000000000) tree3 (Node.leaf (7, 8)) valid_tree3 (valid_leaf _)⟩

/-- C4: for a tree `t` with valid cached fields, `op` associative with identity
`e()`, and `0 ≤ k ≤ size(t)`, merging the two results of `split(t, k)` is
defined and gives a tree with the same `dump` and the same cached root
aggregate as `t`. -/
theorem split_merge_roundtrip [Inhabited S] (op : S → S → S) (e : S) (hm : Monoidal op e)
    (t : Node S) (k : Int) (ht : Valid t) (hs : SumOk op e t) (hp : PayloadOk e t)
    (hk0 : 0 ≤ k) (hkn : k ≤ get_size t) :
    ∃ p s c xs, split op e t k = some (p, s) ∧ merge op e p s = some c ∧
      toSeq t = some xs ∧ toSeq c = some xs ∧ sum e c = sum e t := by
  obtain ⟨p, s, es, vp, vs, lp, ls, ag⟩ := split_spec op e True t ht (fun _ => ⟨hs, hp⟩) k hk0 hkn
  obtain ⟨c, ec, vc, lc, ac, _⟩ := merge_spec op e True p s vp vs ag
  have hleaves : leaves c = leaves t := by rw [lc, lp, ls, List.take_append_drop]
  refine ⟨p, s, c, leaves t, es, ec, toSeq_eq t ht.1, ?_, ?_⟩
  · rw [toSeq_eq c vc.1, hleaves]
  · rw [sum_eq_fold hm c vc.1 (ac trivial).1, sum_eq_fold hm t ht.1 hs, hleaves]

/-- C4 on a concrete tree over lists under concatenation. -/
theorem split_merge_roundtrip_witness :
    (Monoidal (fun x y : List Nat => x ++ y) [] ∧ Valid tree3L ∧
      SumOk (fun x y : List Nat => x ++ y) [] tree3L ∧ PayloadOk [] tree3L ∧
      (0 : Int) ≤ 2 ∧ (2 : Int) ≤ get_size tree3L) ∧
    ∃ p s c xs, split (fun x y : List Nat => x ++ y) [] tree3L 2 = some (p, s) ∧
      merge (fun x y : List Nat => x ++ y) [] p s = some c ∧
      toSeq tree3L = some xs ∧ toSeq c = some xs ∧ sum [] c = sum [] tree3L :=
  ⟨⟨monoidal_append, valid_tree3L, sumOk_tree3L, payloadOk_tree3L, by decide, by decide⟩,
    split_merge_roundtrip _ _ monoidal_append tree3L 2 valid_tree3L sumOk_tree3L
      payloadOk_tree3L (by decide) (by decide)⟩

/-- C7: for a tree `t` with valid cached fields and `0 ≤ k < size(t)`,
`erase(t, k)` is defined, returns `dump(t)[k]`, and leaves `t` standing for
`dump(t)` without position `k`, one element shorter. -/
theorem erase_removes [Inhabited S] (op : S → S → S) (e : S) (t : Node S) (k : Int)
    (ht : Valid t) (hk0 : 0 ≤ k) (hkn : k < get_size t) :
    ∃ t1 v xs, erase op e t k = some (t1, v) ∧ toSeq t = some xs ∧
      xs.get? k.toNat = some v ∧ toSeq t1 = some (xs.eraseIdx k.toNat) ∧
      get_size t1 = get_size t - 1 := by
  obtain ⟨t1, v, ee, v1, hv, l1, _⟩ := erase_spec op e False t k ht (fun h => h.elim) hk0 hkn
  have hlen := size_eq_length t ht.1
  refine ⟨t1, v, leaves t, ee, toSeq_eq t ht.1, hv, ?_, ?_⟩
  · rw [toSeq_eq t1 v1.1, l1]
  · rw [size_eq_length t1 v1.1, l1, List.length_eraseIdx, hlen]
    have : k.toNat < (leaves t).length := by omega
    simp only [this, if_true]
    omega

/-- C7 on the scenario tree, erasing position `1`. -/
theorem erase_removes_witness :
    (Valid tree3 ∧ (0 : Int) ≤ 1 ∧ (1 : Int) < get_size tree3) ∧
    ∃ t1 v xs, erase op_pii (e_pii 1000000000) tree3 1 = some (t1, v) ∧
      toSeq tree3 = some xs ∧ xs.get? (1 : Int).toNat = some v ∧
      toSeq t1 = some (xs.eraseIdx (1 : Int).toNat) ∧ get_size t1 = get_size tree3 - 1 :=
  ⟨⟨valid_tree3, by decide, by decide⟩,
    erase_removes op_pii (e_pii 1000000000) tree3 1 valid_tree3 (by decide) (by decide)⟩

/-- C6: for a tree `t` (possibly absent) with valid cached fields,
`0 ≤ k ≤ size(t)` and any `v`, `insert(t, k, v)` followed by `erase(·, k)` is
defined, returns `v`, and the resulting tree has the `dump` of `t`. -/
theorem insert_erase_roundtrip [Inhabited S] (op : S → S → S) (e : S) (t : Node S) (k : Int)
    (v : S) (ht : Valid t) (hk0 : 0 ≤ k) (hkn : k ≤ get_size t) :
    ∃ t1 t2 xs, insert op e t k v = some t1 ∧ erase op e t1 k = some (t2, v) ∧
      toSeq t = some xs ∧ toSeq t2 = some xs := by
  have hlen := size_eq_length t ht.1
  obtain ⟨t1, e1, v1, l1, _⟩ := insert_spec op e False (fun h => h.elim) t k v ht
    (fun h => h.elim) hk0 hkn
  have hlen1 := size_eq_length t1 v1.1
  have hk : k.toNat ≤ (leaves t).length := by omega
  have hl1 : (leaves t1).length = (leaves t).length + 1 := by
    rw [l1]; simp [List.length_take, List.length_drop]; omega
  obtain ⟨t2, w, e2, v2, hw, l2, _⟩ := erase_spec op e False t1 k v1 (fun h => h.elim) hk0
    (by omega)
  have htake : ((leaves t).take k.toNat).length = k.toNat := by
    rw [List.length_take]; omega
  have hwv : w = v := by
    rw [l1, List.get?_eq_getElem?, List.getElem?_append_right (by omega), htake] at hw
    simpa using hw.symm
  subst hwv
  refine ⟨t1, t2, leaves t, e1, e2, toSeq_eq t ht.1, ?_⟩
  rw [toSeq_eq t2 v2.1, l2, l1]
  have := List.eraseIdx_append_of_length_le (l := (leaves t).take k.toNat) (k := k.toNat)
    (le_of_eq htake) (w :: (leaves t).drop k.toNat)
  rw [this, htake]
  simp

/-- C6 on the scenario tree, inserting `(4, 4)` at position `2`. -/
theorem insert_erase_roundtrip_witness :
    (Valid tree3 ∧ (0 : Int) ≤ 2 ∧ (2 : Int) ≤ get_size tree3) ∧
    ∃ t1 t2 xs, insert op_pii (e_pii 1000000000) tree3 2 (4, 4) = some t1 ∧
      erase op_pii (e_pii 1000000000) t1 2 = some (t2, (4, 4)) ∧
      toSeq tree3 = some xs ∧ toSeq t2 = some xs :=
  ⟨⟨valid_tree3, by decide, by decide⟩,
    insert_erase_roundtrip op_pii (e_pii 1000000000) tree3 2 (4, 4) valid_tree3
      (by decide) (by decide)⟩

/-! ### Range reduction -/

theorem slice_append (xs ys : List S) (a b : Nat) :
    slice (xs ++ ys) a b = slice xs a b ++ slice ys (a - xs.length) (b - xs.length) := by
  unfold slice
  rw [List.drop_append_eq_append_drop, List.take_append_eq_append_take, List.length_drop]
  congr 2
  omega

theorem slice_of_le (xs : List S) (a b : Nat) (h : xs.length ≤ a ∨ b ≤ a) : slice xs a b = [] := by
  unfold slice
  rcases h with h | h
  · rw [List.drop_of_length_le h]; simp
  · rw [Nat.sub_eq_zero_of_le h]; simp

theorem slice_full (xs : List S) (b : Nat) (h : xs.length ≤ b) : slice xs 0 b = xs := by
  unfold slice
  simp [List.take_of_length_le h]

/-- With the node `t` covering positions `[lo, lo + size(t))`, `prodRange`
is defined and folds the elements of `t` at positions in `[a, b)`. -/
theorem prodRange_spec (hm : Monoidal op e) : ∀ (t : Node S), SizeOk t → SumOk op e t →
    t.isNull = false → ∀ a b lo : Int,
    prodRange op e t a b lo (lo + get_size t) =
      some (fold op e (slice (leaves t) (a - lo).toNat (b - lo).toNat)) := by
  intro t
  induction t with
  | null => intro _ _ h; simp at h
  | node l r c lev sz v s ihl ihr =>
    intro hz hs _ a b lo
    have hsum := sum_eq_fold hm _ hz hs
    have hlen := size_eq_length _ hz
    simp only [get_size_node, sum_node] at hsum hlen ⊢
    rw [prodRange]
    by_cases h1 : lo + sz ≤ a ∨ b ≤ lo
    · rw [if_pos h1, slice_of_le _ _ _ (by omega)]; rfl
    rw [if_neg h1]
    by_cases h2 : a ≤ lo ∧ lo + sz ≤ b
    · have ha : (a - lo).toNat = 0 := by omega
      rw [if_pos h2, ha, slice_full _ _ (by omega), ← hsum]
    rw [if_neg h2]
    simp only [SizeOk] at hz
    simp only [SumOk] at hs
    obtain ⟨hsh, hsz, hzl, hzr⟩ := hz
    cases hn : l.isNull
    · have hrn : r.isNull = false := by rw [← hsh, hn]
      simp only [hn, hrn, Bool.or_self, Bool.false_eq_true, if_false, add_zero] at hsz
      have e1 : lo + sz - get_size r = lo + get_size l := by omega
      have e2 : lo + sz = lo + get_size l + get_size r := by omega
      rw [e1, e2, ihl hzl hs.2.1 hn a b lo, ihr hzr hs.2.2 hrn a b (lo + get_size l)]
      simp only [Option.bind_eq_bind, Option.some_bind]
      rw [← fold_append hm]
      have hl := size_eq_length l hzl
      have e3 : (a - (lo + get_size l)).toNat = (a - lo).toNat - (leaves l).length := by omega
      have e4 : (b - (lo + get_size l)).toNat = (b - lo).toNat - (leaves l).length := by omega
      rw [e3, e4, ← slice_append]
      simp [leaves, hn]
    · exfalso
      have hrn : r.isNull = true := by rw [← hsh, hn]
      simp [hn, hrn] at hsz
      have hl0 : get_size l = 0 := by rw [isNull_iff] at hn; subst hn; rfl
      have hr0 : get_size r = 0 := by rw [isNull_iff] at hrn; subst hrn; rfl
      omega

/-- C5: for a tree `t` with valid shape, cached sizes and cached aggregates,
`op` associative with two-sided identity `e()`, and `0 ≤ a ≤ b ≤ size(t)`,
`prod(t, a, b)` is defined and is the left-to-right fold of `op` over
`dump(t)[a..b)`; `prod(t, a, a)` is `e()` and `prod(t, 0, size(t))` is the fold
of the whole sequence. -/
theorem prod_fold [Inhabited S] (op : S → S → S) (e : S) (hm : Monoidal op e) (t : Node S)
    (a b : Int) (hz : SizeOk t) (hs : SumOk op e t)
    (ha : 0 ≤ a) (hab : a ≤ b) (hb : b ≤ get_size t) :
    ∃ xs, toSeq t = some xs ∧
      prod op e t a b = some (fold op e ((xs.drop a.toNat).take (b.toNat - a.toNat))) ∧
      prod op e t a a = some e ∧
      prod op e t 0 (get_size t) = some (fold op e xs) := by
  refine ⟨leaves t, toSeq_eq t hz, ?_⟩
  cases hn : t.isNull
  · have key : ∀ a b : Int, prod op e t a b =
        some (fold op e (slice (leaves t) a.toNat b.toNat)) := by
      intro a b
      have := prodRange_spec hm t hz hs hn a b 0
      simpa [prod] using this
    have hlen := size_eq_length t hz
    refine ⟨key a b, ?_, ?_⟩
    · rw [key, slice_of_le _ _ _ (Or.inr (le_refl _))]; rfl
    · rw [key]
      have h0 : (0 : Int).toNat = 0 := rfl
      rw [h0, slice_full _ _ (by omega)]
  · rw [isNull_iff] at hn; subst hn
    simp only [get_size_null] at hb
    have hb0 : b = 0 := by omega
    have ha0 : a = 0 := by omega
    subst hb0 ha0
    simp [prod, prodRange, fold]

/-- C5 on lists under concatenation, and on the scenario of the specification:
`prod(t, 0, 3) = (5, 9)` for `[(1,2),(5,1),(3,9)]` under componentwise max. -/
theorem prod_fold_witness :
    (Monoidal (fun x y : List Nat => x ++ y) [] ∧ SizeOk tree3L ∧
      SumOk (fun x y : List Nat => x ++ y) [] tree3L ∧
      (0 : Int) ≤ 1 ∧ (1 : Int) ≤ 3 ∧ (3 : Int) ≤ get_size tree3L) ∧
    (∃ xs, toSeq tree3L = some xs ∧
      prod (fun x y : List Nat => x ++ y) [] tree3L 1 3 =
        some (fold (fun x y : List Nat => x ++ y) []
          ((xs.drop (1 : Int).toNat).take ((3 : Int).toNat - (1 : Int).toNat))) ∧
      prod (fun x y : List Nat => x ++ y) [] tree3L 1 1 = some [] ∧
      prod (fun x y : List Nat => x ++ y) [] tree3L 0 (get_size tree3L) =
        some (fold (fun x y : List Nat => x ++ y) [] xs)) ∧
    prod (fun x y : List Nat => x ++ y) [] tree3L 1 3 = some [2, 3] ∧
    prod op_pii (e_pii 1000000000) tree3 0 3 = some (5, 9) :=
  ⟨⟨monoidal_append, valid_tree3L.1, sumOk_tree3L, by decide, by decide, by decide⟩,
    prod_fold _ _ monoidal_append tree3L 1 3 valid_tree3L.1 sumOk_tree3L
      (by decide) (by decide) (by decide),
    by decide, by decide⟩

/-! ### Point update -/

/-- On a non-absent tree with valid shape and sizes and `0 ≤ k < size(t)`,
`set` is defined, keeps shape and size, and replaces position `k`. -/
theorem set_spec (pre : Prop) (hm : pre → Monoidal op e) (x : S) : ∀ (t : Node S),
    SizeOk t → t.isNull = false → ∀ k : Int, 0 ≤ k → k < get_size t →
    ∃ t1, set op e t k x = some t1 ∧ SizeOk t1 ∧ t1.isNull = false ∧
      get_size t1 = get_size t ∧ leaves t1 = (leaves t).set k.toNat x ∧
      (pre → AggOk op e t → AggOk op e t1) := by
  intro t
  induction t with
  | null => intro _ h; simp at h
  | node l r c lev sz v s ihl ihr =>
    intro hz _ k hk0 hkn
    have hz0 := hz
    simp only [SizeOk] at hz
    obtain ⟨hsh, hsz, hzl, hzr⟩ := hz
    simp only [get_size_node] at hkn ⊢
    rw [set]
    cases hn : l.isNull
    · have hrn : r.isNull = false := by rw [← hsh, hn]
      simp only [hn, hrn, Bool.or_self, Bool.false_eq_true, if_false, add_zero] at hsz ⊢
      have hll := size_eq_length l hzl
      have hlv : leaves (node l r c lev sz v s) = leaves l ++ leaves r := by simp [leaves, hn]
      by_cases h1 : k < get_size l
      · rw [if_pos h1]
        obtain ⟨l1, e1, z1, n1, s1, lv1, a1⟩ := ihl hzl hn k hk0 h1
        simp only [e1, Option.bind_eq_bind, Option.some_bind, update]
        refine ⟨_, rfl, ?_, rfl, ?_, ?_, ?_⟩
        · simp only [SizeOk, n1, hrn, Bool.or_self, Bool.false_eq_true, if_false, add_zero]
          exact ⟨trivial, trivial, z1, hzr⟩
        · simp only [get_size_node, n1, hrn, Bool.or_self, Bool.false_eq_true, if_false]
          omega
        · rw [hlv, List.set_append_left _ _ (by omega)]
          simp [leaves, n1, lv1]
        · intro hp ha
          obtain ⟨al, ar, hv⟩ := aggOk_node_parts ha hn
          have := a1 hp al
          simp only [AggOk, SumOk, PayloadOk, n1, Bool.false_eq_true, if_false]
          exact ⟨⟨by rw [hv], this.1, ar.1⟩, fun _ => hv, this.2, ar.2⟩
      · rw [if_neg h1]
        obtain ⟨r1, e1, z1, n1, s1, lv1, a1⟩ := ihr hzr hrn (k - get_size l) (by omega) (by omega)
        simp only [e1, Option.bind_eq_bind, Option.some_bind, update]
        refine ⟨_, rfl, ?_, rfl, ?_, ?_, ?_⟩
        · simp only [SizeOk, n1, hn, Bool.or_self, Bool.false_eq_true, if_false, add_zero]
          exact ⟨trivial, trivial, hzl, z1⟩
        · simp only [get_size_node, n1, hn, Bool.or_self, Bool.false_eq_true, if_false]
          omega
        · rw [hlv, List.set_append_right _ _ (by omega)]
          have : k.toNat - (leaves l).length = (k - get_size l).toNat := by omega
          simp [leaves, hn, lv1, this]
        · intro hp ha
          obtain ⟨al, ar, hv⟩ := aggOk_node_parts ha hn
          have := a1 hp ar
          simp only [AggOk, SumOk, PayloadOk, hn, Bool.false_eq_true, if_false]
          exact ⟨⟨by rw [hv], al.1, this.1⟩, fun _ => hv, al.2, this.2⟩
    · have hrn : r.isNull = true := by rw [← hsh, hn]
      rw [if_pos rfl]
      rw [isNull_iff] at hn hrn
      subst hn hrn
      simp at hsz
      have hk : k.toNat = 0 := by omega
      refine ⟨_, rfl, ?_, rfl, rfl, ?_, ?_⟩
      · simpa [SizeOk] using hsz
      · simp [leaves, hk]
      · intro hp _
        have h := hm hp
        simp [AggOk, SumOk, PayloadOk, h.id_left, h.id_right]

/-- C8: for a non-absent tree `t` with valid shape, sizes and aggregates and
`0 ≤ k < size(t)`, `set(t, k, x)` is defined; afterwards `dump(t)` is the old
`dump` with position `k` replaced by `x`, `size(t)` is unchanged and the cached
root aggregate is the left-to-right fold of `op` over the new sequence. -/
theorem set_point [Inhabited S] (op : S → S → S) (e : S) (hm : Monoidal op e) (t : Node S)
    (k : Int) (x : S) (hn : t ≠ null) (hz : SizeOk t) (hs : SumOk op e t)
    (hp : PayloadOk e t) (hk0 : 0 ≤ k) (hkn : k < get_size t) :
    ∃ t1 xs, set op e t k x = some t1 ∧ toSeq t = some xs ∧
      toSeq t1 = some (xs.set k.toNat x) ∧ get_size t1 = get_size t ∧
      sum e t1 = fold op e (xs.set k.toNat x) := by
  have hnn : t.isNull = false := by
    cases h : t.isNull
    · rfl
    · exact absurd ((isNull_iff t).1 h) hn
  obtain ⟨t1, e1, z1, n1, s1, l1, a1⟩ := set_spec True (fun _ => hm) x t hz hnn k hk0 hkn
  refine ⟨t1, leaves t, e1, toSeq_eq t hz, ?_, s1, ?_⟩
  · rw [toSeq_eq t1 z1, l1]
  · rw [sum_eq_fold hm t1 z1 (a1 trivial ⟨hs, hp⟩).1, l1]

/-- C8 on lists under concatenation. -/
theorem set_point_witness :
    (Monoidal (fun x y : List Nat => x ++ y) [] ∧ tree3L ≠ null ∧ SizeOk tree3L ∧
      SumOk (fun x y : List Nat => x ++ y) [] tree3L ∧ PayloadOk [] tree3L ∧
      (0 : Int) ≤ 1 ∧ (1 : Int) < get_size tree3L) ∧
    ∃ t1 xs, set (fun x y : List Nat => x ++ y) [] tree3L 1 [9] = some t1 ∧
      toSeq tree3L = some xs ∧ toSeq t1 = some (xs.set (1 : Int).toNat [9]) ∧
      get_size t1 = get_size tree3L ∧
      sum [] t1 = fold (fun x y : List Nat => x ++ y) [] (xs.set (1 : Int).toNat [9]) :=
  ⟨⟨monoidal_append, by decide, valid_tree3L.1, sumOk_tree3L, payloadOk_tree3L,
      by decide, by decide⟩,
    set_point _ _ monoidal_append tree3L 1 [9] (by decide) valid_tree3L.1 sumOk_tree3L
      payloadOk_tree3L (by decide) (by decide)⟩

/-! ### Search on accumulated values -/

/-- With `f lsum` true, `binary_search_right` is defined and returns a boundary
of `f` along the prefixes: `f` holds on the prefix of length `r`, and fails on
the next one unless `r` is the whole length. -/
theorem binary_search_right_boundary (hm : Monoidal op e) (f : S → Bool) : ∀ (t : Node S),
    SizeOk t → SumOk op e t → PayloadOk e t → ∀ lsum : S, f lsum = true →
    ∃ r : Int, binary_search_right op f t lsum = some r ∧ 0 ≤ r ∧ r ≤ get_size t ∧
      f (op lsum (fold op e ((leaves t).take r.toNat))) = true ∧
      (r < get_size t → f (op lsum (fold op e ((leaves t).take (r.toNat + 1)))) = false) := by
  intro t
  induction t with
  | null =>
    intro _ _ _ lsum hl
    refine ⟨0, rfl, le_refl _, le_refl _, ?_, fun h => absurd h (lt_irrefl _)⟩
    simpa [fold, hm.id_right] using hl
  | node l r c lev sz v s ihl ihr =>
    intro hz hs hp lsum hl
    have hsum := sum_eq_fold hm _ hz hs
    have hlen := size_eq_length _ hz
    simp only [sum_node, get_size_node] at hsum hlen ⊢
    have hz0 := hz
    simp only [SizeOk] at hz
    obtain ⟨hsh, hsz, hzl, hzr⟩ := hz
    rw [binary_search_right.eq_def]
    dsimp only
    by_cases h1 : f (op lsum s) = true
    · rw [if_pos h1]
      refine ⟨sz, rfl, by omega, le_refl _, ?_, fun h => absurd h (lt_irrefl _)⟩
      rw [List.take_of_length_le (by omega), ← hsum]
      exact h1
    rw [if_neg h1]
    cases hrn : r.isNull
    · have hn : l.isNull = false := by rw [hsh, hrn]
      obtain ⟨al, ar, hv⟩ := aggOk_node_parts (⟨hs, hp⟩ : AggOk op e _) hn
      have hv1 := hv.symm
      subst hv1
      obtain ⟨ll, lr, lc, llev, lsz, lv, ls, rfl⟩ := (isNull_false_iff l).1 hn
      have hls := sum_eq_fold hm _ hzl al.1
      have hll := size_eq_length _ hzl
      have hlr := size_eq_length _ hzr
      simp only [sum_node, get_size_node] at hls hll
      simp only [isNull_node, hrn, Bool.or_self, Bool.false_eq_true, if_false, add_zero,
        get_size_node] at hsz
      have hlv : leaves (node (node ll lr lc llev lsz lv ls) r c lev sz e s)
          = leaves (node ll lr lc llev lsz lv ls) ++ leaves r := by simp [leaves]
      rw [hlv] at hsum hlen ⊢
      simp only [Bool.false_eq_true, if_false, hm.id_right]
      by_cases h2 : f (op lsum ls) = true
      · rw [if_pos h2]
        obtain ⟨x, ex, x0, xn, fx, gx⟩ := ihr hzr ar.1 ar.2 (op lsum ls) h2
        refine ⟨lsz + x, ?_, by omega, by omega, ?_, ?_⟩
        · simp [ex]
        · have hk : (lsz + x).toNat = (leaves (node ll lr lc llev lsz lv ls)).length + x.toNat := by
            omega
          rw [hk, List.take_append, fold_append hm, ← hm.assoc, ← hls]
          exact fx
        · intro hlt
          have hk : (lsz + x).toNat + 1 =
              (leaves (node ll lr lc llev lsz lv ls)).length + (x.toNat + 1) := by omega
          rw [hk, List.take_append, fold_append hm, ← hm.assoc, ← hls]
          exact gx (by omega)
      · rw [if_neg h2, if_neg h2]
        obtain ⟨x, ex, x0, xn, fx, gx⟩ := ihl hzl al.1 al.2 lsum hl
        simp only [get_size_node] at xn gx
        have hxlt : x < lsz := by
          by_contra hge
          have hxe : x = lsz := by omega
          rw [hxe, List.take_of_length_le (by omega), ← hls] at fx
          exact h2 fx
        refine ⟨x, ex, x0, by omega, ?_, ?_⟩
        · rw [List.take_append_of_le_length (by omega)]
          exact fx
        · intro _
          rw [List.take_append_of_le_length (by omega)]
          exact gx hxlt
    · have hn : l.isNull = true := by rw [hsh, hrn]
      rw [isNull_iff] at hn hrn
      subst hn hrn
      simp at hsz
      refine ⟨0, by simp [binary_search_right], le_refl _, by omega, ?_, ?_⟩
      · simpa [fold, hm.id_right] using hl
      · intro _
        have : leaves (node null null c lev sz v s) = [v] := by simp [leaves]
        rw [this] at hsum ⊢
        simp only [Int.toNat_zero, zero_add, List.take_succ_cons, List.take_zero]
        rw [← hsum]
        simpa using h1

/-- With `f rsum` true, `binary_search_left` is defined and returns a boundary
of `f` along the suffixes: `f` holds on the suffix starting at `r`, and fails
on the next longer one unless `r` is `0`. -/
theorem binary_search_left_boundary (hm : Monoidal op e) (f : S → Bool) : ∀ (t : Node S),
    SizeOk t → SumOk op e t → PayloadOk e t → ∀ rsum : S, f rsum = true →
    ∃ r : Int, binary_search_left op f t rsum = some r ∧ 0 ≤ r ∧ r ≤ get_size t ∧
      f (op (fold op e ((leaves t).drop r.toNat)) rsum) = true ∧
      (0 < r → f (op (fold op e ((leaves t).drop (r.toNat - 1))) rsum) = false) := by
  intro t
  induction t with
  | null =>
    intro _ _ _ rsum hr
    refine ⟨0, rfl, le_refl _, le_refl _, ?_, fun h => absurd h (lt_irrefl _)⟩
    simpa [fold, hm.id_left] using hr
  | node l r c lev sz v s ihl ihr =>
    intro hz hs hp rsum hr
    have hsum := sum_eq_fold hm _ hz hs
    have hlen := size_eq_length _ hz
    simp only [sum_node, get_size_node] at hsum hlen ⊢
    have hz0 := hz
    simp only [SizeOk] at hz
    obtain ⟨hsh, hsz, hzl, hzr⟩ := hz
    rw [binary_search_left.eq_def]
    dsimp only
    by_cases h1 : f (op s rsum) = true
    · rw [if_pos h1]
      refine ⟨0, rfl, le_refl _, by omega, ?_, fun h => absurd h (lt_irrefl _)⟩
      rw [Int.toNat_zero, List.drop_zero, ← hsum]
      exact h1
    rw [if_neg h1]
    cases hrn : r.isNull
    · have hn : l.isNull = false := by rw [hsh, hrn]
      obtain ⟨al, ar, hv⟩ := aggOk_node_parts (⟨hs, hp⟩ : AggOk op e _) hn
      have hv1 := hv.symm
      subst hv1
      obtain ⟨ll, lr, lc, llev, lsz, lv, ls, rfl⟩ := (isNull_false_iff l).1 hn
      obtain ⟨rl, rr, rc, rlev, rsz, rv, rs, rfl⟩ := (isNull_false_iff r).1 hrn
      have hls := sum_eq_fold hm _ hzl al.1
      have hrs := sum_eq_fold hm _ hzr ar.1
      have hll := size_eq_length _ hzl
      have hlr := size_eq_length _ hzr
      simp only [sum_node, get_size_node] at hls hrs hll hlr
      simp only [isNull_node, Bool.or_self, Bool.false_eq_true, if_false, add_zero,
        get_size_node] at hsz
      have hlv : leaves (node (node ll lr lc llev lsz lv ls) (node rl rr rc rlev rsz rv rs)
          c lev sz e s)
          = leaves (node ll lr lc llev lsz lv ls) ++ leaves (node rl rr rc rlev rsz rv rs) := by
        simp [leaves]
      rw [hlv] at hsum hlen ⊢
      simp only [Bool.false_eq_true, if_false, hm.id_left]
      by_cases h2 : f (op rs rsum) = true
      · rw [if_pos h2]
        obtain ⟨x, ex, x0, xn, fx, gx⟩ := ihl hzl al.1 al.2 (op rs rsum) h2
        simp only [get_size_node] at xn
        refine ⟨x, ex, x0, by omega, ?_, ?_⟩
        · rw [List.drop_append_of_le_length (by omega), fold_append hm, hm.assoc, ← hrs]
          exact fx
        · intro hpos
          rw [List.drop_append_of_le_length (by omega), fold_append hm, hm.assoc, ← hrs]
          exact gx hpos
      · rw [if_neg h2, if_neg h2]
        obtain ⟨x, ex, x0, xn, fx, gx⟩ := ihr hzr ar.1 ar.2 rsum hr
        simp only [get_size_node] at xn
        have hxpos : 0 < x := by
          by_contra hle
          have hxe : x = 0 := by omega
          rw [hxe, Int.toNat_zero, List.drop_zero, ← hrs] at fx
          exact h2 fx
        refine ⟨lsz + x, ?_, by omega, by omega, ?_, ?_⟩
        · simp [ex]
        · have hk : (lsz + x).toNat = (leaves (node ll lr lc llev lsz lv ls)).length + x.toNat := by
            omega
          rw [hk, List.drop_append]
          exact fx
        · intro _
          have hk : (lsz + x).toNat - 1 =
              (leaves (node ll lr lc llev lsz lv ls)).length + (x.toNat - 1) := by omega
          rw [hk, List.drop_append]
          exact gx hxpos
    · have hn : l.isNull = true := by rw [hsh, hrn]
      rw [isNull_iff] at hn hrn
      subst hn hrn
      simp at hsz
      have hlv : leaves (node null null c lev sz v s) = [v] := by simp [leaves]
      rw [hlv] at hsum ⊢
      refine ⟨1, by simp, by omega, by omega, ?_, ?_⟩
      · simpa [fold, hm.id_left] using hr
      · intro _
        simp only [Int.toNat_one, Nat.sub_self, List.drop_zero]
        rw [← hsum]
        simpa using h1

/-- C9 (as the code has it): for a tree `t` with valid shape, sizes and
aggregates standing for `xs`, `op` associative with identity `e()`, and a
predicate `f` that holds on the empty prefix and, once false, stays false as
the prefix grows, `binary_search_right(t, f)` is defined and returns the
largest `r` in `[0, size(t)]` with `f(reduce(xs[0..r)))` true. -/
theorem search_right_largest [Inhabited S] (op : S → S → S) (e : S) (hm : Monoidal op e)
    (f : S → Bool) (t : Node S) (xs : List S)
    (hz : SizeOk t) (hs : SumOk op e t) (hp : PayloadOk e t) (hx : toSeq t = some xs)
    (hf0 : f e = true)
    (hmono : ∀ i j : Nat, i ≤ j → j ≤ xs.length →
      f (fold op e (xs.take j)) = true → f (fold op e (xs.take i)) = true) :
    ∃ r : Int, binary_search_right op f t e = some r ∧ 0 ≤ r ∧ r ≤ xs.length ∧
      f (fold op e (xs.take r.toNat)) = true ∧
      ∀ j : Nat, j ≤ xs.length → f (fold op e (xs.take j)) = true → (j : Int) ≤ r := by
  rw [toSeq_eq t hz] at hx
  obtain rfl := Option.some.inj hx
  have hlen := size_eq_length t hz
  obtain ⟨r, er, r0, rn, fr, gr⟩ := binary_search_right_boundary hm f t hz hs hp e hf0
  rw [hm.id_left] at fr
  refine ⟨r, er, r0, by omega, fr, ?_⟩
  intro j hj fj
  by_contra hlt
  have hr : r < get_size t := by omega
  have h2 := gr hr
  rw [hm.id_left] at h2
  have := hmono (r.toNat + 1) j (by omega) hj fj
  rw [h2] at this
  exact Bool.noConfusion this

/-- C10 (as the code has it): for a tree `t` with valid shape, sizes and
aggregates standing for `xs` of length `n`, `op` associative with identity
`e()`, and a predicate `f` that holds on the empty suffix and, once false,
stays false as the suffix grows, `binary_search_left(t, f)` is defined and
returns the smallest `l` in `[0, n]` with `f(reduce(xs[l..n)))` true. -/
theorem search_left_smallest [Inhabited S] (op : S → S → S) (e : S) (hm : Monoidal op e)
    (f : S → Bool) (t : Node S) (xs : List S)
    (hz : SizeOk t) (hs : SumOk op e t) (hp : PayloadOk e t) (hx : toSeq t = some xs)
    (hf0 : f e = true)
    (hmono : ∀ i j : Nat, i ≤ j → j ≤ xs.length →
      f (fold op e (xs.drop i)) = true → f (fold op e (xs.drop j)) = true) :
    ∃ l : Int, binary_search_left op f t e = some l ∧ 0 ≤ l ∧ l ≤ xs.length ∧
      f (fold op e (xs.drop l.toNat)) = true ∧
      ∀ j : Nat, j ≤ xs.length → f (fold op e (xs.drop j)) = true → l ≤ (j : Int) := by
  rw [toSeq_eq t hz] at hx
  obtain rfl := Option.some.inj hx
  have hlen := size_eq_length t hz
  obtain ⟨r, er, r0, rn, fr, gr⟩ := binary_search_left_boundary hm f t hz hs hp e hf0
  rw [hm.id_right] at fr
  refine ⟨r, er, r0, by omega, fr, ?_⟩
  intro j hj fj
  by_contra hlt
  have h2 := gr (by omega)
  rw [hm.id_right] at h2
  have := hmono j (r.toNat - 1) (by omega) (by omega) fj
  rw [h2] at this
  exact Bool.noConfusion this

theorem shortList_prefix_mono : ∀ i j : Nat, i ≤ j → j ≤ seq3L.length →
    shortList (fold (fun x y : List Nat => x ++ y) [] (seq3L.take j)) = true →
    shortList (fold (fun x y : List Nat => x ++ y) [] (seq3L.take i)) = true := by
  intro i j hij hj
  have hj3 : j ≤ 3 := hj
  interval_cases j <;> interval_cases i <;> decide

theorem shortList_suffix_mono : ∀ i j : Nat, i ≤ j → j ≤ seq3L.length →
    shortList (fold (fun x y : List Nat => x ++ y) [] (seq3L.drop i)) = true →
    shortList (fold (fun x y : List Nat => x ++ y) [] (seq3L.drop j)) = true := by
  intro i j hij hj
  have hj3 : j ≤ 3 := hj
  interval_cases j <;> interval_cases i <;> decide

/-- C9 on lists under concatenation with `f(x) = (|x| ≤ 1)`: the result is `1`. -/
theorem search_right_largest_witness :
    (Monoidal (fun x y : List Nat => x ++ y) [] ∧ SizeOk tree3L ∧
      SumOk (fun x y : List Nat => x ++ y) [] tree3L ∧ PayloadOk [] tree3L ∧
      toSeq tree3L = some seq3L ∧ shortList [] = true ∧
      (∀ i j : Nat, i ≤ j → j ≤ seq3L.length →
        shortList (fold (fun x y : List Nat => x ++ y) [] (seq3L.take j)) = true →
        shortList (fold (fun x y : List Nat => x ++ y) [] (seq3L.take i)) = true)) ∧
    (∃ r : Int, binary_search_right (fun x y : List Nat => x ++ y) shortList tree3L [] = some r ∧
      0 ≤ r ∧ r ≤ seq3L.length ∧
      shortList (fold (fun x y : List Nat => x ++ y) [] (seq3L.take r.toNat)) = true ∧
      ∀ j : Nat, j ≤ seq3L.length →
        shortList (fold (fun x y : List Nat => x ++ y) [] (seq3L.take j)) = true → (j : Int) ≤ r) ∧
    binary_search_right (fun x y : List Nat => x ++ y) shortList tree3L [] = some 1 :=
  ⟨⟨monoidal_append, valid_tree3L.1, sumOk_tree3L, payloadOk_tree3L, by decide, by decide,
      shortList_prefix_mono⟩,
    search_right_largest _ _ monoidal_append shortList tree3L seq3L valid_tree3L.1 sumOk_tree3L
      payloadOk_tree3L (by decide) (by decide) shortList_prefix_mono,
    by decide⟩

/-- C9 as stated fails on the scenario of the specification: on
`[(1,2),(5,1),(3,9)]` under componentwise max with `f(x) = (x.first >= 5)`, `f`
is false on the prefixes of length `0` and `1` and true on those of length `2`
and `3`, yet `binary_search_right` returns `3`, which is neither the smallest
`r` with `f` true on the prefix of length `r` nor the `1` the specification
states. -/
theorem search_right_counterexample :
    build op_pii (e_pii 1000000000) seq3 = some tree3 ∧ toSeq tree3 = some seq3 ∧
    pred5 (fold op_pii (e_pii 1000000000) (seq3.take 0)) = false ∧
    pred5 (fold op_pii (e_pii 1000000000) (seq3.take 1)) = false ∧
    pred5 (fold op_pii (e_pii 1000000000) (seq3.take 2)) = true ∧
    pred5 (fold op_pii (e_pii 1000000000) (seq3.take 3)) = true ∧
    binary_search_right op_pii pred5 tree3 (e_pii 1000000000) = some 3 ∧
    ¬ ∃ r : Int, binary_search_right op_pii pred5 tree3 (e_pii 1000000000) = some r ∧
      ∀ j : Nat, (j : Int) < r → pred5 (fold op_pii (e_pii 1000000000) (seq3.take j)) = false := by
  refine ⟨by decide, by decide, by decide, by decide, by decide, by decide, by decide, ?_⟩
  rintro ⟨r, hr, h⟩
  have h3 : binary_search_right op_pii pred5 tree3 (e_pii 1000000000) = some 3 := by decide
  rw [h3] at hr
  obtain rfl := Option.some.inj hr
  have h2 := h 2 (by decide)
  revert h2
  decide

/-- C10 on lists under concatenation with `f(x) = (|x| ≤ 1)`: the result is `2`. -/
theorem search_left_smallest_witness :
    (Monoidal (fun x y : List Nat => x ++ y) [] ∧ SizeOk tree3L ∧
      SumOk (fun x y : List Nat => x ++ y) [] tree3L ∧ PayloadOk [] tree3L ∧
      toSeq tree3L = some seq3L ∧ shortList [] = true ∧
      (∀ i j : Nat, i ≤ j → j ≤ seq3L.length →
        shortList (fold (fun x y : List Nat => x ++ y) [] (seq3L.drop i)) = true →
        shortList (fold (fun x y : List Nat => x ++ y) [] (seq3L.drop j)) = true)) ∧
    (∃ l : Int, binary_search_left (fun x y : List Nat => x ++ y) shortList tree3L [] = some l ∧
      0 ≤ l ∧ l ≤ seq3L.length ∧
      shortList (fold (fun x y : List Nat => x ++ y) [] (seq3L.drop l.toNat)) = true ∧
      ∀ j : Nat, j ≤ seq3L.length →
        shortList (fold (fun x y : List Nat => x ++ y) [] (seq3L.drop j)) = true → l ≤ (j : Int)) ∧
    binary_search_left (fun x y : List Nat => x ++ y) shortList tree3L [] = some 2 :=
  ⟨⟨monoidal_append, valid_tree3L.1, sumOk_tree3L, payloadOk_tree3L, by decide, by decide,
      shortList_suffix_mono⟩,
    search_left_smallest _ _ monoidal_append shortList tree3L seq3L valid_tree3L.1 sumOk_tree3L
      payloadOk_tree3L (by decide) (by decide) shortList_suffix_mono,
    by decide⟩

/-- C10 as stated fails on the scenario of the specification: on
`[(1,2),(5,1),(3,9)]` under componentwise max with `f(x) = (x.first >= 5)`, `f`
is false on the suffixes starting at `3` and `2` and true on those starting at
`1` and `0`, so the largest `l` with `f` true is `1`; `binary_search_left`
returns `0`. -/
theorem search_left_counterexample :
    toSeq tree3 = some seq3 ∧
    pred5 (fold op_pii (e_pii 1000000000) (seq3.drop 3)) = false ∧
    pred5 (fold op_pii (e_pii 1000000000) (seq3.drop 2)) = false ∧
    pred5 (fold op_pii (e_pii 1000000000) (seq3.drop 1)) = true ∧
    pred5 (fold op_pii (e_pii 1000000000) (seq3.drop 0)) = true ∧
    binary_search_left op_pii pred5 tree3 (e_pii 1000000000) = some 0 ∧
    ¬ ∃ l : Int, binary_search_left op_pii pred5 tree3 (e_pii 1000000000) = some l ∧
      ∀ j : Nat, j ≤ seq3.length → l < (j : Int) →
        pred5 (fold op_pii (e_pii 1000000000) (seq3.drop j)) = false := by
  refine ⟨by decide, by decide, by decide, by decide, by decide, by decide, ?_⟩
  rintro ⟨l, hl, h⟩
  have h0 : binary_search_left op_pii pred5 tree3 (e_pii 1000000000) = some 0 := by decide
  rw [h0] at hl
  obtain rfl := Option.some.inj hl
  have h1 := h 1 (by decide) (by decide)
  revert h1
  decide

/-! ### The searches as the source comments state them -/

/-- C11: as the comment above `binary_search_right` says, for a tree `t` with
valid shape, sizes and aggregates standing for `xs`, `op` associative with
identity `e()`, and `f` true exactly on the prefixes of length at most `m` (so
`f(e())` is true and `f` is monotone in the prefix length),
`binary_search_right(t, f)` is defined and returns `m`, the largest `r` in
`[0, size(t)]` with `f(op(xs[0], ..., xs[r-1]))` true. -/
theorem search_right_as_documented [Inhabited S] (op : S → S → S) (e : S)
    (hm : Monoidal op e) (f : S → Bool) (t : Node S) (xs : List S) (m : Nat)
    (hz : SizeOk t) (hs : SumOk op e t) (hp : PayloadOk e t) (hx : toSeq t = some xs)
    (hmn : m ≤ xs.length)
    (hf : ∀ j : Nat, j ≤ xs.length → (f (fold op e (xs.take j)) = true ↔ j ≤ m)) :
    binary_search_right op f t e = some (m : Int) ∧
      f (fold op e (xs.take m)) = true ∧
      ∀ j : Nat, j ≤ xs.length → f (fold op e (xs.take j)) = true → j ≤ m := by
  rw [toSeq_eq t hz] at hx
  obtain rfl := Option.some.inj hx
  have hlen := size_eq_length t hz
  have hf0 : f e = true := by
    have := (hf 0 (Nat.zero_le _)).2 (Nat.zero_le _)
    simpa [fold] using this
  obtain ⟨r, er, r0, rn, fr, gr⟩ := binary_search_right_boundary hm f t hz hs hp e hf0
  rw [hm.id_left] at fr
  have h1 : r.toNat ≤ m := (hf r.toNat (by omega)).1 fr
  have h2 : (m : Int) ≤ r := by
    by_contra hlt
    have h3 := gr (by omega)
    rw [hm.id_left] at h3
    have h4 := (hf (r.toNat + 1) (by omega)).2 (by omega)
    rw [h3] at h4
    exact Bool.noConfusion h4
  have hr : r = (m : Int) := by omega
  refine ⟨by rw [er, hr], (hf m hmn).2 (le_refl _), fun j hj fj => (hf j hj).1 fj⟩

/-- C11 on lists under concatenation with `f(x) = (|x| ≤ 1)`: the result is `1`. -/
theorem search_right_as_documented_witness :
    (Monoidal (fun x y : List Nat => x ++ y) [] ∧ SizeOk tree3L ∧
      SumOk (fun x y : List Nat => x ++ y) [] tree3L ∧ PayloadOk [] tree3L ∧
      toSeq tree3L = some seq3L ∧ 1 ≤ seq3L.length ∧
      (∀ j : Nat, j ≤ seq3L.length →
        (shortList (fold (fun x y : List Nat => x ++ y) [] (seq3L.take j)) = true ↔ j ≤ 1))) ∧
    (binary_search_right (fun x y : List Nat => x ++ y) shortList tree3L [] = some ((1 : Nat) : Int) ∧
      shortList (fold (fun x y : List Nat => x ++ y) [] (seq3L.take 1)) = true ∧
      ∀ j : Nat, j ≤ seq3L.length →
        shortList (fold (fun x y : List Nat => x ++ y) [] (seq3L.take j)) = true → j ≤ 1) :=
  have hf : ∀ j : Nat, j ≤ seq3L.length →
      (shortList (fold (fun x y : List Nat => x ++ y) [] (seq3L.take j)) = true ↔ j ≤ 1) := by
    intro j hj
    have hj3 : j ≤ 3 := hj
    interval_cases j <;> decide
  ⟨⟨monoidal_append, valid_tree3L.1, sumOk_tree3L, payloadOk_tree3L, by decide, by decide, hf⟩,
    search_right_as_documented _ _ monoidal_append shortList tree3L seq3L 1 valid_tree3L.1
      sumOk_tree3L payloadOk_tree3L (by decide) (by decide) hf⟩

/-- C12: as the comment above `binary_search_left` says, for a tree `t` with
valid shape, sizes and aggregates standing for `xs` of length `n`, `op`
associative with identity `e()`, and `f` true exactly on the suffixes of length
at most `m` (so `f(e())` is true and `f` is monotone in the suffix length),
`binary_search_left(t, f)` is defined and returns `n - m`, the smallest `l` in
`[0, n]` with `f(op(xs[l], ..., xs[n-1]))` true. -/
theorem search_left_as_documented [Inhabited S] (op : S → S → S) (e : S)
    (hm : Monoidal op e) (f : S → Bool) (t : Node S) (xs : List S) (m : Nat)
    (hz : SizeOk t) (hs : SumOk op e t) (hp : PayloadOk e t) (hx : toSeq t = some xs)
    (hmn : m ≤ xs.length)
    (hf : ∀ j : Nat, j ≤ xs.length →
      (f (fold op e (xs.drop j)) = true ↔ xs.length - m ≤ j)) :
    binary_search_left op f t e = some ((xs.length - m : Nat) : Int) ∧
      f (fold op e (xs.drop (xs.length - m))) = true ∧
      ∀ j : Nat, j ≤ xs.length → f (fold op e (xs.drop j)) = true → xs.length - m ≤ j := by
  rw [toSeq_eq t hz] at hx
  obtain rfl := Option.some.inj hx
  have hlen := size_eq_length t hz
  have hf0 : f e = true := by
    have := (hf (leaves t).length (le_refl _)).2 (Nat.sub_le _ _)
    simpa [fold] using this
  obtain ⟨r, er, r0, rn, fr, gr⟩ := binary_search_left_boundary hm f t hz hs hp e hf0
  rw [hm.id_right] at fr
  have h1 : (leaves t).length - m ≤ r.toNat := (hf r.toNat (by omega)).1 fr
  have h2 : r ≤ (((leaves t).length - m : Nat) : Int) := by
    by_contra hlt
    have h3 := gr (by omega)
    rw [hm.id_right] at h3
    have h4 := (hf (r.toNat - 1) (by omega)).2 (by omega)
    rw [h3] at h4
    exact Bool.noConfusion h4
  have hr : r = (((leaves t).length - m : Nat) : Int) := by omega
  refine ⟨by rw [er, hr], (hf _ (Nat.sub_le _ _)).2 (le_refl _), fun j hj fj => (hf j hj).1 fj⟩

/-- C12 on lists under concatenation with `f(x) = (|x| ≤ 1)`: the result is `2`. -/
theorem search_left_as_documented_witness :
    (Monoidal (fun x y : List Nat => x ++ y) [] ∧ SizeOk tree3L ∧
      SumOk (fun x y : List Nat => x ++ y) [] tree3L ∧ PayloadOk [] tree3L ∧
      toSeq tree3L = some seq3L ∧ 1 ≤ seq3L.length ∧
      (∀ j : Nat, j ≤ seq3L.length →
        (shortList (fold (fun x y : List Nat => x ++ y) [] (seq3L.drop j)) = true ↔
          seq3L.length - 1 ≤ j))) ∧
    (binary_search_left (fun x y : List Nat => x ++ y) shortList tree3L [] =
        some ((seq3L.length - 1 : Nat) : Int) ∧
      shortList (fold (fun x y : List Nat => x ++ y) [] (seq3L.drop (seq3L.length - 1))) = true ∧
      ∀ j : Nat, j ≤ seq3L.length →
        shortList (fold (fun x y : List Nat => x ++ y) [] (seq3L.drop j)) = true →
          seq3L.length - 1 ≤ j) :=
  have hf : ∀ j : Nat, j ≤ seq3L.length →
      (shortList (fold (fun x y : List Nat => x ++ y) [] (seq3L.drop j)) = true ↔
        seq3L.length - 1 ≤ j) := by
    intro j hj
    have hj3 : j ≤ 3 := hj
    interval_cases j <;> decide
  ⟨⟨monoidal_append, valid_tree3L.1, sumOk_tree3L, payloadOk_tree3L, by decide, by decide, hf⟩,
    search_left_as_documented _ _ monoidal_append shortList tree3L seq3L 1 valid_tree3L.1
      sumOk_tree3L payloadOk_tree3L (by decide) (by decide) hf⟩

/-! ### Arguments out of range -/

/-- C16 (as the code has it): `split(t, k)` with `k > size(t)` raises no error:
by the guard `k >= get_size(t)` it returns `(t, absent)`, the result of
`split(t, size(t))`; `k` is clamped. -/
theorem split_clamps (op : S → S → S) (e : S) (t : Node S) (k : Int)
    (hz : SizeOk t) (hk : get_size t < k) :
    split op e t k = some (t, null) ∧ split op e t k = split op e t (get_size t) := by
  have hlen := size_eq_length t hz
  cases t with
  | null => exact ⟨rfl, rfl⟩
  | node l r c lev sz v s =>
    simp only [get_size_node] at hk hlen ⊢
    have hpos := size_pos _ hz rfl
    simp only [get_size_node] at hpos
    have h0 : k ≠ 0 := by omega
    have h1 : sz ≠ 0 := by omega
    constructor
    · rw [split, if_neg h0, if_pos (by omega)]
    · rw [split, if_neg h0, if_pos (by omega), split, if_neg h1, if_pos (le_refl _)]

/-- C16 on the scenario tree with `k = 5 > 3`. -/
theorem split_clamps_witness :
    (SizeOk tree3 ∧ get_size tree3 < 5) ∧
    (split op_pii (e_pii 1000000000) tree3 5 = some (tree3, null) ∧
      split op_pii (e_pii 1000000000) tree3 5 =
        split op_pii (e_pii 1000000000) tree3 (get_size tree3)) :=
  ⟨⟨valid_tree3.1, by decide⟩,
    split_clamps op_pii (e_pii 1000000000) tree3 5 valid_tree3.1 (by decide)⟩

/-- C16 as stated fails: on the tree of `[(1,2),(5,1),(3,9)]`, `split(t, 5)`
returns `(t, absent)` instead of failing, and `split(t, -1)` returns an absent
prefix and a suffix standing for `[(5,1),(3,9)]`, which together are not the
sequence of `t`. -/
theorem split_out_of_range_counterexample :
    toSeq tree3 = some seq3 ∧ ¬ (5 : Int) ≤ get_size tree3 ∧
    split op_pii (e_pii 1000000000) tree3 5 = some (tree3, null) ∧
    (∃ s, split op_pii (e_pii 1000000000) tree3 (-1) = some (null, s) ∧
      toSeq s = some [(5, 1), (3, 9)] ∧
      ([] : List (Int × Int)) ++ [(5, 1), (3, 9)] ≠ seq3) :=
  ⟨by decide, by decide, by decide, ⟨_, rfl, by decide, by decide⟩⟩

/-! ### Balance -/

@[simp]
theorem colorOf_node (l r : Node S) (c : COLOR) (lev sz : Int) (v s : S) :
    colorOf (node l r c lev sz v s) = c := rfl

@[simp]
theorem levelOf_node (l r : Node S) (c : COLOR) (lev sz : Int) (v s : S) :
    levelOf (node l r c lev sz v s) = lev := rfl

theorem color_cases (c : COLOR) : c = BLACK ∨ c = RED := by
  cases c
  · exact Or.inl rfl
  · exact Or.inr rfl

/-- Below a balanced pointer the level is not negative, the leaves number at
least `2 ^ level`, and the height, plus one at a red node, is at most twice
the level. -/
theorem level_bounds : ∀ (t : Node S), RB t → LeavesBlack t → t.isNull = false →
    0 ≤ levelOf t ∧ 2 ^ (levelOf t).toNat ≤ (leaves t).length ∧
      (height t : Int) + (if colorOf t = RED then 1 else 0) ≤ 2 * levelOf t := by
  intro t
  induction t with
  | null => intro _ _ h; simp at h
  | node l r c lev sz v s ihl ihr =>
    intro hrb hlb _
    simp only [RB] at hrb
    simp only [LeavesBlack] at hlb
    obtain ⟨hleaf, hint, hrl, hrr⟩ := hrb
    obtain ⟨hcb, hlbl, hlbr⟩ := hlb
    simp only [levelOf_node, colorOf_node]
    cases hn : l.isNull
    · obtain ⟨hrn, h1, h2, h3⟩ := hint hn
      obtain ⟨l0, lp, lh⟩ := ihl hrl hlbl hn
      obtain ⟨r0, rp, rh⟩ := ihr hrr hlbr hrn
      unfold childLevel at h1 h2
      have hlev0 : 0 ≤ lev := by rw [h1]; split_ifs <;> omega
      have hpl : 2 ^ (lev.toNat - 1) ≤ (leaves l).length := by
        refine le_trans (Nat.pow_le_pow_right (by decide) ?_) lp
        rw [h1]; split_ifs <;> omega
      have hpr : 2 ^ (lev.toNat - 1) ≤ (leaves r).length := by
        refine le_trans (Nat.pow_le_pow_right (by decide) ?_) rp
        rw [h2]; split_ifs <;> omega
      have hpow : 2 ^ lev.toNat ≤ 2 ^ (lev.toNat - 1) + 2 ^ (lev.toNat - 1) := by
        cases hq : lev.toNat with
        | zero => simp
        | succ q => simp [pow_succ]; omega
      refine ⟨hlev0, ?_, ?_⟩
      · simp only [leaves, hn, Bool.false_eq_true, if_false, List.length_append]
        omega
      · simp only [height, hn, Bool.false_eq_true, if_false]
        have hmax : ((max (height l) (height r) + 1 : Nat) : Int) =
            max (height l : Int) (height r : Int) + 1 := by push_cast; rfl
        rw [hmax]
        rcases color_cases c with hc | hc
        · subst hc
          simp only [reduceCtorEq, if_false, add_zero]
          rcases color_cases (colorOf l) with hl | hl <;>
            rcases color_cases (colorOf r) with hr | hr <;>
            simp only [hl, hr, if_true, if_false, reduceCtorEq] at h1 h2 lh rh <;>
            omega
        · subst hc
          obtain ⟨hl, hr⟩ := h3 rfl
          simp only [hl, hr, if_true, if_false, reduceCtorEq] at h1 h2 lh rh ⊢
          omega
    · obtain ⟨hrn, h1⟩ := hleaf hn
      have hc := hcb hn
      subst hc h1
      simp [leaves, height, hn]

/-- C20: for a non-absent tree `t` with a black root, black leaves of level
`0`, no red node with a red child, and every internal node's cached level equal
to `level(child) + [child is black]` for both children, the number of elements
is at least `2 ^ level(t)` (also as the cached `size(t)` when the cached sizes
are valid), `height(t) ≤ 2 * level(t)`, and so
`height(t) ≤ 2 * log2(size(t))`. -/
theorem level_bounds_height (t : Node S) (hn : t ≠ null) (hb : colorOf t = BLACK)
    (hrb : RB t) (hlb : LeavesBlack t) :
    0 ≤ levelOf t ∧ 2 ^ (levelOf t).toNat ≤ (leaves t).length ∧
      (height t : Int) ≤ 2 * levelOf t ∧
      height t ≤ 2 * Nat.log 2 (leaves t).length ∧
      (SizeOk t → (2 : Int) ^ (levelOf t).toNat ≤ get_size t ∧
        height t ≤ 2 * Nat.log 2 (get_size t).toNat) := by
  have hnn : t.isNull = false := by
    cases h : t.isNull
    · rfl
    · exact absurd ((isNull_iff t).1 h) hn
  obtain ⟨h0, hp, hh⟩ := level_bounds t hrb hlb hnn
  rw [hb] at hh
  simp only [reduceCtorEq, if_false, add_zero] at hh
  have hlog : (levelOf t).toNat ≤ Nat.log 2 (leaves t).length :=
    Nat.le_log_of_pow_le (by decide) hp
  have hh2 : height t ≤ 2 * Nat.log 2 (leaves t).length := by omega
  refine ⟨h0, hp, hh, hh2, ?_⟩
  intro hz
  have hlen := size_eq_length t hz
  constructor
  · rw [hlen]; exact_mod_cast hp
  · rw [hlen, Int.toNat_ofNat]; exact hh2

theorem rb_tree5 : RB tree5 := by
  simp [RB, tree5, Node.leaf, childLevel, colorOf, levelOf]

theorem leavesBlack_tree5 : LeavesBlack tree5 := by
  simp [LeavesBlack, tree5, Node.leaf]

/-- C20 on the tree of `[0, 1, 2, 3, 4]`: level `2`, five elements, height `3`. -/
theorem level_bounds_height_witness :
    (tree5 ≠ null ∧ colorOf tree5 = BLACK ∧ RB tree5 ∧ LeavesBlack tree5) ∧
    (0 ≤ levelOf tree5 ∧ 2 ^ (levelOf tree5).toNat ≤ (leaves tree5).length ∧
      (height tree5 : Int) ≤ 2 * levelOf tree5 ∧
      height tree5 ≤ 2 * Nat.log 2 (leaves tree5).length ∧
      (SizeOk tree5 → (2 : Int) ^ (levelOf tree5).toNat ≤ get_size tree5 ∧
        height tree5 ≤ 2 * Nat.log 2 (get_size tree5).toNat)) ∧
    levelOf tree5 = 2 ∧ (leaves tree5).length = 5 ∧ height tree5 = 3 :=
  ⟨⟨by decide, rfl, rb_tree5, leavesBlack_tree5⟩,
    level_bounds_height tree5 (by decide) rfl rb_tree5 leavesBlack_tree5,
    rfl, rfl, rfl⟩

/-- C18 (at a failing input): the tree `build` makes of `[0, 1, 2, 3, 4]` has a
black root, no red node with a red child and the same black-height on every
path, yet the prefix returned by `split(t, 4)` has a root whose left child is
black of level `1` and whose right child is red of level `1`: the level
derived from the left child is `2`, the one derived from the right child `1`. -/
theorem split_breaks_balance :
    build (fun x y : Int => x + y) 0 [0, 1, 2, 3, 4] = some tree5 ∧
    colorOf tree5 = BLACK ∧ RB tree5 ∧ (0 : Int) ≤ 4 ∧ (4 : Int) ≤ get_size tree5 ∧
    ∃ p s, split (fun x y : Int => x + y) 0 tree5 4 = some (p, s) ∧ ¬ RB p ∧
      ∃ pl pr c lev sz v a, p = node pl pr c lev sz v a ∧
        childLevel pl = 2 ∧ childLevel pr = 1 := by
  refine ⟨by decide, rfl, rb_tree5, by decide, by decide, _, _, rfl, ?_, ?_⟩
  · simp [RB, Node.leaf, childLevel, colorOf, levelOf]
  · exact ⟨_, _, _, _, _, _, _, rfl, by decide, by decide⟩

theorem rb_level_nonneg : ∀ (t : Node S), RB t → 0 ≤ levelOf t := by
  intro t
  induction t with
  | null => intro _; exact le_refl _
  | node l r c lev sz v s ihl _ =>
    intro h
    simp only [RB] at h
    simp only [levelOf_node]
    cases hn : l.isNull
    · have h1 := (h.2.1 hn).2.1
      have := ihl h.2.2.1
      unfold childLevel at h1
      rw [h1]; split_ifs <;> omega
    · rw [(h.1 hn).2]

theorem rb_node_parts {l r : Node S} {c : COLOR} {lev sz : Int} {v s : S}
    (h : RB (node l r c lev sz v s)) (hpos : 0 < lev) :
    l.isNull = false ∧ r.isNull = false ∧ lev = childLevel l ∧ lev = childLevel r ∧
      (c = RED → colorOf l = BLACK ∧ colorOf r = BLACK) ∧ RB l ∧ RB r := by
  simp only [RB] at h
  cases hn : l.isNull
  · obtain ⟨h1, h2, h3, h4⟩ := h.2.1 hn
    exact ⟨rfl, h1, h2, h3, h4, h.2.2.1, h.2.2.2⟩
  · have := (h.1 hn).2
    omega

theorem rb_of_parts {l r : Node S} (c : COLOR) (lev sz : Int) (v s : S)
    (hln : l.isNull = false) (hrn : r.isNull = false) (h1 : lev = childLevel l)
    (h2 : lev = childLevel r) (h3 : c = RED → colorOf l = BLACK ∧ colorOf r = BLACK)
    (hl : RB l) (hr : RB r) : RB (node l r c lev sz v s) := by
  simp only [RB]
  exact ⟨fun h => by rw [hln] at h; exact Bool.noConfusion h, fun _ => ⟨hrn, h1, h2, h3⟩, hl, hr⟩

theorem rb_recolor_black {l r : Node S} {c : COLOR} {lev sz : Int} {v s : S}
    (h : RB (node l r c lev sz v s)) : RB (node l r BLACK lev sz v s) := by
  simp only [RB] at h ⊢
  exact ⟨h.1, fun hn => ⟨(h.2.1 hn).1, (h.2.1 hn).2.1, (h.2.1 hn).2.2.1,
    fun hc => by cases hc⟩, h.2.2⟩

theorem rb_red_children {l r : Node S} {lev sz : Int} {v s : S}
    (h : RB (node l r RED lev sz v s)) (hn : l.isNull = false) :
    colorOf l = BLACK ∧ colorOf r = BLACK := by
  simp only [RB] at h
  exact (h.2.1 hn).2.2.2 trivial

/-- On a node with a left child, `update` stores `level(left) + [left is black]`. -/
theorem update_level (op : S → S → S) (e : S) (l r : Node S) (c : COLOR) (lev sz : Int)
    (v s : S) (hln : l.isNull = false) :
    ∃ sz1 s1, update op e (node l r c lev sz v s) = some (node l r c (childLevel l) sz1 v s1) := by
  obtain ⟨ll, lr, lc, llev, lsz, lv, ls, rfl⟩ := (isNull_false_iff l).1 hln
  exact ⟨_, _, rfl⟩

theorem isRed_iff (t : Node S) : t.isRed = true ↔ t.isNull = false ∧ colorOf t = RED := by
  cases t <;> simp [Node.isRed, colorOf]

theorem colorOf_of_not_isRed {t : Node S} (h : ¬ t.isRed = true) : colorOf t = BLACK := by
  cases t with
  | null => rfl
  | node l r c lev sz v s =>
    rcases color_cases c with hc | hc
    · exact hc
    · exact absurd (by simp [Node.isRed, hc]) h

theorem childLevel_black {t : Node S} (h : colorOf t = BLACK) : childLevel t = levelOf t + 1 := by
  simp [childLevel, h]

theorem childLevel_red {t : Node S} (h : colorOf t = RED) : childLevel t = levelOf t := by
  simp [childLevel, h]

/-- Merging a black-rooted balanced `l` into the left spine of a balanced `r`
of at least its level: the result keeps the black-height of `r`, is balanced
when `r` is black, and is red with at most a red left child when `r` is red. -/
theorem submerge_rb_left (op : S → S → S) (e : S) (l : Node S) (hl : RB l)
    (hln : l.isNull = false) (hlb : colorOf l = BLACK) :
    ∀ r : Node S, RB r → r.isNull = false → levelOf l ≤ levelOf r →
      (levelOf l = levelOf r → colorOf r = BLACK) →
      ∃ c, submerge op e l r = some c ∧ c.isNull = false ∧ childLevel c = childLevel r ∧
        (colorOf r = BLACK → RB c) ∧ (colorOf r = RED → colorOf c = RED ∧ RBweakL c) := by
  obtain ⟨ll, lr, lc, llev, lsz, lv, ls, rfl⟩ := (isNull_false_iff l).1 hln
  simp only [colorOf_node] at hlb
  subst hlb
  have hl0 := rb_level_nonneg _ hl
  intro r
  induction r with
  | null => intro _ h; simp at h
  | node rl rr rc rlev rsz rv rs ihl _ =>
    intro hr _ hle heq
    simp only [levelOf_node, colorOf_node] at hle heq hl0 ⊢
    rw [submerge]
    by_cases h1 : llev < rlev
    · rw [if_pos h1]
      obtain ⟨hrl, hrr, e1, e2, hred, rbl, rbr⟩ := rb_node_parts hr (by omega)
      have hlvl : levelOf (node ll lr BLACK llev lsz lv ls) ≤ levelOf rl ∧
          (levelOf (node ll lr BLACK llev lsz lv ls) = levelOf rl → colorOf rl = BLACK) := by
        simp only [levelOf_node]
        rcases color_cases (colorOf rl) with hc | hc
        · rw [childLevel_black hc] at e1
          exact ⟨by omega, fun _ => hc⟩
        · rw [childLevel_red hc] at e1
          exact ⟨by omega, fun h => by omega⟩
      obtain ⟨c, ec, nc, lvc, cb, cw⟩ := ihl rbl hrl hlvl.1 hlvl.2
      rw [ec]
      obtain ⟨cl, cr, cc, clev, csz, cv, cs, rfl⟩ := (isNull_false_iff c).1 nc
      dsimp only
      by_cases h2 : rc = BLACK ∧ cc = RED ∧ cl.isRed = true
      · rw [if_pos h2]
        obtain ⟨hrc, hcc, hclr⟩ := h2
        subst hrc hcc
        obtain ⟨hcl, hclc⟩ := (isRed_iff cl).1 hclr
        have hrlred : colorOf rl = RED := by
          rcases color_cases (colorOf rl) with hc | hc
          · have := (rb_red_children (cb hc) hcl).1
            rw [hclc] at this
            cases this
          · exact hc
        obtain ⟨_, hw⟩ := cw hrlred
        simp only [RBweakL] at hw
        obtain ⟨_, hcr, w1, w2, hcrb, rbcl, rbcr⟩ := hw
        have hclev : clev = rlev := by
          have := lvc
          rw [childLevel_red (by rfl), ← e1] at this
          simpa using this
        subst hclev
        obtain ⟨rrl, rrr, rrc, rrlev, rrsz, rrv, rrs, rfl⟩ := (isNull_false_iff rr).1 hrr
        dsimp only
        by_cases h3 : rrc = BLACK
        · rw [if_pos h3]
          subst h3
          obtain ⟨sz1, s1, eu1⟩ := update_level op e cr (node rrl rrr BLACK rrlev rrsz rrv rrs)
            RED clev rsz rv rs hcr
          obtain ⟨sz2, s2, eu2⟩ := update_level op e cl
            (node cr (node rrl rrr BLACK rrlev rrsz rrv rrs) RED (childLevel cr) sz1 rv s1)
            BLACK clev csz cv cs hcl
          have er : rotate op e (node (node cl cr BLACK clev csz cv cs)
              (node rrl rrr BLACK rrlev rrsz rrv rrs) RED clev rsz rv rs) true =
              some (node cl (node cr (node rrl rrr BLACK rrlev rrsz rrv rrs) RED (childLevel cr)
                sz1 rv s1) BLACK (childLevel cl) sz2 cv s2) := by
            simp only [rotate, eu1, Option.bind_eq_bind, Option.some_bind]
            exact eu2
          refine ⟨_, er, rfl, ?_, fun _ => ?_, fun h => by cases h⟩
          · simp only [childLevel, levelOf_node, colorOf_node, if_true] at w1 ⊢
            omega
          · refine rb_of_parts _ _ _ _ _ hcl rfl rfl ?_ (fun h => by cases h) rbcl ?_
            · simp only [childLevel, levelOf_node, colorOf_node, if_false, reduceCtorEq,
                add_zero] at w1 w2 ⊢
              omega
            · refine rb_of_parts _ _ _ _ _ hcr rfl rfl ?_ (fun _ => ⟨hcrb, rfl⟩) rbcr rbr
              rw [← e2, ← w2]
        · rw [if_neg h3]
          have hrrc : rrc = RED := (color_cases rrc).resolve_left h3
          subst hrrc
          obtain ⟨sz1, s1, eu1⟩ := update_level op e (node cl cr BLACK clev csz cv cs)
            (node rrl rrr BLACK rrlev rrsz rrv rrs) RED clev rsz rv rs rfl
          refine ⟨_, eu1, rfl, ?_, fun _ => ?_, fun h => by cases h⟩
          · simp only [childLevel, levelOf_node, colorOf_node, if_true, if_false, reduceCtorEq,
              add_zero]
          · refine rb_of_parts _ _ _ _ _ rfl rfl rfl ?_ (fun _ => ⟨rfl, rfl⟩) ?_
              (rb_recolor_black rbr)
            · simp only [childLevel, levelOf_node, colorOf_node, if_true, if_false,
                reduceCtorEq, add_zero] at e2 ⊢
              omega
            · exact rb_of_parts _ _ _ _ _ hcl hcr w1 w2 (fun h => by cases h) rbcl rbcr
      · rw [if_neg h2]
        obtain ⟨sz1, s1, eu1⟩ := update_level op e (node cl cr cc clev csz cv cs) rr rc rlev rsz
          rv rs rfl
        have hrbc : rc = BLACK → RB (node cl cr cc clev csz cv cs) := by
          intro hrc
          rcases color_cases (colorOf rl) with hc | hc
          · exact cb hc
          · obtain ⟨hcc, hw⟩ := cw hc
            simp only [colorOf_node] at hcc
            simp only [RBweakL] at hw
            obtain ⟨hcl, hcr, w1, w2, hcrb, rbcl, rbcr⟩ := hw
            have hclb : colorOf cl = BLACK :=
              colorOf_of_not_isRed (fun h => h2 ⟨hrc, hcc, h⟩)
            exact rb_of_parts _ _ _ _ _ hcl hcr w1 w2 (fun _ => ⟨hclb, hcrb⟩) rbcl rbcr
        have hcl1 : childLevel (node cl cr cc clev csz cv cs) = rlev := by rw [lvc, ← e1]
        refine ⟨_, eu1, rfl, ?_, fun hrc => ?_, fun hrc => ⟨hrc, ?_⟩⟩
        · show levelOf _ + _ = levelOf _ + _
          simp only [levelOf_node, colorOf_node, hcl1]
        · exact rb_of_parts _ _ _ _ _ rfl hrr rfl (by rw [lvc, ← e1, e2]) (fun h => by
            rw [hrc] at h; cases h) (hrbc hrc) rbr
        · exact ⟨rfl, hrr, rfl, by rw [lvc, ← e1, e2], (hred hrc).2, cb (hred hrc).1, rbr⟩
    · rw [if_neg h1, if_neg (by omega)]
      have hlev : llev = rlev := by omega
      have hrb := heq hlev
      subst hrb hlev
      obtain ⟨sz1, s1, eu1⟩ := update_level op e (node ll lr BLACK llev lsz lv ls)
        (node rl rr BLACK llev rsz rv rs) RED 0 0 e e rfl
      refine ⟨_, eu1, rfl, ?_, fun _ => ?_, fun h => by cases h⟩
      · simp only [childLevel, levelOf_node, colorOf_node, if_true, if_false, reduceCtorEq,
          add_zero]
      · exact rb_of_parts _ _ _ _ _ rfl rfl rfl (by
          simp only [childLevel, levelOf_node, colorOf_node, if_true]) (fun _ => ⟨rfl, rfl⟩) hl hr

/-- Merging a black-rooted balanced `r` into the right spine of a balanced `l`
of at least its level: the result keeps the black-height of `l`, is balanced
when `l` is black, and is red with at most a red right child when `l` is red. -/
theorem submerge_rb_right (op : S → S → S) (e : S) (r : Node S) (hr : RB r)
    (hrn : r.isNull = false) (hrb : colorOf r = BLACK) :
    ∀ l : Node S, RB l → l.isNull = false → levelOf r ≤ levelOf l →
      (levelOf l = levelOf r → colorOf l = BLACK) →
      ∃ c, submerge op e l r = some c ∧ c.isNull = false ∧ childLevel c = childLevel l ∧
        (colorOf l = BLACK → RB c) ∧ (colorOf l = RED → colorOf c = RED ∧ RBweakR c) := by
  obtain ⟨rl, rr, rc, rlev, rsz, rv, rs, rfl⟩ := (isNull_false_iff r).1 hrn
  simp only [colorOf_node] at hrb
  subst hrb
  have hr0 := rb_level_nonneg _ hr
  intro l
  induction l with
  | null => intro _ h; simp at h
  | node ll lr lc llev lsz lv ls _ ihr =>
    intro hl _ hle heq
    simp only [levelOf_node, colorOf_node] at hle heq hr0 ⊢
    rw [submerge]
    by_cases h1 : llev > rlev
    · rw [if_neg (by omega), if_pos h1]
      obtain ⟨hll, hlr, e1, e2, hred, rbl, rbr⟩ := rb_node_parts hl (by omega)
      have hlvl : levelOf (node rl rr BLACK rlev rsz rv rs) ≤ levelOf lr ∧
          (levelOf lr = levelOf (node rl rr BLACK rlev rsz rv rs) → colorOf lr = BLACK) := by
        simp only [levelOf_node]
        rcases color_cases (colorOf lr) with hc | hc
        · rw [childLevel_black hc] at e2
          exact ⟨by omega, fun _ => hc⟩
        · rw [childLevel_red hc] at e2
          exact ⟨by omega, fun h => by omega⟩
      obtain ⟨c, ec, nc, lvc, cb, cw⟩ := ihr rbr hlr hlvl.1 hlvl.2
      rw [ec]
      obtain ⟨cl, cr, cc, clev, csz, cv, cs, rfl⟩ := (isNull_false_iff c).1 nc
      dsimp only
      by_cases h2 : lc = BLACK ∧ cc = RED ∧ cr.isRed = true
      · rw [if_pos h2]
        obtain ⟨hlc, hcc, hcrr⟩ := h2
        subst hlc hcc
        obtain ⟨hcr, hcrc⟩ := (isRed_iff cr).1 hcrr
        have hlrred : colorOf lr = RED := by
          rcases color_cases (colorOf lr) with hc | hc
          · have hc1 := cb hc
            have hcl : cl.isNull = false := by
              simp only [RB] at hc1
              cases hq : cl.isNull
              · rfl
              · have := (hc1.1 hq).1
                rw [hcr] at this
                exact Bool.noConfusion this
            have := (rb_red_children hc1 hcl).2
            rw [hcrc] at this
            cases this
          · exact hc
        obtain ⟨_, hw⟩ := cw hlrred
        obtain ⟨hcl, _, w1, w2, hclb, rbcl, rbcr⟩ := hw
        have hclev : clev = llev := by
          have := lvc
          rw [childLevel_red (by rfl), ← e2] at this
          simpa using this
        subst hclev
        obtain ⟨lll, llr, llc, lllev, llsz, llv, lls, rfl⟩ := (isNull_false_iff ll).1 hll
        dsimp only
        by_cases h3 : llc = BLACK
        · rw [if_pos h3]
          subst h3
          obtain ⟨sz1, s1, eu1⟩ := update_level op e (node lll llr BLACK lllev llsz llv lls) cl
            RED clev lsz lv ls rfl
          obtain ⟨sz2, s2, eu2⟩ := update_level op e
            (node (node lll llr BLACK lllev llsz llv lls) cl RED
              (childLevel (node lll llr BLACK lllev llsz llv lls)) sz1 lv s1) cr
            BLACK clev csz cv cs rfl
          have er : rotate op e (node (node lll llr BLACK lllev llsz llv lls)
              (node cl cr BLACK clev csz cv cs) RED clev lsz lv ls) false =
              some (node (node (node lll llr BLACK lllev llsz llv lls) cl RED
                (childLevel (node lll llr BLACK lllev llsz llv lls)) sz1 lv s1) cr BLACK
                (childLevel (node (node lll llr BLACK lllev llsz llv lls) cl RED
                  (childLevel (node lll llr BLACK lllev llsz llv lls)) sz1 lv s1)) sz2 cv s2) := by
            simp only [rotate, eu1, Option.bind_eq_bind, Option.some_bind]
            exact eu2
          refine ⟨_, er, rfl, ?_, fun _ => ?_, fun h => by cases h⟩
          · simp only [childLevel, levelOf_node, colorOf_node, if_true, if_false, reduceCtorEq,
              add_zero] at e1 ⊢
            omega
          · refine rb_of_parts _ _ _ _ _ rfl hcr rfl ?_ (fun h => by cases h) ?_ rbcr
            · simp only [childLevel, levelOf_node, colorOf_node, if_true, if_false, reduceCtorEq,
                add_zero] at e1 w2 ⊢
              omega
            · refine rb_of_parts _ _ _ _ _ rfl hcl rfl ?_ (fun _ => ⟨rfl, hclb⟩) rbl rbcl
              rw [← e1, ← w1]
        · rw [if_neg h3]
          have hllc : llc = RED := (color_cases llc).resolve_left h3
          subst hllc
          obtain ⟨sz1, s1, eu1⟩ := update_level op e (node lll llr BLACK lllev llsz llv lls)
            (node cl cr BLACK clev csz cv cs) RED clev lsz lv ls rfl
          refine ⟨_, eu1, rfl, ?_, fun _ => ?_, fun h => by cases h⟩
          · simp only [childLevel, levelOf_node, colorOf_node, if_true, if_false, reduceCtorEq,
              add_zero] at e1 ⊢
            omega
          · refine rb_of_parts _ _ _ _ _ rfl rfl rfl ?_ (fun _ => ⟨rfl, rfl⟩)
              (rb_recolor_black rbl) ?_
            · simp only [childLevel, levelOf_node, colorOf_node, if_true, if_false,
                reduceCtorEq, add_zero] at e1 ⊢
              omega
            · exact rb_of_parts _ _ _ _ _ hcl hcr w1 w2 (fun h => by cases h) rbcl rbcr
      · rw [if_neg h2]
        obtain ⟨sz1, s1, eu1⟩ := update_level op e ll (node cl cr cc clev csz cv cs) lc llev lsz
          lv ls hll
        have hrbc : lc = BLACK → RB (node cl cr cc clev csz cv cs) := by
          intro hlc
          rcases color_cases (colorOf lr) with hc | hc
          · exact cb hc
          · obtain ⟨hcc, hw⟩ := cw hc
            simp only [colorOf_node] at hcc
            obtain ⟨hcl, hcr, w1, w2, hclb, rbcl, rbcr⟩ := hw
            have hcrb : colorOf cr = BLACK :=
              colorOf_of_not_isRed (fun h => h2 ⟨hlc, hcc, h⟩)
            exact rb_of_parts _ _ _ _ _ hcl hcr w1 w2 (fun _ => ⟨hclb, hcrb⟩) rbcl rbcr
        refine ⟨_, eu1, rfl, ?_, fun hlc => ?_, fun hlc => ⟨hlc, ?_⟩⟩
        · show levelOf _ + _ = levelOf _ + _
          simp only [levelOf_node, colorOf_node, ← e1]
        · exact rb_of_parts _ _ _ _ _ hll rfl rfl (by rw [lvc, ← e1, e2]) (fun h => by
            rw [hlc] at h; cases h) rbl (hrbc hlc)
        · exact ⟨hll, rfl, rfl, by rw [lvc, ← e1, e2], (hred hlc).1, rbl, cb (hred hlc).2⟩
    · rw [if_neg (by omega), if_neg h1]
      have hlev : llev = rlev := by omega
      have hlb := heq hlev
      subst hlb hlev
      obtain ⟨sz1, s1, eu1⟩ := update_level op e (node ll lr BLACK llev lsz lv ls)
        (node rl rr BLACK llev rsz rv rs) RED 0 0 e e rfl
      refine ⟨_, eu1, rfl, ?_, fun _ => ?_, fun h => by cases h⟩
      · simp only [childLevel, levelOf_node, colorOf_node, if_true, if_false, reduceCtorEq,
          add_zero]
      · exact rb_of_parts _ _ _ _ _ rfl rfl rfl (by
          simp only [childLevel, levelOf_node, colorOf_node, if_true]) (fun _ => ⟨rfl, rfl⟩) hl hr

theorem rb_leaf (k : S) : RB (Node.leaf k) := by
  simp [RB, Node.leaf]

/-- C19: for two non-absent trees `l` and `r`, each with a black root, no red
node with a red child and the same black-height on every path, `merge(l, r)`
is defined and has a black root, no red node with a red child, and at every
internal node a cached level equal to `level(child) + [child is black]` for
both children. -/
theorem merge_keeps_balance (op : S → S → S) (e : S) (l r : Node S)
    (hln : l ≠ null) (hrn : r ≠ null) (hlb : colorOf l = BLACK) (hrb : colorOf r = BLACK)
    (hl : RB l) (hr : RB r) :
    ∃ c, merge op e l r = some c ∧ c ≠ null ∧ colorOf c = BLACK ∧ RB c := by
  have hl1 : l.isNull = false := by
    cases h : l.isNull
    · rfl
    · exact absurd ((isNull_iff l).1 h) hln
  have hr1 : r.isNull = false := by
    cases h : r.isNull
    · rfl
    · exact absurd ((isNull_iff r).1 h) hrn
  have key : ∃ c, submerge op e l r = some c ∧ c.isNull = false ∧ RB c := by
    by_cases hle : levelOf l ≤ levelOf r
    · obtain ⟨c, ec, nc, _, cb, _⟩ := submerge_rb_left op e l hl hl1 hlb r hr hr1 hle (fun _ => hrb)
      exact ⟨c, ec, nc, cb hrb⟩
    · obtain ⟨c, ec, nc, _, cb, _⟩ := submerge_rb_right op e r hr hr1 hrb l hl hl1 (by omega)
        (fun _ => hlb)
      exact ⟨c, ec, nc, cb hlb⟩
  obtain ⟨c, ec, nc, rbc⟩ := key
  obtain ⟨cl, cr, cc, clev, csz, cv, cs, rfl⟩ := (isNull_false_iff c).1 nc
  refine ⟨node cl cr BLACK clev csz cv cs, ?_, (fun h => by cases h), rfl, rb_recolor_black rbc⟩
  simp [merge, hl1, hr1, ec]

/-- C19 on the tree of `[0, 1, 2, 3, 4]` and a single leaf. -/
theorem merge_keeps_balance_witness :
    (tree5 ≠ null ∧ Node.leaf (9 : Int) ≠ null ∧ colorOf tree5 = BLACK ∧
      colorOf (Node.leaf (9 : Int)) = BLACK ∧ RB tree5 ∧ RB (Node.leaf (9 : Int))) ∧
    ∃ c, merge (fun x y : Int => x + y) 0 tree5 (Node.leaf 9) = some c ∧ c ≠ null ∧
      colorOf c = BLACK ∧ RB c :=
  ⟨⟨by decide, by decide, rfl, rfl, rb_tree5, rb_leaf 9⟩,
    merge_keeps_balance _ _ tree5 (Node.leaf 9) (by decide) (by decide) rfl rfl rb_tree5
      (rb_leaf 9)⟩

end RedBlackTree

namespace VectorPool

theorem take_set_self (l : List Nat) (n a : Nat) : (l.set n a).take n = l.take n := by
  induction l generalizing n with
  | nil => simp
  | cons x xs ih =>
    cases n with
    | zero => simp
    | succ n => simp [ih]

/-- What holds in every state of a run: the free part of `stock` and the
issued slots together are the `c` slots, each exactly once. -/
theorem run_invariant (c : Nat) (p : Pool) (issued : List Nat) (h : Run c p issued) :
    p.stock.length = c ∧ 0 ≤ p.ptr ∧ p.ptr.toNat + issued.length = c ∧
      (p.stock.take p.ptr.toNat ++ issued).Perm (List.range c) := by
  induction h with
  | clear p hl =>
    refine ⟨by simp [clear, hl], by simp [clear], by simp [clear, hl], ?_⟩
    simp only [clear, hl, Int.toNat_ofNat, List.append_nil]
    rw [List.take_of_length_le (by simp)]
  | alloc p q issued x _ hc ha ih =>
    obtain ⟨hl, h0, hn, hp⟩ := ih
    unfold alloc at ha
    have h1 : 0 ≤ p.ptr - 1 := by omega
    rw [if_pos h1] at ha
    have hlt : (p.ptr - 1).toNat < p.stock.length := by omega
    rw [List.get?_eq_get hlt] at ha
    simp only [Option.some.injEq, Prod.mk.injEq] at ha
    obtain ⟨hx, rfl⟩ := ha
    refine ⟨hl, h1, by simp only [List.length_cons]; omega, ?_⟩
    have hk : p.ptr.toNat = (p.ptr - 1).toNat + 1 := by omega
    rw [hk, List.take_succ, List.getElem?_eq_getElem hlt] at hp
    rw [List.get_eq_getElem] at hx
    simp only [Option.toList_some, List.append_assoc, List.singleton_append, hx] at hp
    exact hp
  | free p q issued x _ hx hf ih =>
    obtain ⟨hl, h0, hn, hp⟩ := ih
    have hpos : 0 < issued.length := List.length_pos_of_mem hx
    unfold free at hf
    have h1 : 0 ≤ p.ptr ∧ p.ptr.toNat < p.stock.length := ⟨h0, by omega⟩
    rw [if_pos h1] at hf
    obtain rfl := Option.some.inj hf
    refine ⟨by simp [hl], by simp only; omega, ?_, ?_⟩
    · simp only [List.length_erase_of_mem hx]
      omega
    · have hk : (p.ptr + 1).toNat = p.ptr.toNat + 1 := by omega
      simp only [hk]
      rw [List.take_succ, take_set_self, List.getElem?_set_self h1.2]
      simp only [Option.toList_some, List.append_assoc, List.singleton_append]
      exact (List.Perm.append_left _ (List.perm_cons_erase hx).symm).trans hp

/-- C17: after `clear()` on a pool of capacity `c`, along every sequence of
`alloc()` and `free(x)` calls in which each `free(x)` returns a currently
issued slot and at most `c` slots are issued at any time, the issued slots are
pairwise distinct slots of the pool, every further `alloc()` (while fewer than
`c` are issued) is defined and returns a slot that is not currently issued,
every `free` of an issued slot is defined, and `clear()` makes all `c` slots
available again. -/
theorem pool_never_aliases (c : Nat) (p : Pool) (issued : List Nat) (h : Run c p issued) :
    issued.Nodup ∧ (∀ x ∈ issued, x < c) ∧
    (issued.length < c → ∃ x q, alloc p = some (x, q) ∧ x ∉ issued ∧ x < c ∧
      Run c q (x :: issued)) ∧
    (∀ x ∈ issued, ∃ q, free p x = some q ∧ Run c q (issued.erase x)) ∧
    (Run c (clear p) [] ∧ (clear p).ptr = c ∧ (clear p).stock = List.range c) := by
  obtain ⟨hl, h0, hn, hp⟩ := run_invariant c p issued h
  have hnd : (p.stock.take p.ptr.toNat ++ issued).Nodup := hp.nodup_iff.2 (List.nodup_range c)
  have hmem : ∀ y, y ∈ p.stock.take p.ptr.toNat ++ issued → y < c := fun y hy =>
    List.mem_range.1 (hp.mem_iff.1 hy)
  refine ⟨(List.nodup_append.1 hnd).2.1, fun x hx => hmem x (List.mem_append_right _ hx),
    ?_, ?_, Run.clear p hl, by simp [clear, hl], by simp [clear, hl]⟩
  · intro hc
    have h1 : 0 ≤ p.ptr - 1 := by omega
    have hlt : (p.ptr - 1).toNat < p.stock.length := by omega
    have ha : alloc p = some (p.stock.get ⟨(p.ptr - 1).toNat, hlt⟩, Pool.mk p.stock (p.ptr - 1)) := by
      unfold alloc
      rw [if_pos h1, List.get?_eq_get hlt]
    have hin : p.stock.get ⟨(p.ptr - 1).toNat, hlt⟩ ∈ p.stock.take p.ptr.toNat := by
      rw [List.mem_take_iff_getElem]
      exact ⟨(p.ptr - 1).toNat, by omega, rfl⟩
    refine ⟨_, _, ha, ?_, hmem _ (List.mem_append_left _ hin), Run.alloc p _ issued _ h hc ha⟩
    exact fun hx => (List.nodup_append.1 hnd).2.2 hin hx
  · intro x hx
    have hpos : 0 < issued.length := List.length_pos_of_mem hx
    have h1 : 0 ≤ p.ptr ∧ p.ptr.toNat < p.stock.length := ⟨h0, by omega⟩
    have hf : free p x = some (Pool.mk (p.stock.set p.ptr.toNat x) (p.ptr + 1)) := by
      unfold free
      rw [if_pos h1]
    exact ⟨_, hf, Run.free p _ issued x h hx hf⟩

/-- C17 on a pool of capacity `2`: after `clear()` and one `alloc()`, which
issues slot `1`, the next `alloc()` issues a different slot. -/
theorem pool_never_aliases_witness :
    Run 2 (Pool.mk [0, 1] 1) [1] ∧
    ([1].Nodup ∧ (∀ x ∈ [1], x < 2) ∧
    ([1].length < 2 → ∃ x q, alloc (Pool.mk [0, 1] 1) = some (x, q) ∧ x ∉ [1] ∧ x < 2 ∧
      Run 2 q (x :: [1])) ∧
    (∀ x ∈ [1], ∃ q, free (Pool.mk [0, 1] 1) x = some q ∧ Run 2 q ([1].erase x)) ∧
    (Run 2 (clear (Pool.mk [0, 1] 1)) [] ∧ (clear (Pool.mk [0, 1] 1)).ptr = 2 ∧
      (clear (Pool.mk [0, 1] 1)).stock = List.range 2)) :=
  have h : Run 2 (Pool.mk [0, 1] 1) [1] :=
    Run.alloc (clear (new 2 0)) _ [] 1 (Run.clear (new 2 0) rfl) (by decide) (by decide)
  ⟨h, pool_never_aliases 2 _ _ h⟩

end VectorPool

namespace StronglyConnectedComponents

/-! ### Paths that avoid marked vertices -/

theorem ra_refl {g : List (List Nat)} {U : Nat → Prop} {x : Nat} (h : ¬ U x) :
    ReachAvoiding g U x x := ⟨h, Relation.ReflTransGen.refl⟩

theorem ra_target {g : List (List Nat)} {U : Nat → Prop} {x y : Nat}
    (h : ReachAvoiding g U x y) : ¬ U y := by
  obtain ⟨hx, hp⟩ := h
  cases hp with
  | refl => exact hx
  | tail _ hbc => exact hbc.2

theorem ra_trans {g : List (List Nat)} {U : Nat → Prop} {x y z : Nat}
    (h1 : ReachAvoiding g U x y) (h2 : ReachAvoiding g U y z) : ReachAvoiding g U x z :=
  ⟨h1.1, h1.2.trans h2.2⟩

theorem ra_head {g : List (List Nat)} {U : Nat → Prop} {x y z : Nat} (hx : ¬ U x)
    (he : Edge g x y) (h : ReachAvoiding g U y z) : ReachAvoiding g U x z :=
  ⟨hx, Relation.ReflTransGen.head ⟨he, h.1⟩ h.2⟩

theorem ra_mono {g : List (List Nat)} {U V : Nat → Prop} (hUV : ∀ x, U x → V x) {x y : Nat}
    (h : ReachAvoiding g V x y) : ReachAvoiding g U x y :=
  ⟨fun hu => h.1 (hUV x hu),
    Relation.ReflTransGen.mono (fun _ b hab => ⟨hab.1, fun hu => hab.2 (hUV b hu)⟩) h.2⟩

theorem ra_reach {g : List (List Nat)} {U : Nat → Prop} {x y : Nat}
    (h : ReachAvoiding g U x y) : Reach g x y :=
  Relation.ReflTransGen.mono (fun _ _ hab => hab.1) h.2

theorem reach_ra {g : List (List Nat)} {x y : Nat} (h : Reach g x y) :
    ReachAvoiding g (fun _ => False) x y :=
  ⟨fun hf => hf, Relation.ReflTransGen.mono (fun _ _ hab => ⟨hab, fun hf => hf⟩) h⟩

/-- A path that starts in a closed list and avoids `U` stays in the list. -/
theorem ra_closed {g : List (List Nat)} {U : Nat → Prop} {L : List Nat} (hc : Closed g U L)
    {x y : Nat} (hx : x ∈ L) (h : ReachAvoiding g U x y) : y ∈ L := by
  obtain ⟨_, hp⟩ := h
  induction hp with
  | refl => exact hx
  | tail _ hbc ih =>
    rcases hc _ ih _ hbc.1 with hu | hm
    · exact absurd hu hbc.2
    · exact hm

/-- A path that avoids `U` and ends outside a closed list avoids the list. -/
theorem ra_avoid_closed {g : List (List Nat)} {U : Nat → Prop} {L : List Nat}
    (hc : Closed g U L) {a y : Nat} (h : ReachAvoiding g U a y)
    (hy : y ∉ L) : ReachAvoiding g (fun x => U x ∨ x ∈ L) a y := by
  obtain ⟨ha, hp⟩ := h
  have key : a ∉ L ∧ Relation.ReflTransGen (fun a b => Edge g a b ∧ ¬ (U b ∨ b ∈ L)) a y := by
    induction hp using Relation.ReflTransGen.head_induction_on with
    | refl => exact ⟨hy, Relation.ReflTransGen.refl⟩
    | head hab _ ih =>
      have hbU := hab.2
      obtain ⟨hb, hr⟩ := ih hbU
      refine ⟨fun hm => ?_, Relation.ReflTransGen.head ⟨hab.1, fun h => h.elim hbU hb⟩ hr⟩
      rcases hc _ hm _ hab.1 with hu | hm2
      · exact hbU hu
      · exact hb hm2
  exact ⟨fun h => h.elim ha key.1, key.2⟩

/-- A path that avoids `U` from a vertex that cannot reach `v` avoids `v`. -/
theorem ra_avoid_vertex {g : List (List Nat)} {U : Nat → Prop} {x z v : Nat}
    (h : ReachAvoiding g U x z) (hv : ¬ ReachAvoiding g U x v) :
    ReachAvoiding g (fun a => U a ∨ a = v) x z := by
  obtain ⟨hx, hp⟩ := h
  have hxv : x ≠ v := fun e => hv (e ▸ ⟨hx, Relation.ReflTransGen.refl⟩)
  refine ⟨fun h => h.elim hx hxv, ?_⟩
  induction hp with
  | refl => exact Relation.ReflTransGen.refl
  | tail hab hbc ih =>
    rename_i b c
    have hcv : c ≠ v := fun e => hv ⟨hx, e ▸ hab.tail hbc⟩
    exact ih.tail ⟨hbc.1, fun h => h.elim hbc.2 hcv⟩

end StronglyConnectedComponents

namespace StronglyConnectedComponents

/-! ### The order of finishing -/

theorem backLinked_congr {g : List (List Nat)} {U V : Nat → Prop} (h : ∀ x, U x ↔ V x)
    {L : List Nat} (hb : BackLinked (ReachAvoiding g U) L) :
    BackLinked (ReachAvoiding g V) L := by
  intro x hx y hl
  have := hb x hx y ⟨ra_mono (fun a ha => (h a).1 ha) hl.1, hl.2.1,
    fun z hz hr => hl.2.2 z hz (ra_mono (fun a ha => (h a).2 ha) hr)⟩
  exact ra_mono (fun a ha => (h a).2 ha) this

/-- Appending the vertices finished by one more call keeps the list back-linked. -/
theorem backLinked_append {g : List (List Nat)} {U : Nat → Prop} {acc seg : List Nat}
    (hc : Closed g U acc) (hdis : ∀ x ∈ seg, x ∉ acc) (hfresh : ∀ x ∈ seg, ¬ U x)
    (h1 : BackLinked (ReachAvoiding g U) acc)
    (h2 : BackLinked (ReachAvoiding g (fun x => U x ∨ x ∈ acc)) seg) :
    BackLinked (ReachAvoiding g U) (acc ++ seg) := by
  intro x hx y hl
  obtain ⟨hxy, hyL, hlast⟩ := hl
  rcases List.mem_append.1 hx with hxa | hxs
  · have hya : y ∈ acc := ra_closed hc hxa hxy
    refine h1 x hxa y ⟨hxy, hya, fun z hz hr => ?_⟩
    have := hlast z (List.mem_append_left _ hz) hr
    rwa [List.indexOf_append_of_mem hz, List.indexOf_append_of_mem hya] at this
  · have hxna := hdis x hxs
    have hxx := hlast x hx (ra_refl (hfresh x hxs))
    rw [List.indexOf_append_of_not_mem hxna] at hxx
    have hyna : y ∉ acc := by
      intro hya
      rw [List.indexOf_append_of_mem hya] at hxx
      have := List.indexOf_lt_length.2 hya
      omega
    have hys : y ∈ seg := (List.mem_append.1 hyL).resolve_left hyna
    have hxy2 := ra_avoid_closed hc hxy hyna
    have := h2 x hxs y ⟨hxy2, hys, fun z hz hr => by
      have h3 := hlast z (List.mem_append_right _ hz) (ra_mono (fun a ha => Or.inl ha) hr)
      rw [List.indexOf_append_of_not_mem (hdis z hz), List.indexOf_append_of_not_mem hyna] at h3
      omega⟩
    exact ra_mono (fun a ha => Or.inl ha) this

/-- Finishing the root after the vertices found from it keeps the list
back-linked. -/
theorem backLinked_snoc {g : List (List Nat)} {U : Nat → Prop} {acc : List Nat} {v : Nat}
    (hv : ¬ U v) (hvacc : v ∉ acc) (hreach : ∀ x ∈ acc, ReachAvoiding g U v x)
    (h1 : BackLinked (ReachAvoiding g (fun a => U a ∨ a = v)) acc) :
    BackLinked (ReachAvoiding g U) (acc ++ [v]) := by
  intro x hx y hl
  obtain ⟨hxy, hyL, hlast⟩ := hl
  have hvL : v ∈ acc ++ [v] := List.mem_append_right _ (List.mem_singleton_self v)
  have hiv : (acc ++ [v]).indexOf v = acc.length := by
    rw [List.indexOf_append_of_not_mem hvacc, List.indexOf_cons_self]; rfl
  by_cases hxv : ReachAvoiding g U x v
  · have h3 := hlast v hvL hxv
    have h4 := List.indexOf_lt_length.2 hyL
    rw [List.length_append, List.length_singleton] at h4
    have hyv : y = v := (List.indexOf_inj hyL hvL).1 (by omega)
    subst hyv
    rcases List.mem_append.1 hx with hxa | hxs
    · exact hreach x hxa
    · rw [List.mem_singleton.1 hxs]; exact ra_refl hv
  · have hxne : x ≠ v := fun e => hxv (by rw [e]; exact ra_refl hv)
    have hyne : y ≠ v := fun e => hxv (by rw [← e]; exact hxy)
    have hxa : x ∈ acc := (List.mem_append.1 hx).resolve_right
      (fun h => hxne (List.mem_singleton.1 h))
    have hya : y ∈ acc := (List.mem_append.1 hyL).resolve_right
      (fun h => hyne (List.mem_singleton.1 h))
    have := h1 x hxa y ⟨ra_avoid_vertex hxy hxv, hya, fun z hz hr => by
      have h3 := hlast z (List.mem_append_left _ hz) (ra_mono (fun a ha => Or.inl ha) hr)
      rwa [List.indexOf_append_of_mem hz, List.indexOf_append_of_mem hya] at h3⟩
    exact ra_mono (fun a ha => Or.inl ha) this

end StronglyConnectedComponents

namespace StronglyConnectedComponents

/-! ### The first pass -/

theorem get?_bool_cases (used : List Bool) (x : Nat) (h : x < used.length) :
    used.get? x = some true ∨ used.get? x = some false := by
  rw [List.get?_eq_get h]
  cases used.get ⟨x, h⟩
  · exact Or.inr rfl
  · exact Or.inl rfl

theorem vis_lt {used : List Bool} {x : Nat} (h : Vis used x) : x < used.length := by
  unfold Vis at h
  by_contra hn
  rw [List.get?_eq_none.2 (by omega)] at h
  cases h

theorem vis_set (used : List Bool) (v x : Nat) (hv : v < used.length) :
    Vis (used.set v true) x ↔ Vis used x ∨ x = v := by
  unfold Vis
  simp only [List.get?_eq_getElem?]
  rw [List.getElem?_set]
  by_cases hvx : v = x
  · subst hvx
    simp [hv]
  · simp [hvx, Ne.symm hvx]

theorem count_set_true (used : List Bool) (v : Nat) (h : used.get? v = some false) :
    (used.set v true).count false + 1 = used.count false := by
  have hv : v < used.length := by
    by_contra hn
    rw [List.get?_eq_none.2 (by omega)] at h
    cases h
  rw [List.count_set true false used v hv]
  rw [List.get?_eq_getElem?, List.getElem?_eq_getElem hv] at h
  have h1 : used[v] = false := Option.some.inj h
  have hpos : 0 < used.count false := by
    rw [List.count_pos_iff]
    exact h1 ▸ List.getElem_mem hv
  simp [h1]
  omega

end StronglyConnectedComponents

namespace StronglyConnectedComponents

/-- A loop of guarded `dfs` calls over `es` keeps the loop invariant and leaves
every vertex of `es` marked, provided each call does what `DfsPost` says. -/
theorem visit_loop (g : List (List Nat)) (fuel : Nat)
    (hD : ∀ v used order, used.length = g.length → v < g.length →
      used.get? v = some false → used.count false ≤ fuel →
      ∃ used1 seg, dfs g fuel v (used, order) = some (used1, order ++ seg) ∧
        DfsPost g used v used1 seg)
    (U Q : Nat → Prop) :
    ∀ es : List Nat, (∀ e ∈ es, e < g.length) →
      (∀ e ∈ es, ∀ x, ReachAvoiding g U e x → Q x) →
      ∀ (cur : List Bool) (order acc : List Nat), LoopInv g U cur acc → (∀ x ∈ acc, Q x) →
        cur.count false ≤ fuel →
        ∃ cur1 acc1, es.foldlM (visitIfUnused (dfs g fuel)) (cur, order ++ acc) =
            some (cur1, order ++ acc1) ∧
          LoopInv g U cur1 acc1 ∧ (∀ x ∈ acc1, Q x) ∧
          cur1.count false ≤ cur.count false ∧ (∀ e ∈ es, Vis cur1 e) ∧
          (∀ x ∈ acc, x ∈ acc1) := by
  intro es
  induction es with
  | nil =>
    intro _ _ cur order acc hinv hq _
    exact ⟨cur, acc, rfl, hinv, hq, le_refl _, (fun e he => by cases he), fun x hx => hx⟩
  | cons e es ih =>
    intro hes hQ cur order acc hinv hq hcount
    have he : e < cur.length := by rw [hinv.len]; exact hes e (List.mem_cons_self _ _)
    have hes1 : ∀ a ∈ es, a < g.length := fun a ha => hes a (List.mem_cons_of_mem _ ha)
    have hQ1 : ∀ a ∈ es, ∀ x, ReachAvoiding g U a x → Q x :=
      fun a ha => hQ a (List.mem_cons_of_mem _ ha)
    rw [List.foldlM_cons]
    rcases get?_bool_cases cur e he with hb | hb
    · have hstep : visitIfUnused (dfs g fuel) (cur, order ++ acc) e = some (cur, order ++ acc) := by
        simp only [visitIfUnused, hb]
      obtain ⟨cur1, acc1, e1, inv1, q1, c1, v1, s1⟩ := ih hes1 hQ1 cur order acc hinv hq hcount
      refine ⟨cur1, acc1, ?_, inv1, q1, c1, ?_, s1⟩
      · rw [hstep]; exact e1
      · intro a ha
        rcases List.mem_cons.1 ha with rfl | ha
        · rcases (hinv.vis a).1 hb with hu | hm
          · exact (inv1.vis a).2 (Or.inl hu)
          · exact (inv1.vis a).2 (Or.inr (s1 a hm))
        · exact v1 a ha
    · obtain ⟨used1, seg, ed, post⟩ := hD e cur (order ++ acc) hinv.len
        (hes e (List.mem_cons_self _ _)) hb hcount
      have hstep : visitIfUnused (dfs g fuel) (cur, order ++ acc) e =
          some (used1, order ++ (acc ++ seg)) := by
        simp only [visitIfUnused, hb, ed, List.append_assoc]
      have hnv : ∀ x ∈ seg, ¬ (U x ∨ x ∈ acc) := fun x hx h =>
        post.fresh x hx ((hinv.vis x).2 h)
      have inv2 : LoopInv g U used1 (acc ++ seg) := by
        refine ⟨post.len, fun x => ?_, ?_, ?_, ?_, ?_⟩
        · rw [post.vis, hinv.vis, List.mem_append, or_assoc]
        · exact List.nodup_append.2 ⟨hinv.nodup, post.nodup,
            fun x hxa hxs => hnv x hxs (Or.inr hxa)⟩
        · intro x hx
          rcases List.mem_append.1 hx with h | h
          · exact hinv.fresh x h
          · exact fun hu => hnv x h (Or.inl hu)
        · intro x hx y hxy
          rcases List.mem_append.1 hx with h | h
          · rcases hinv.closed x h y hxy with hu | hm
            · exact Or.inl hu
            · exact Or.inr (List.mem_append_left _ hm)
          · rcases post.closed x h y hxy with hu | hm
            · rcases (hinv.vis y).1 hu with hu1 | hm1
              · exact Or.inl hu1
              · exact Or.inr (List.mem_append_left _ hm1)
            · exact Or.inr (List.mem_append_right _ hm)
        · exact backLinked_append hinv.closed (fun x hx hxa => hnv x hx (Or.inr hxa))
            (fun x hx hu => hnv x hx (Or.inl hu)) hinv.back
            (backLinked_congr (fun x => hinv.vis x) post.back)
      have hq2 : ∀ x ∈ acc ++ seg, Q x := by
        intro x hx
        rcases List.mem_append.1 hx with h | h
        · exact hq x h
        · exact hQ e (List.mem_cons_self _ _) x
            (ra_mono (fun a ha => (hinv.vis a).2 (Or.inl ha)) (post.reach x h))
      obtain ⟨cur1, acc1, e1, inv1, q1, c1, v1, s1⟩ := ih hes1 hQ1 used1 order (acc ++ seg) inv2 hq2
        (le_trans post.count hcount)
      refine ⟨cur1, acc1, ?_, inv1, q1, le_trans c1 post.count, ?_,
        fun x hx => s1 x (List.mem_append_left _ hx)⟩
      · rw [hstep]; exact e1
      · intro a ha
        rcases List.mem_cons.1 ha with rfl | ha
        · exact (inv1.vis a).2 (Or.inr (s1 a (List.mem_append_right _ post.root)))
        · exact v1 a ha

end StronglyConnectedComponents

namespace StronglyConnectedComponents

theorem edge_of_get? {g : List (List Nat)} {v : Nat} {es : List Nat} (h : g.get? v = some es)
    {y : Nat} : Edge g v y ↔ y ∈ es := by
  constructor
  · rintro ⟨es1, h1, h2⟩
    rw [h] at h1
    obtain rfl := Option.some.inj h1
    exact h2
  · exact fun hy => ⟨es, h, hy⟩

/-- With fuel for every unmarked vertex, `dfs(v)` on an unmarked `v` is
defined and does what `DfsPost` says. -/
theorem dfs_spec (g : List (List Nat)) (hg : InRange g) : ∀ (fuel v : Nat) (used : List Bool)
    (order : List Nat), used.length = g.length → v < g.length →
    used.get? v = some false → used.count false ≤ fuel →
    ∃ used1 seg, dfs g fuel v (used, order) = some (used1, order ++ seg) ∧
      DfsPost g used v used1 seg := by
  intro fuel
  induction fuel with
  | zero =>
    intro v used order _ _ hv hc
    have := count_set_true used v hv
    omega
  | succ fuel ih =>
    intro v used order hlen hvn hv hc
    have hvu : v < used.length := by omega
    have hnv : ¬ Vis used v := by
      unfold Vis; rw [hv]; exact fun h => Bool.noConfusion (Option.some.inj h)
    obtain ⟨es, hes⟩ : ∃ es, g.get? v = some es := ⟨g.get ⟨v, hvn⟩, List.get?_eq_get hvn⟩
    have hcnt := count_set_true used v hv
    have inv0 : LoopInv g (fun x => Vis used x ∨ x = v) (used.set v true) [] :=
      ⟨by rw [List.length_set, hlen], (fun x => by rw [vis_set used v x hvu]; simp),
        List.nodup_nil, (fun x hx => by cases hx), (fun x hx => by cases hx),
        (fun x hx => by cases hx)⟩
    obtain ⟨cur1, acc1, e1, inv1, q1, c1, v1, _⟩ := visit_loop g fuel ih
      (fun x => Vis used x ∨ x = v) (fun x => ReachAvoiding g (Vis used) v x) es
      (hg v es hes) (fun e he x hr => ra_head hnv ((edge_of_get? hes).2 he)
        (ra_mono (fun a ha => Or.inl ha) hr))
      (used.set v true) order [] inv0 (fun x hx => by cases hx) (by omega)
    rw [List.append_nil] at e1
    have hvacc : v ∉ acc1 := fun h => inv1.fresh v h (Or.inr rfl)
    refine ⟨cur1, acc1 ++ [v], ?_, inv1.len, fun x => ?_, ?_, ?_, ?_, ?_, ?_, ?_, by omega⟩
    · rw [dfs]
      simp only [if_pos hvu, hes, e1, List.append_assoc]
    · rw [inv1.vis, List.mem_append, List.mem_singleton]
      tauto
    · exact List.nodup_append.2 ⟨inv1.nodup, List.nodup_singleton v,
        fun x hxa hxv => hvacc (List.mem_singleton.1 hxv ▸ hxa)⟩
    · intro x hx
      rcases List.mem_append.1 hx with h | h
      · exact fun hu => inv1.fresh x h (Or.inl hu)
      · rw [List.mem_singleton.1 h]; exact hnv
    · exact List.mem_append_right _ (List.mem_singleton_self v)
    · intro x hx
      rcases List.mem_append.1 hx with h | h
      · exact q1 x h
      · rw [List.mem_singleton.1 h]; exact ra_refl hnv
    · intro x hx y hxy
      rcases List.mem_append.1 hx with h | h
      · rcases inv1.closed x h y hxy with (hu | hyv) | hm
        · exact Or.inl hu
        · exact Or.inr (List.mem_append_right _ (List.mem_singleton.2 hyv))
        · exact Or.inr (List.mem_append_left _ hm)
      · rw [List.mem_singleton.1 h] at hxy
        rcases (inv1.vis y).1 (v1 y ((edge_of_get? hes).1 hxy)) with (hu | hyv) | hm
        · exact Or.inl hu
        · exact Or.inr (List.mem_append_right _ (List.mem_singleton.2 hyv))
        · exact Or.inr (List.mem_append_left _ hm)
    · exact backLinked_snoc hnv hvacc q1 inv1.back

/-- The first pass is defined; it finishes every vertex exactly once, in a
back-linked order. -/
theorem firstPass_spec (g : List (List Nat)) (hg : InRange g) :
    ∃ used order, firstPass g = some (used, order) ∧ order.Nodup ∧
      (∀ x, x ∈ order ↔ x < g.length) ∧
      BackLinked (ReachAvoiding g (fun _ => False)) order := by
  have inv0 : LoopInv g (fun _ => False) (List.replicate g.length false) [] :=
    ⟨List.length_replicate _ _, (fun x => by
        unfold Vis
        simp only [List.get?_eq_getElem?, List.getElem?_replicate, List.not_mem_nil, or_self,
          iff_false]
        split_ifs <;> simp),
      List.nodup_nil, (fun x hx => by cases hx), (fun x hx => by cases hx),
      (fun x hx => by cases hx)⟩
  obtain ⟨cur1, acc1, e1, inv1, _, _, v1, _⟩ := visit_loop g g.length (dfs_spec g hg g.length)
    (fun _ => False) (fun _ => True) (List.range g.length)
    (fun e he => List.mem_range.1 he) (fun _ _ _ _ => trivial)
    (List.replicate g.length false) [] [] inv0 (fun x hx => by cases hx)
    (le_trans (List.count_le_length _ _) (le_of_eq (List.length_replicate _ _)))
  refine ⟨cur1, acc1, ?_, inv1.nodup, fun x => ⟨fun hx => ?_, fun hx => ?_⟩, inv1.back⟩
  · simpa [firstPass] using e1
  · have := vis_lt ((inv1.vis x).2 (Or.inr hx))
    rw [inv1.len] at this
    exact this
  · exact ((inv1.vis x).1 (v1 x (List.mem_range.2 hx))).resolve_left (fun h => h)

end StronglyConnectedComponents

namespace StronglyConnectedComponents

/-! ### The reversed graph -/

theorem edge_lt {g : List (List Nat)} {u v : Nat} (h : Edge g u v) : u < g.length := by
  obtain ⟨es, h1, _⟩ := h
  by_contra hn
  rw [List.get?_eq_none.2 (by omega)] at h1
  cases h1

theorem pushAt_spec {α : Type} (g : List (List α)) (i : Nat) (x : α) (hi : i < g.length) :
    ∃ g1, pushAt g i x = some g1 ∧ g1.length = g.length ∧
      ∀ a b, (∃ row, g1.get? a = some row ∧ b ∈ row) ↔
        (∃ row, g.get? a = some row ∧ b ∈ row) ∨ (a = i ∧ b = x) := by
  refine ⟨g.set i (g.get ⟨i, hi⟩ ++ [x]), ?_, List.length_set _ _ _, fun a b => ?_⟩
  · unfold pushAt
    rw [List.get?_eq_get hi]
  · simp only [List.get?_eq_getElem?]
    rw [List.getElem?_set]
    by_cases hia : i = a
    · subst hia
      simp only [if_true, hi, List.getElem?_eq_getElem, Option.some.injEq, exists_eq_left',
        List.mem_append, List.mem_singleton, List.get_eq_getElem, true_and]
    · simp only [hia, if_false, Ne.symm hia, false_and, or_false]

theorem reverse_inner (n v : Nat) : ∀ (es : List Nat), (∀ e ∈ es, e < n) →
    ∀ rg : List (List Nat), rg.length = n →
    ∃ rg1, es.foldlM (fun rg1 e => pushAt rg1 e v) rg = some rg1 ∧ rg1.length = n ∧
      ∀ a b, Edge rg1 a b ↔ Edge rg a b ∨ (b = v ∧ a ∈ es) := by
  intro es
  induction es with
  | nil =>
    intro _ rg hl
    exact ⟨rg, rfl, hl, fun a b => by simp⟩
  | cons e es ih =>
    intro hes rg hl
    obtain ⟨g1, e1, l1, p1⟩ := pushAt_spec rg e v (by rw [hl]; exact hes e (List.mem_cons_self _ _))
    obtain ⟨g2, e2, l2, p2⟩ := ih (fun a ha => hes a (List.mem_cons_of_mem _ ha)) g1 (by omega)
    refine ⟨g2, ?_, l2, fun a b => ?_⟩
    · rw [List.foldlM_cons, e1]; exact e2
    · have q : Edge g1 a b ↔ Edge rg a b ∨ (a = e ∧ b = v) := p1 a b
      rw [p2, q, List.mem_cons]
      constructor
      · rintro ((h | ⟨h1, h2⟩) | ⟨h1, h2⟩)
        · exact Or.inl h
        · exact Or.inr ⟨h2, Or.inl h1⟩
        · exact Or.inr ⟨h1, Or.inr h2⟩
      · rintro (h | ⟨h1, h2 | h2⟩)
        · exact Or.inl (Or.inl h)
        · exact Or.inl (Or.inr ⟨h2, h1⟩)
        · exact Or.inr ⟨h1, h2⟩

theorem reverse_outer (g : List (List Nat)) (hg : InRange g) : ∀ (vs : List Nat),
    (∀ v ∈ vs, v < g.length) → ∀ rg : List (List Nat), rg.length = g.length →
    ∃ rg1, vs.foldlM (fun rg v =>
        match g.get? v with
        | none => none
        | some es => es.foldlM (fun rg1 e => pushAt rg1 e v) rg) rg = some rg1 ∧
      rg1.length = g.length ∧
      ∀ a b, Edge rg1 a b ↔ Edge rg a b ∨ (b ∈ vs ∧ Edge g b a) := by
  intro vs
  induction vs with
  | nil =>
    intro _ rg hl
    exact ⟨rg, rfl, hl, fun a b => by simp⟩
  | cons v vs ih =>
    intro hvs rg hl
    have hv := hvs v (List.mem_cons_self _ _)
    have hes : g.get? v = some (g.get ⟨v, hv⟩) := List.get?_eq_get hv
    obtain ⟨g1, e1, l1, p1⟩ := reverse_inner g.length v _ (hg v _ hes) rg hl
    obtain ⟨g2, e2, l2, p2⟩ := ih (fun a ha => hvs a (List.mem_cons_of_mem _ ha)) g1 l1
    refine ⟨g2, ?_, l2, fun a b => ?_⟩
    · rw [List.foldlM_cons]
      simp only [hes]
      rw [e1]
      exact e2
    · rw [p2, p1, List.mem_cons]
      constructor
      · rintro ((h | ⟨rfl, h⟩) | ⟨h1, h2⟩)
        · exact Or.inl h
        · exact Or.inr ⟨Or.inl rfl, (edge_of_get? hes).2 h⟩
        · exact Or.inr ⟨Or.inr h1, h2⟩
      · rintro (h | ⟨rfl | h1, h2⟩)
        · exact Or.inl (Or.inl h)
        · exact Or.inl (Or.inr ⟨rfl, (edge_of_get? hes).1 h2⟩)
        · exact Or.inr ⟨h1, h2⟩

/-- The reversed graph is defined, has the vertices of the graph, and has the
edge `a → b` exactly when the graph has `b → a`. -/
theorem reverseGraph_spec (g : List (List Nat)) (hg : InRange g) :
    ∃ rg, reverseGraph g = some rg ∧ rg.length = g.length ∧
      ∀ a b, Edge rg a b ↔ Edge g b a := by
  obtain ⟨rg, e1, l1, p1⟩ := reverse_outer g hg (List.range g.length)
    (fun v hv => List.mem_range.1 hv) (List.replicate g.length []) (List.length_replicate _ _)
  refine ⟨rg, e1, l1, fun a b => ?_⟩
  rw [p1]
  constructor
  · rintro (⟨es, h1, h2⟩ | ⟨_, h⟩)
    · rw [List.get?_eq_getElem?, List.getElem?_replicate] at h1
      split_ifs at h1
      · obtain rfl := Option.some.inj h1
        cases h2
    · exact h
  · exact fun h => Or.inr ⟨List.mem_range.2 (edge_lt h), h⟩

theorem reach_reverse {g rg : List (List Nat)} (h : ∀ a b, Edge rg a b ↔ Edge g b a)
    {x y : Nat} (hr : Reach rg x y) : Reach g y x := by
  induction hr with
  | refl => exact Relation.ReflTransGen.refl
  | tail _ hbc ih => exact Relation.ReflTransGen.head ((h _ _).1 hbc) ih

end StronglyConnectedComponents

namespace StronglyConnectedComponents

/-! ### The second pass: `dfs2` -/

theorem assigned_lt {comp : List Int} {x : Nat} (h : Assigned comp x) : x < comp.length := by
  obtain ⟨c, h1, _⟩ := h
  by_contra hn
  rw [List.get?_eq_none.2 (by omega)] at h1
  cases h1

theorem assigned_of_get? {comp : List Int} {x : Nat} {c : Int} (h : comp.get? x = some c)
    (hc : c ≠ -1) : Assigned comp x := ⟨c, h, hc⟩

theorem not_assigned_of_get? {comp : List Int} {x : Nat} (h : comp.get? x = some (-1)) :
    ¬ Assigned comp x := by
  rintro ⟨c, h1, h2⟩
  rw [h] at h1
  exact h2 (Option.some.inj h1).symm

theorem get?_of_not_assigned {comp : List Int} {x : Nat} (hx : x < comp.length)
    (h : ¬ Assigned comp x) : comp.get? x = some (-1) := by
  rw [List.get?_eq_get hx]
  by_contra hn
  exact h ⟨_, List.get?_eq_get hx, fun hc => hn (by rw [hc])⟩

theorem assigned_congr {comp comp1 : List Int} {x : Nat} (h : comp1.get? x = comp.get? x) :
    Assigned comp1 x ↔ Assigned comp x := by
  unfold Assigned
  rw [h]

theorem count_set_assign (comp : List Int) (v : Nat) (k : Int) (hk : k ≠ -1)
    (h : comp.get? v = some (-1)) :
    (comp.set v k).count (-1) + 1 = comp.count (-1) := by
  have hv : v < comp.length := by
    by_contra hn
    rw [List.get?_eq_none.2 (by omega)] at h
    cases h
  rw [List.count_set k (-1) comp v hv]
  rw [List.get?_eq_getElem?, List.getElem?_eq_getElem hv] at h
  have h1 : comp[v] = -1 := Option.some.inj h
  have hpos : 0 < comp.count (-1) := by
    rw [List.count_pos_iff]
    exact h1 ▸ List.getElem_mem hv
  simp [h1, hk]
  omega

/-- The loop of `dfs2` over the edges of `v` keeps the loop invariant and
leaves every end of an edge numbered, provided each call does what `Dfs2Post`
says. -/
theorem assign_loop (rg : List (List Nat)) (hrg : InRange rg) (fuel : Nat) (k : Int)
    (hk : k ≠ -1)
    (ih : ∀ (v : Nat) (comp : List Int), comp.length = rg.length → v < rg.length →
      comp.get? v = some (-1) → comp.count (-1) ≤ fuel →
      ∃ comp1, dfs2 rg fuel v k comp = some comp1 ∧ Dfs2Post rg comp v k comp1)
    (comp : List Int) (v : Nat) (hv : ¬ Assigned comp v) (hlen : comp.length = rg.length) :
    ∀ es : List Nat, (∀ e ∈ es, Edge rg v e) → ∀ cur : List Int, Loop2Inv rg comp v k cur →
      cur.count (-1) ≤ fuel →
      ∃ cur1, es.foldlM (assignIfUnset (fun e c => dfs2 rg fuel e k c)) cur = some cur1 ∧
        Loop2Inv rg comp v k cur1 ∧ cur1.count (-1) ≤ cur.count (-1) ∧
        (∀ e ∈ es, Assigned cur1 e) ∧ (∀ x, Assigned cur x → Assigned cur1 x) := by
  intro es
  induction es with
  | nil =>
    intro _ cur hinv _
    exact ⟨cur, rfl, hinv, le_refl _, (fun e he => by cases he), fun _ h => h⟩
  | cons e es ihes =>
    intro hes cur hinv hcnt
    have hev : Edge rg v e := hes e (List.mem_cons_self _ _)
    have hel : e < rg.length := by
      obtain ⟨row, h1, h2⟩ := hev
      exact hrg v row h1 e h2
    have hcl : cur.length = rg.length := hinv.len.trans hlen
    have hec : e < cur.length := by omega
    have hes1 : ∀ a ∈ es, Edge rg v a := fun a ha => hes a (List.mem_cons_of_mem _ ha)
    have hup : ∀ x, Assigned comp x → Assigned cur x :=
      fun x h => (assigned_congr (hinv.keep x h)).2 h
    rw [List.foldlM_cons]
    have hget : cur.get? e = some (cur.get ⟨e, hec⟩) := List.get?_eq_get hec
    by_cases hx : cur.get ⟨e, hec⟩ = -1
    · rw [hx] at hget
      obtain ⟨c1, e1, post⟩ := ih e cur hcl hel hget hcnt
      have hne : ¬ Assigned cur e := not_assigned_of_get? hget
      have hup1 : ∀ x, Assigned cur x → Assigned c1 x :=
        fun x h => (assigned_congr (post.keep x h)).2 h
      have hstep : assignIfUnset (fun e c => dfs2 rg fuel e k c) cur e = some c1 := by
        simp only [assignIfUnset, hget, if_true]
        exact e1
      have hinv1 : Loop2Inv rg comp v k c1 := by
        refine ⟨post.len.trans hinv.len, ?_, ?_, ?_, ?_, ?_⟩
        · intro x h
          rw [post.keep x (hup x h)]
          exact hinv.keep x h
        · rw [post.keep v (assigned_of_get? hinv.rootk hk)]
          exact hinv.rootk
        · intro x hc h1
          by_cases hcx : Assigned cur x
          · rw [post.keep x hcx]
            exact hinv.newk x hc hcx
          · exact post.newk x hcx h1
        · intro x hc h1
          by_cases hcx : Assigned cur x
          · exact hinv.reach x hc hcx
          · exact ra_head hv hev (ra_mono hup (post.reach x hcx h1))
        · intro x hc hxv h1 y hxy
          by_cases hcx : Assigned cur x
          · exact hup1 y (hinv.closed x hc hxv hcx y hxy)
          · exact post.closed x hcx h1 y hxy
      obtain ⟨c2, e2, inv2, cnt2, all2, up2⟩ := ihes hes1 c1 hinv1 (le_trans (le_of_lt post.count) hcnt)
      refine ⟨c2, ?_, inv2, le_trans cnt2 (le_of_lt post.count), ?_, fun x h => up2 x (hup1 x h)⟩
      · rw [hstep]; exact e2
      · intro a ha
        rcases List.mem_cons.1 ha with rfl | ha
        · exact up2 _ post.root
        · exact all2 a ha
    · have hstep : assignIfUnset (fun e c => dfs2 rg fuel e k c) cur e = some cur := by
        simp only [assignIfUnset, hget, hx, if_false]
      obtain ⟨c2, e2, inv2, cnt2, all2, up2⟩ := ihes hes1 cur hinv hcnt
      refine ⟨c2, ?_, inv2, cnt2, ?_, up2⟩
      · rw [hstep]; exact e2
      · intro a ha
        rcases List.mem_cons.1 ha with rfl | ha
        · exact up2 _ (assigned_of_get? hget hx)
        · exact all2 a ha

end StronglyConnectedComponents

namespace StronglyConnectedComponents

theorem get?_set_self {α : Type} (l : List α) (v : Nat) (a : α) (h : v < l.length) :
    (l.set v a).get? v = some a := by
  simp [List.getElem?_set, h]

theorem get?_set_other {α : Type} (l : List α) (v x : Nat) (a : α) (h : v ≠ x) :
    (l.set v a).get? x = l.get? x := by
  simp [List.getElem?_set, h]

/-- With fuel for every unnumbered vertex, `dfs2(v, k)` on an unnumbered `v`
is defined and does what `Dfs2Post` says. -/
theorem dfs2_spec (rg : List (List Nat)) (hrg : InRange rg) (k : Int) (hk : k ≠ -1) :
    ∀ (fuel v : Nat) (comp : List Int), comp.length = rg.length → v < rg.length →
      comp.get? v = some (-1) → comp.count (-1) ≤ fuel →
      ∃ comp1, dfs2 rg fuel v k comp = some comp1 ∧ Dfs2Post rg comp v k comp1 := by
  intro fuel
  induction fuel with
  | zero =>
    intro v comp _ _ hg hc
    have := count_set_assign comp v k hk hg
    omega
  | succ fuel ih =>
    intro v comp hl hv hg hc
    have hes : rg.get? v = some (rg.get ⟨v, hv⟩) := List.get?_eq_get hv
    have hna : ¬ Assigned comp v := not_assigned_of_get? hg
    have hvc : v < comp.length := by omega
    have hold : ∀ x, v ≠ x → (Assigned (comp.set v k) x ↔ Assigned comp x) :=
      fun x hx => assigned_congr (get?_set_other comp v x k hx)
    have inv0 : Loop2Inv rg comp v k (comp.set v k) := by
      refine ⟨List.length_set _ _ _, ?_, get?_set_self comp v k hvc, ?_, ?_, ?_⟩
      · intro x hx
        exact get?_set_other comp v x k (fun h => hna (h ▸ hx))
      · intro x hc hx
        by_cases hxv : v = x
        · subst hxv
          exact get?_set_self comp v k hvc
        · exact absurd ((hold x hxv).1 hx) hc
      · intro x hc hx
        by_cases hxv : v = x
        · subst hxv
          exact ra_refl hna
        · exact absurd ((hold x hxv).1 hx) hc
      · intro x hc hxv hx
        exact absurd ((hold x (Ne.symm hxv)).1 hx) hc
    have hcnt := count_set_assign comp v k hk hg
    obtain ⟨c1, e1, inv1, cnt1, all1, up1⟩ := assign_loop rg hrg fuel k hk ih comp v hna hl
      (rg.get ⟨v, hv⟩) (fun e he => (edge_of_get? hes).2 he) (comp.set v k) inv0 (by omega)
    refine ⟨c1, ?_, ?_⟩
    · rw [dfs2]
      simp only [hvc, if_true, hes]
      exact e1
    · have hroot : Assigned c1 v := assigned_of_get? inv1.rootk hk
      refine ⟨inv1.len, inv1.keep, inv1.newk, hroot, inv1.reach, ?_, by omega⟩
      intro x hc hx y hxy
      by_cases hxv : x = v
      · subst hxv
        exact all1 y ((edge_of_get? hes).1 hxy)
      · exact inv1.closed x hc hxv hx y hxy

/-- Every vertex that `dfs2(v, k)` could reach along unnumbered vertices has a
number afterwards. -/
theorem dfs2_covers {rg : List (List Nat)} {comp comp1 : List Int} {v : Nat} {k : Int}
    (post : Dfs2Post rg comp v k comp1) {x : Nat}
    (h : ReachAvoiding rg (Assigned comp) v x) : Assigned comp1 x := by
  obtain ⟨hv, hp⟩ := h
  induction hp with
  | refl => exact post.root
  | @tail b c hvb hbc ih =>
    exact post.closed b (ra_target ⟨hv, hvb⟩) ih c hbc.1

end StronglyConnectedComponents

namespace StronglyConnectedComponents

/-! ### The second pass: the loop over the reversed order -/

theorem mutReach_refl (g : List (List Nat)) (x : Nat) : MutReach g x x :=
  ⟨Relation.ReflTransGen.refl, Relation.ReflTransGen.refl⟩

theorem mutReach_symm {g : List (List Nat)} {x y : Nat} (h : MutReach g x y) :
    MutReach g y x := ⟨h.2, h.1⟩

theorem mutReach_trans {g : List (List Nat)} {x y z : Nat} (h1 : MutReach g x y)
    (h2 : MutReach g y z) : MutReach g x z := ⟨h1.1.trans h2.1, h2.2.trans h1.2⟩

/-- Among the vertices of a list that satisfy `Q`, one comes last. -/
theorem exists_last_index (Q : Nat → Prop) : ∀ P : List Nat, (∃ z ∈ P, Q z) →
    ∃ y ∈ P, Q y ∧ ∀ z ∈ P, Q z → P.indexOf z ≤ P.indexOf y := by
  intro P
  induction P generalizing Q with
  | nil =>
    rintro ⟨z, hz, _⟩
    cases hz
  | cons a P ih =>
    intro hex
    by_cases h : ∃ z ∈ P, Q z ∧ z ≠ a
    · obtain ⟨y, hy, ⟨hqy, hya⟩, hmax⟩ := ih (fun z => Q z ∧ z ≠ a) h
      refine ⟨y, List.mem_cons_of_mem _ hy, hqy, fun z hz hqz => ?_⟩
      by_cases hza : z = a
      · subst hza
        rw [List.indexOf_cons_self]
        exact Nat.zero_le _
      · have hzP : z ∈ P := (List.mem_cons.1 hz).resolve_left hza
        rw [List.indexOf_cons_ne _ (Ne.symm hza), List.indexOf_cons_ne _ (Ne.symm hya)]
        exact Nat.succ_le_succ (hmax z hzP ⟨hqz, hza⟩)
    · have hall : ∀ z ∈ a :: P, Q z → z = a := by
        intro z hz hqz
        by_contra hza
        exact h ⟨z, (List.mem_cons.1 hz).resolve_left hza, hqz, hza⟩
      obtain ⟨z, hz, hqz⟩ := hex
      have hza := hall z hz hqz
      subst hza
      refine ⟨z, hz, hqz, fun w hw hqw => ?_⟩
      rw [hall w hw hqw]

/-- Inside the class of `r`, the reversed graph has a path from `r` to every
vertex that avoids all vertices outside. -/
theorem scc_path {g rg : List (List Nat)} (hrev : ∀ a b, Edge rg a b ↔ Edge g b a)
    {U : Nat → Prop} {r : Nat} (hU : ∀ w, MutReach g r w → ¬ U w) :
    ∀ {u : Nat}, Reach g u r → Reach g r u → ReachAvoiding rg U r u := by
  intro u h
  induction h using Relation.ReflTransGen.head_induction_on with
  | refl =>
    intro _
    exact ra_refl (hU r (mutReach_refl g r))
  | head hab hbc ih =>
    intro hru
    have h1 := ih (hru.tail hab)
    exact ⟨h1.1, h1.2.tail ⟨(hrev _ _).2 hab, hU _ ⟨hru, Relation.ReflTransGen.head hab hbc⟩⟩⟩

/-- When the loop arrives at the vertex `r` of the reversed order, every
vertex without a number that reaches `r` is reached from `r`. -/
theorem last_reaches {g : List (List Nat)} {P todo done : List Nat} {r : Nat}
    {A : Nat → Prop} (hP : P.Nodup)
    (hback : BackLinked (ReachAvoiding g (fun _ => False)) P)
    (hsplit : P = todo.reverse ++ r :: done.reverse)
    (hdone : ∀ x ∈ done, A x) (hsat : ∀ x y, A x → MutReach g x y → A y)
    {u : Nat} (huP : u ∈ P) (hur : Reach g u r) (hnu : ¬ A u) : Reach g r u := by
  have hrP : r ∈ P := by
    rw [hsplit]
    exact List.mem_append_right _ (List.mem_cons_self _ _)
  obtain ⟨y, hyP, hqy, hmax⟩ := exists_last_index (fun z => ReachAvoiding g (fun _ => False) u z)
    P ⟨r, hrP, reach_ra hur⟩
  have hyu : Reach g y u := ra_reach (hback u huP y ⟨hqy, hyP, hmax⟩)
  have hny : y ∉ done := fun hy => hnu (hsat y u (hdone y hy) ⟨hyu, ra_reach hqy⟩)
  have hidx := hmax r hrP (reach_ra hur)
  have hrt : r ∉ todo.reverse := by
    rw [hsplit] at hP
    exact fun hm => (List.nodup_append.1 hP).2.2 hm (List.mem_cons_self _ _)
  have hir : P.indexOf r = todo.reverse.length := by
    rw [hsplit, List.indexOf_append_of_not_mem hrt, List.indexOf_cons_self]
    rfl
  have hy3 : y ∈ todo.reverse ∨ y = r ∨ y ∈ done.reverse := by
    rw [hsplit] at hyP
    rcases List.mem_append.1 hyP with h | h
    · exact Or.inl h
    · exact Or.inr (List.mem_cons.1 h)
  rcases hy3 with h | h | h
  · have hiy : P.indexOf y < todo.reverse.length := by
      rw [hsplit, List.indexOf_append_of_mem h]
      exact List.indexOf_lt_length.2 h
    omega
  · rw [← h]
    exact hyu
  · exact absurd (List.mem_reverse.1 h) hny

end StronglyConnectedComponents

namespace StronglyConnectedComponents

/-- One round `dfs2(r, k), k++` of the last loop keeps the invariant of the
loop. -/
theorem pass_step {g rg : List (List Nat)} (hrev : ∀ a b, Edge rg a b ↔ Edge g b a)
    {done : List Nat} {comp comp1 : List Int} {k : Int} {r : Nat}
    (inv : PassInv g done comp k) (hr : comp.get? r = some (-1))
    (hlast : ∀ u, u < g.length → Reach g u r → ¬ Assigned comp u → Reach g r u)
    (post : Dfs2Post rg comp r k comp1) : PassInv g (done ++ [r]) comp1 (k + 1) := by
  have hup : ∀ x, Assigned comp x → Assigned comp1 x :=
    fun x h => (assigned_congr (post.keep x h)).2 h
  have hnr : ¬ Assigned comp r := not_assigned_of_get? hr
  have hU : ∀ w, MutReach g r w → ¬ Assigned comp w :=
    fun w hw ha => hnr (inv.sat w r ha (mutReach_symm hw))
  have hnew : ∀ u, ¬ Assigned comp u → (Assigned comp1 u ↔ MutReach g r u) := by
    intro u hu
    constructor
    · intro h1
      have hur : Reach g u r := reach_reverse hrev (ra_reach (post.reach u hu h1))
      have hul : u < g.length := by
        have := assigned_lt h1
        rw [post.len, inv.len] at this
        exact this
      exact ⟨hlast u hul hur hu, hur⟩
    · intro hm
      exact dfs2_covers post (scc_path hrev hU hm.2 hm.1)
  have hkp := inv.kpos
  refine ⟨post.len.trans inv.len, by omega, ?_, ?_, ?_, ?_, ?_, ?_, ?_⟩
  · have h1 := post.count
    have h2 := inv.kcount
    omega
  · intro x hx
    rcases List.mem_append.1 hx with h | h
    · exact hup x (inv.done x h)
    · rw [List.mem_singleton.1 h]
      exact post.root
  · intro x c hx hc
    by_cases ha : Assigned comp x
    · rw [post.keep x ha] at hx
      have := inv.range x c hx hc
      omega
    · have h1 := post.newk x ha ⟨c, hx, hc⟩
      rw [hx] at h1
      have h2 : c = k := Option.some.inj h1
      omega
  · intro x y hx hy
    by_cases hax : Assigned comp x
    · by_cases hay : Assigned comp y
      · rw [post.keep x hax, post.keep y hay]
        exact inv.same x y hax hay
      · constructor
        · intro heq
          rw [post.keep x hax, post.newk y hay hy] at heq
          obtain ⟨c, h1, h2⟩ := hax
          have := inv.range x c h1 h2
          rw [h1] at heq
          have h3 : c = k := Option.some.inj heq
          omega
        · intro hm
          exact absurd (inv.sat x y hax hm) hay
    · by_cases hay : Assigned comp y
      · constructor
        · intro heq
          rw [post.keep y hay, post.newk x hax hx] at heq
          obtain ⟨c, h1, h2⟩ := hay
          have := inv.range y c h1 h2
          rw [h1] at heq
          have h3 : k = c := Option.some.inj heq
          omega
        · intro hm
          exact absurd (inv.sat y x hay (mutReach_symm hm)) hax
      · constructor
        · intro _
          exact mutReach_trans (mutReach_symm ((hnew x hax).1 hx)) ((hnew y hay).1 hy)
        · intro _
          rw [post.newk x hax hx, post.newk y hay hy]
  · intro x y hx hm
    by_cases hax : Assigned comp x
    · exact hup y (inv.sat x y hax hm)
    · by_cases hay : Assigned comp y
      · exact hup y hay
      · exact (hnew y hay).2 (mutReach_trans ((hnew x hax).1 hx) hm)
  · intro u v he hv
    by_cases hav : Assigned comp v
    · exact hup u (inv.pred u v he hav)
    · exact post.closed v hav hv u ((hrev v u).2 he)
  · intro u v cu cv he hv hu hcv
    by_cases hav : Assigned comp v
    · have hau := inv.pred u v he hav
      rw [post.keep u hau] at hu
      rw [post.keep v hav] at hcv
      exact inv.le u v cu cv he hav hu hcv
    · have h1 := post.newk v hav hv
      rw [hcv] at h1
      have h2 : cv = k := Option.some.inj h1
      have hu1 : Assigned comp1 u := post.closed v hav hv u ((hrev v u).2 he)
      by_cases hau : Assigned comp u
      · rw [post.keep u hau] at hu
        obtain ⟨c, h3, h4⟩ := hau
        have := inv.range u c h3 h4
        rw [h3] at hu
        have h5 : c = cu := Option.some.inj hu
        omega
      · have h3 := post.newk u hau hu1
        rw [hu] at h3
        have h5 : cu = k := Option.some.inj h3
        omega

/-- The last loop of the constructor is defined and keeps its invariant. -/
theorem pass_loop (g rg : List (List Nat)) (hrg : InRange rg) (hlen : rg.length = g.length)
    (hrev : ∀ a b, Edge rg a b ↔ Edge g b a) (P : List Nat) (hP : P.Nodup)
    (hmem : ∀ x, x ∈ P ↔ x < g.length)
    (hback : BackLinked (ReachAvoiding g (fun _ => False)) P) :
    ∀ (todo done : List Nat), P.reverse = done ++ todo → ∀ (comp : List Int) (k : Int),
      PassInv g done comp k →
      ∃ comp1 k1, todo.foldlM (fun ck e =>
          match ck.1.get? e with
          | none => none
          | some x =>
            if x = -1 then
              match dfs2 rg g.length e ck.2 ck.1 with
              | none => none
              | some c => some (c, ck.2 + 1)
            else some ck) (comp, k) = some (comp1, k1) ∧
        PassInv g (done ++ todo) comp1 k1 := by
  intro todo
  induction todo with
  | nil =>
    intro done _ comp k inv
    exact ⟨comp, k, rfl, by rw [List.append_nil]; exact inv⟩
  | cons r todo ih =>
    intro done hsplit comp k inv
    have hsplit1 : P = todo.reverse ++ r :: done.reverse := by
      have := congrArg List.reverse hsplit
      rw [List.reverse_reverse] at this
      rw [this]
      simp
    have hrP : r ∈ P := by
      rw [hsplit1]
      exact List.mem_append_right _ (List.mem_cons_self _ _)
    have hrl : r < g.length := (hmem r).1 hrP
    have hrc : r < comp.length := by rw [inv.len]; exact hrl
    have hnext : P.reverse = (done ++ [r]) ++ todo := by
      rw [hsplit]
      simp
    have hget : comp.get? r = some (comp.get ⟨r, hrc⟩) := List.get?_eq_get hrc
    rw [List.foldlM_cons]
    by_cases hx : comp.get ⟨r, hrc⟩ = -1
    · rw [hx] at hget
      have hk1 : k ≠ -1 := by
        have := inv.kpos
        omega
      have hcnt : comp.count (-1) ≤ g.length := by
        rw [← inv.len]
        exact List.count_le_length _ _
      obtain ⟨c1, e1, post⟩ := dfs2_spec rg hrg k hk1 g.length r comp (inv.len.trans hlen.symm)
        (by rw [hlen]; exact hrl) hget hcnt
      have inv1 : PassInv g (done ++ [r]) c1 (k + 1) :=
        pass_step hrev inv hget
          (fun u hu hur hnu => last_reaches hP hback hsplit1 inv.done inv.sat ((hmem u).2 hu)
            hur hnu) post
      obtain ⟨c2, k2, e2, inv2⟩ := ih (done ++ [r]) hnext c1 (k + 1) inv1
      refine ⟨c2, k2, ?_, ?_⟩
      · simp only [hget, if_true, e1]
        exact e2
      · rw [List.append_assoc] at inv2
        exact inv2
    · have inv1 : PassInv g (done ++ [r]) comp k := by
        refine ⟨inv.len, inv.kpos, inv.kcount, ?_, inv.range, inv.same, inv.sat, inv.pred,
          inv.le⟩
        intro x hx1
        rcases List.mem_append.1 hx1 with h | h
        · exact inv.done x h
        · rw [List.mem_singleton.1 h]
          exact assigned_of_get? hget hx
      obtain ⟨c2, k2, e2, inv2⟩ := ih (done ++ [r]) hnext comp k inv1
      refine ⟨c2, k2, ?_, ?_⟩
      · simp only [hget, hx, if_false]
        exact e2
      · rw [List.append_assoc] at inv2
        exact inv2

theorem not_assigned_replicate (n x : Nat) : ¬ Assigned (List.replicate n (-1)) x := by
  rintro ⟨c, h1, h2⟩
  rw [List.get?_eq_getElem?, List.getElem?_replicate] at h1
  split_ifs at h1
  exact h2 (Option.some.inj h1).symm

/-- The constructor is defined on every adjacency list over `0..n-1`, and the
numbering it computes numbers the classes of mutually reachable vertices in an
order that no edge goes against. -/
theorem new_spec (g : List (List Nat)) (hg : InRange g) :
    ∃ s, new g = some s ∧ s.n = g.length ∧ s.graph = g ∧ SccNumbering g s.component := by
  obtain ⟨rg, erg, hlen, hrev⟩ := reverseGraph_spec g hg
  obtain ⟨used, order, efp, hnd, hmem, hback⟩ := firstPass_spec g hg
  have hrg : InRange rg := by
    intro u es h v hv
    rw [hlen]
    exact edge_lt ((hrev u v).1 ⟨es, h, hv⟩)
  have inv0 : PassInv g [] (List.replicate g.length (-1)) 0 := by
    refine ⟨List.length_replicate _ _, le_refl _, ?_, (fun x hx => by cases hx), ?_, ?_, ?_,
      ?_, ?_⟩
    · rw [List.count_replicate_self]
      omega
    · intro x c hx hc
      exact absurd (assigned_of_get? hx hc) (not_assigned_replicate _ _)
    · intro x y hx
      exact absurd hx (not_assigned_replicate _ _)
    · intro x y hx
      exact absurd hx (not_assigned_replicate _ _)
    · intro u v _ hv
      exact absurd hv (not_assigned_replicate _ _)
    · intro u v cu cv _ hv
      exact absurd hv (not_assigned_replicate _ _)
  obtain ⟨comp, k, esp, inv⟩ := pass_loop g rg hrg hlen hrev order hnd hmem hback
    order.reverse [] (by simp) (List.replicate g.length (-1)) 0 inv0
  rw [List.nil_append] at inv
  have hall : ∀ x, x < g.length → Assigned comp x :=
    fun x hx => inv.done x (List.mem_reverse.2 ((hmem x).2 hx))
  have hlt : ∀ x c, comp.get? x = some c → x < g.length := by
    intro x c hx
    by_contra hn
    rw [List.get?_eq_none.2 (by rw [inv.len]; omega)] at hx
    cases hx
  have hne : ∀ x c, comp.get? x = some c → c ≠ -1 := by
    intro x c hx
    obtain ⟨c1, h1, h2⟩ := hall x (hlt x c hx)
    rw [hx] at h1
    rw [Option.some.inj h1]
    exact h2
  refine ⟨SCC.mk g.length g rg order.reverse comp used, ?_, rfl, rfl, ?_⟩
  · have esp1 : secondPass rg g.length order.reverse = some (comp, k) := esp
    simp only [new, erg, efp, esp1]
  · refine ⟨inv.len, ?_, ?_, ?_⟩
    · intro x c hx
      have h1 := inv.range x c hx (hne x c hx)
      have h2 := inv.kcount
      omega
    · intro x y cx cy hx hy
      have h1 := inv.same x y (hall x (hlt x cx hx)) (hall y (hlt y cy hy))
      rw [hx, hy] at h1
      rw [← h1]
      exact ⟨fun h => by rw [h], fun h => Option.some.inj h⟩
    · intro u v cu cv he hu hv
      exact inv.le u v cu cv he (hall v (hlt v cv hv)) hu hv

end StronglyConnectedComponents

namespace StronglyConnectedComponents

/-! ### The members `pull_groups` and `rebuild` -/

theorem le_of_max? (l : List Int) (m : Int) (h : l.max? = some m) (x : Int) (hx : x ∈ l) :
    x ≤ m :=
  (List.max?_le_iff (fun _ _ _ => max_le_iff) h).1 (le_refl m) x hx

theorem mem_of_max? (l : List Int) (m : Int) (h : l.max? = some m) : m ∈ l :=
  List.max?_mem (fun a b => by
    rcases le_total a b with h | h
    · exact Or.inr (max_eq_right h)
    · exact Or.inl (max_eq_left h)) h

theorem max?_of_ne_nil (l : List Int) (h : l ≠ []) : ∃ m, l.max? = some m := by
  cases hm : l.max? with
  | none => exact absurd (List.max?_eq_none_iff.1 hm) h
  | some m => exact ⟨m, rfl⟩

theorem adj_replicate_nil {α : Type} (n a : Nat) (b : α) :
    ¬ Adj (List.replicate n ([] : List α)) a b := by
  rintro ⟨row, h1, h2⟩
  rw [List.get?_eq_getElem?, List.getElem?_replicate] at h1
  split_ifs at h1
  obtain rfl := Option.some.inj h1
  cases h2

/-- The loop of `pull_groups` puts every vertex it meets into the group of its
component number. -/
theorem group_loop (comp : List Int) (N : Nat) : ∀ vs : List Nat,
    (∀ i ∈ vs, ∃ c, comp.get? i = some c ∧ 0 ≤ c ∧ c.toNat < N) →
    ∀ groups : List (List Nat), groups.length = N →
    ∃ g1, vs.foldlM (fun groups i =>
        match comp.get? i with
        | none => none
        | some c => if 0 ≤ c then pushAt groups c.toNat i else none) groups = some g1 ∧
      g1.length = N ∧
      ∀ a x, Adj g1 a x ↔ Adj groups a x ∨ (x ∈ vs ∧ comp.get? x = some (a : Int)) := by
  intro vs
  induction vs with
  | nil =>
    intro _ groups hl
    exact ⟨groups, rfl, hl, fun a x => by simp⟩
  | cons i vs ih =>
    intro hvs groups hl
    obtain ⟨c, hc, hc0, hcN⟩ := hvs i (List.mem_cons_self _ _)
    obtain ⟨g1, e1, l1, p1⟩ := pushAt_spec groups c.toNat i (by omega)
    obtain ⟨g2, e2, l2, p2⟩ := ih (fun a ha => hvs a (List.mem_cons_of_mem _ ha)) g1 (by omega)
    refine ⟨g2, ?_, l2, fun a x => ?_⟩
    · rw [List.foldlM_cons]
      simp only [hc, hc0, if_true, e1]
      exact e2
    · have q : Adj g1 a x ↔ Adj groups a x ∨ (a = c.toNat ∧ x = i) := p1 a x
      rw [p2, q, List.mem_cons]
      constructor
      · rintro ((h | ⟨h1, h2⟩) | ⟨h1, h2⟩)
        · exact Or.inl h
        · refine Or.inr ⟨Or.inl h2, ?_⟩
          rw [h2, hc, h1, Int.toNat_of_nonneg hc0]
        · exact Or.inr ⟨Or.inr h1, h2⟩
      · rintro (h | ⟨h1 | h1, h2⟩)
        · exact Or.inl (Or.inl h)
        · refine Or.inl (Or.inr ⟨?_, h1⟩)
          rw [h1, hc] at h2
          rw [Option.some.inj h2]
          rfl
        · exact Or.inr ⟨h1, h2⟩

/-- On a numbering with numbers from `0` on, over at least one vertex,
`pull_groups()` is defined and its group `a` holds the vertices numbered `a`. -/
theorem pull_groups_spec (s : SCC) (hn : 0 < s.n) (hlen : s.component.length = s.n)
    (hpos : ∀ x c, s.component.get? x = some c → 0 ≤ c) :
    ∃ groups, pull_groups s = some groups ∧
      ∀ a x, Adj groups a x ↔ s.component.get? x = some (a : Int) := by
  obtain ⟨m, hm⟩ := max?_of_ne_nil s.component (by
    intro h
    rw [h] at hlen
    simp at hlen
    omega)
  obtain ⟨g1, e1, _, p1⟩ := group_loop s.component (m + 1).toNat (List.range s.n) (by
    intro i hi
    have hil : i < s.component.length := by rw [hlen]; exact List.mem_range.1 hi
    refine ⟨s.component.get ⟨i, hil⟩, List.get?_eq_get hil, hpos i _ (List.get?_eq_get hil), ?_⟩
    have h1 := le_of_max? s.component m hm _ (List.get_mem s.component i hil)
    have h2 := hpos i _ (List.get?_eq_get hil)
    omega) (List.replicate (m + 1).toNat []) (List.length_replicate _ _)
  refine ⟨g1, ?_, fun a x => ?_⟩
  · simp only [pull_groups, hm]
    exact e1
  · rw [p1]
    constructor
    · rintro (h | ⟨_, h⟩)
      · exact absurd h (adj_replicate_nil _ _ _)
      · exact h
    · intro h
      refine Or.inr ⟨List.mem_range.2 ?_, h⟩
      by_contra hx
      rw [List.get?_eq_none.2 (by omega)] at h
      cases h

end StronglyConnectedComponents

namespace StronglyConnectedComponents

theorem pushBoth_spec (cg : List (List Int)) (a b : Int) (ha : 0 ≤ a) (hb : 0 ≤ b)
    (haN : a.toNat < cg.length) (hbN : b.toNat < cg.length) :
    ∃ cg1, pushBoth cg a b = some cg1 ∧ cg1.length = cg.length ∧
      ∀ x y, Adj cg1 x y ↔ Adj cg x y ∨ (x = a.toNat ∧ y = b) ∨ (x = b.toNat ∧ y = a) := by
  obtain ⟨g1, e1, l1, p1⟩ := pushAt_spec cg a.toNat b haN
  obtain ⟨g2, e2, l2, p2⟩ := pushAt_spec g1 b.toNat a (by omega)
  refine ⟨g2, ?_, by omega, fun x y => ?_⟩
  · simp only [pushBoth, ha, hb, and_self, if_true, e1]
    exact e2
  · have q1 : Adj g1 x y ↔ Adj cg x y ∨ (x = a.toNat ∧ y = b) := p1 x y
    have q2 : Adj g2 x y ↔ Adj g1 x y ∨ (x = b.toNat ∧ y = a) := p2 x y
    rw [q2, q1, or_assoc]

/-- The inner loop of `rebuild()` over the edges of `v`. -/
theorem rebuild_inner (comp : List Int) (N v : Nat) (cv : Int) (hv : comp.get? v = some cv)
    (hcv0 : 0 ≤ cv) (hcvN : cv.toNat < N) : ∀ es : List Nat,
    (∀ e ∈ es, ∃ ce, comp.get? e = some ce ∧ 0 ≤ ce ∧ ce.toNat < N) →
    ∀ cg : List (List Int), cg.length = N →
    ∃ cg1, es.foldlM (fun rg1 e =>
        match comp.get? v, comp.get? e with
        | some cv, some ce => if cv ≠ ce then pushBoth rg1 cv ce else some rg1
        | _, _ => none) cg = some cg1 ∧
      cg1.length = N ∧
      ∀ x y, Adj cg1 x y ↔ Adj cg x y ∨
        ∃ e ∈ es, ∃ ce, comp.get? e = some ce ∧ cv ≠ ce ∧
          ((x = cv.toNat ∧ y = ce) ∨ (x = ce.toNat ∧ y = cv)) := by
  intro es
  induction es with
  | nil =>
    intro _ cg hl
    exact ⟨cg, rfl, hl, fun x y => by simp⟩
  | cons e es ih =>
    intro hes cg hl
    obtain ⟨ce, hce, hce0, hceN⟩ := hes e (List.mem_cons_self _ _)
    have hes1 : ∀ a ∈ es, ∃ ce, comp.get? a = some ce ∧ 0 ≤ ce ∧ ce.toNat < N :=
      fun a ha => hes a (List.mem_cons_of_mem _ ha)
    rw [List.foldlM_cons]
    by_cases hne : cv = ce
    · obtain ⟨g2, e2, l2, p2⟩ := ih hes1 cg hl
      refine ⟨g2, ?_, l2, fun x y => ?_⟩
      · simp only [hv, ne_eq] at e2 ⊢
        simp only [hce, hne.symm, not_true_eq_false, if_false]
        exact e2
      · rw [p2]
        constructor
        · rintro (h | ⟨a, ha, c, h1, h2, h3⟩)
          · exact Or.inl h
          · exact Or.inr ⟨a, List.mem_cons_of_mem _ ha, c, h1, h2, h3⟩
        · rintro (h | ⟨a, ha, c, h1, h2, h3⟩)
          · exact Or.inl h
          · rcases List.mem_cons.1 ha with rfl | ha
            · rw [hce] at h1
              exact absurd (hne.trans (Option.some.inj h1)) h2
            · exact Or.inr ⟨a, ha, c, h1, h2, h3⟩
    · obtain ⟨g1, e1, l1, p1⟩ := pushBoth_spec cg cv ce hcv0 hce0 (by omega) (by omega)
      obtain ⟨g2, e2, l2, p2⟩ := ih hes1 g1 (by omega)
      refine ⟨g2, ?_, l2, fun x y => ?_⟩
      · simp only [hv, ne_eq] at e2 ⊢
        simp only [hce, hne, not_false_eq_true, if_true, e1]
        exact e2
      · rw [p2, p1]
        constructor
        · rintro ((h | h) | ⟨a, ha, c, h1, h2, h3⟩)
          · exact Or.inl h
          · exact Or.inr ⟨e, List.mem_cons_self _ _, ce, hce, hne, h⟩
          · exact Or.inr ⟨a, List.mem_cons_of_mem _ ha, c, h1, h2, h3⟩
        · rintro (h | ⟨a, ha, c, h1, h2, h3⟩)
          · exact Or.inl (Or.inl h)
          · rcases List.mem_cons.1 ha with rfl | ha
            · rw [hce] at h1
              obtain rfl := Option.some.inj h1
              exact Or.inl (Or.inr h3)
            · exact Or.inr ⟨a, ha, c, h1, h2, h3⟩

/-- The outer loop of `rebuild()` over the vertices `vs`. -/
theorem rebuild_outer (g : List (List Nat)) (comp : List Int) (N : Nat)
    (hc : ∀ x, x < g.length → ∃ c, comp.get? x = some c ∧ 0 ≤ c ∧ c.toNat < N)
    (hg : InRange g) : ∀ vs : List Nat, (∀ v ∈ vs, v < g.length) →
    ∀ cg : List (List Int), cg.length = N →
    ∃ cg1, vs.foldlM (fun rg v =>
        match g.get? v with
        | none => none
        | some es =>
          es.foldlM (fun rg1 e =>
            match comp.get? v, comp.get? e with
            | some cv, some ce => if cv ≠ ce then pushBoth rg1 cv ce else some rg1
            | _, _ => none) rg) cg = some cg1 ∧
      cg1.length = N ∧
      ∀ x y, Adj cg1 x y ↔ Adj cg x y ∨
        ∃ v ∈ vs, ∃ e, Edge g v e ∧ ∃ cv ce, comp.get? v = some cv ∧ comp.get? e = some ce ∧
          cv ≠ ce ∧ ((x = cv.toNat ∧ y = ce) ∨ (x = ce.toNat ∧ y = cv)) := by
  intro vs
  induction vs with
  | nil =>
    intro _ cg hl
    exact ⟨cg, rfl, hl, fun x y => by simp⟩
  | cons v vs ih =>
    intro hvs cg hl
    have hvl := hvs v (List.mem_cons_self _ _)
    have hes : g.get? v = some (g.get ⟨v, hvl⟩) := List.get?_eq_get hvl
    obtain ⟨cv, hcv, hcv0, hcvN⟩ := hc v hvl
    obtain ⟨g1, e1, l1, p1⟩ := rebuild_inner comp N v cv hcv hcv0 hcvN (g.get ⟨v, hvl⟩)
      (fun e he => hc e (hg v _ hes e he)) cg hl
    obtain ⟨g2, e2, l2, p2⟩ := ih (fun a ha => hvs a (List.mem_cons_of_mem _ ha)) g1 l1
    refine ⟨g2, ?_, l2, fun x y => ?_⟩
    · rw [List.foldlM_cons]
      simp only [hes]
      rw [e1]
      exact e2
    · rw [p2, p1]
      constructor
      · rintro ((h | ⟨e, he, ce, h1, h2, h3⟩) | ⟨a, ha, h⟩)
        · exact Or.inl h
        · exact Or.inr ⟨v, List.mem_cons_self _ _, e, (edge_of_get? hes).2 he, cv, ce, hcv, h1,
            h2, h3⟩
        · exact Or.inr ⟨a, List.mem_cons_of_mem _ ha, h⟩
      · rintro (h | ⟨a, ha, e, he, cv1, ce, h0, h1, h2, h3⟩)
        · exact Or.inl (Or.inl h)
        · rcases List.mem_cons.1 ha with rfl | ha
          · rw [hcv] at h0
            obtain rfl := Option.some.inj h0
            exact Or.inl (Or.inr ⟨e, (edge_of_get? hes).1 he, ce, h1, h2, h3⟩)
          · exact Or.inr ⟨a, ha, e, he, cv1, ce, h0, h1, h2, h3⟩

/-- On the numbering of the constructor, over at least one vertex, `rebuild()`
is defined, and its list `x` contains `y` exactly when some edge `v → e` with
`v` below the number of rows joins the numbers `x` and `y`. -/
theorem rebuild_spec (s : SCC) (hg : InRange s.graph) (hn : 0 < s.graph.length)
    (hnum : SccNumbering s.graph s.component) :
    ∃ cg m, s.component.max? = some m ∧ rebuild s = some cg ∧
      ∀ x y, Adj cg x y ↔
        ∃ v, v < (m + 1).toNat ∧ ∃ e, Edge s.graph v e ∧ ∃ cv ce,
          s.component.get? v = some cv ∧ s.component.get? e = some ce ∧ cv ≠ ce ∧
          ((x = cv.toNat ∧ y = ce) ∨ (x = ce.toNat ∧ y = cv)) := by
  obtain ⟨m, hm⟩ := max?_of_ne_nil s.component (by
    intro h
    have := hnum.len
    rw [h] at this
    simp at this
    omega)
  have hmN : (m + 1).toNat ≤ s.graph.length := by
    obtain ⟨i, hi⟩ := List.mem_iff_get?.1 (mem_of_max? s.component m hm)
    have := hnum.range i m hi
    omega
  obtain ⟨g1, e1, _, p1⟩ := rebuild_outer s.graph s.component (m + 1).toNat (by
    intro x hx
    have hxl : x < s.component.length := by rw [hnum.len]; exact hx
    have h1 := le_of_max? s.component m hm _ (List.get_mem s.component x hxl)
    have h2 := hnum.range x _ (List.get?_eq_get hxl)
    exact ⟨_, List.get?_eq_get hxl, h2.1, by omega⟩) hg (List.range (m + 1).toNat)
    (fun v hv => lt_of_lt_of_le (List.mem_range.1 hv) hmN)
    (List.replicate (m + 1).toNat []) (List.length_replicate _ _)
  refine ⟨g1, m, hm, ?_, fun x y => ?_⟩
  · simp only [rebuild, hm]
    exact e1
  · rw [p1]
    constructor
    · rintro (h | ⟨v, hv, h⟩)
      · exact absurd h (adj_replicate_nil _ _ _)
      · exact ⟨v, List.mem_range.1 hv, h⟩
    · rintro ⟨v, hv, h⟩
      exact Or.inr ⟨v, List.mem_range.2 hv, h⟩

end StronglyConnectedComponents

namespace StronglyConnectedComponents

/-! ### The claims on the strongly connected components -/

theorem inRange_of_all (g : List (List Nat)) (h : ∀ es ∈ g, ∀ v ∈ es, v < g.length) :
    InRange g :=
  fun _ es hu v hv => h es (List.get?_mem hu) v hv

/-- Claim C13: on every adjacency list over the vertices `0..n-1` the
constructor is defined, and for all vertices `u` and `v` the call
`issame(u, v)` returns true exactly when `u` and `v` are mutually reachable. -/
theorem issame_iff_mutually_reachable (g : List (List Nat)) (hg : InRange g) :
    ∃ s, new g = some s ∧ ∀ u v, u < g.length → v < g.length →
      ∃ b, issame s u v = some b ∧ (b = true ↔ MutReach g u v) := by
  obtain ⟨s, hs, _, _, hnum⟩ := new_spec g hg
  refine ⟨s, hs, fun u v hu hv => ?_⟩
  have hul : u < s.component.length := by rw [hnum.len]; exact hu
  have hvl : v < s.component.length := by rw [hnum.len]; exact hv
  have h1 : s.component.get? u = some (s.component.get ⟨u, hul⟩) := List.get?_eq_get hul
  have h2 : s.component.get? v = some (s.component.get ⟨v, hvl⟩) := List.get?_eq_get hvl
  refine ⟨decide (s.component.get ⟨u, hul⟩ = s.component.get ⟨v, hvl⟩), ?_, ?_⟩
  · simp only [issame, h1, h2]
  · rw [decide_eq_true_iff]
    exact hnum.same u v _ _ h1 h2

/-- The scenario of claim C13: with the edges `0→1, 1→2, 2→0, 1→3`,
`issame(0,2)` is true, `issame(0,3)` is false and there are two components. -/
theorem issame_iff_mutually_reachable_witness :
    InRange graph4 ∧
    (∃ s, new graph4 = some s ∧ issame s 0 2 = some true ∧ issame s 0 3 = some false ∧
      number_of_components s = 2) ∧
    ∃ s, new graph4 = some s ∧ ∀ u v, u < graph4.length → v < graph4.length →
      ∃ b, issame s u v = some b ∧ (b = true ↔ MutReach graph4 u v) :=
  ⟨inRange_of_all graph4 (by decide),
    ⟨⟨4, graph4, [[2], [0], [1], [1]], [0, 1, 3, 2], [0, 0, 0, 1], [true, true, true, true]⟩,
      by decide, by decide, by decide, by decide⟩,
    issame_iff_mutually_reachable graph4 (inRange_of_all graph4 (by decide))⟩

/-- Claim C14: the component numbers are in topological order of the
condensation: for every edge `u → v` of the input graph,
`component[u] ≤ component[v]`, with equality exactly when `u` and `v` are
mutually reachable; and on a graph with a vertex `pull_groups()` is defined and
its group `a` holds exactly the vertices with component number `a`. -/
theorem component_ids_topological (g : List (List Nat)) (hg : InRange g) :
    ∃ s, new g = some s ∧
      (∀ u v, Edge g u v → ∃ cu cv, s.component.get? u = some cu ∧
        s.component.get? v = some cv ∧ cu ≤ cv ∧ (cu = cv ↔ MutReach g u v)) ∧
      (0 < g.length → ∃ groups, pull_groups s = some groups ∧
        ∀ a x, Adj groups a x ↔ s.component.get? x = some (a : Int)) := by
  obtain ⟨s, hs, hn, _, hnum⟩ := new_spec g hg
  refine ⟨s, hs, fun u v he => ?_, fun hpos => ?_⟩
  · have hul : u < s.component.length := by rw [hnum.len]; exact edge_lt he
    have hvl : v < s.component.length := by
      rw [hnum.len]
      obtain ⟨es, h1, h2⟩ := he
      exact hg u es h1 v h2
    have h1 : s.component.get? u = some (s.component.get ⟨u, hul⟩) := List.get?_eq_get hul
    have h2 : s.component.get? v = some (s.component.get ⟨v, hvl⟩) := List.get?_eq_get hvl
    exact ⟨_, _, h1, h2, hnum.le u v _ _ he h1 h2, hnum.same u v _ _ h1 h2⟩
  · exact pull_groups_spec s (by omega) (by rw [hnum.len, hn])
      (fun x c hx => (hnum.range x c hx).1)

/-- The scenario of claim C14: with the edges `0→1, 1→2, 2→0, 1→3` the
component numbers are `0, 0, 0, 1` and the groups are `{0,1,2}` and `{3}`. -/
theorem component_ids_topological_witness :
    InRange graph4 ∧
    (∃ s, new graph4 = some s ∧ s.component = [0, 0, 0, 1] ∧
      pull_groups s = some [[0, 1, 2], [3]]) ∧
    ∃ s, new graph4 = some s ∧
      (∀ u v, Edge graph4 u v → ∃ cu cv, s.component.get? u = some cu ∧
        s.component.get? v = some cv ∧ cu ≤ cv ∧ (cu = cv ↔ MutReach graph4 u v)) ∧
      (0 < graph4.length → ∃ groups, pull_groups s = some groups ∧
        ∀ a x, Adj groups a x ↔ s.component.get? x = some (a : Int)) :=
  ⟨inRange_of_all graph4 (by decide),
    ⟨⟨4, graph4, [[2], [0], [1], [1]], [0, 1, 3, 2], [0, 0, 0, 1], [true, true, true, true]⟩,
      by decide, rfl, by decide⟩,
    component_ids_topological graph4 (inRange_of_all graph4 (by decide))⟩

end StronglyConnectedComponents

namespace StronglyConnectedComponents

/-- The two `push_back` statements of `rebuild()` link both ways: with the
edges `0→1, 1→2, 2→0, 1→3` the component numbers are `0, 0, 0, 1` and
`rebuild()` is `[[1], [0]]`, so `0` appears in `rebuild()[1]` although no edge
goes from a vertex of component `1` to a vertex of component `0`. -/
theorem rebuild_reverse_edge_counterexample :
    ∃ s cg, new graph4 = some s ∧ rebuild s = some cg ∧ s.component = [0, 0, 0, 1] ∧
      cg = [[1], [0]] ∧ Adj cg 1 0 ∧
      ¬ ∃ u v, Edge graph4 u v ∧ s.component.get? u = some 1 ∧
        s.component.get? v = some 0 := by
  refine ⟨⟨4, graph4, [[2], [0], [1], [1]], [0, 1, 3, 2], [0, 0, 0, 1],
    [true, true, true, true]⟩, [[1], [0]], by decide, by decide, rfl, rfl,
    ⟨[0], rfl, by decide⟩, ?_⟩
  rintro ⟨u, v, ⟨es, h1, h2⟩, hu, _⟩
  rcases u with _ | _ | _ | _ | u
  · exact absurd hu (by decide)
  · exact absurd hu (by decide)
  · exact absurd hu (by decide)
  · obtain rfl : [] = es := Option.some.inj h1
    cases h2
  · cases h1

/-- What `rebuild()` does keep: on every adjacency list over the vertices `0..n-1`
with at least one vertex, `rebuild()` is defined, and whenever `b` appears in
`rebuild()[a]` then `a` and `b` are different component numbers, `a` appears
in `rebuild()[b]`, and the input graph has an edge between a vertex numbered
`a` and a vertex numbered `b`, in one direction or the other. -/
theorem rebuild_links_components (g : List (List Nat)) (hg : InRange g) (hn : 0 < g.length) :
    ∃ s cg, new g = some s ∧ rebuild s = some cg ∧
      ∀ (a : Nat) (b : Int), Adj cg a b →
        (a : Int) ≠ b ∧ 0 ≤ b ∧ Adj cg b.toNat (a : Int) ∧
        ∃ u v, Edge g u v ∧
          ((s.component.get? u = some (a : Int) ∧ s.component.get? v = some b) ∨
            (s.component.get? u = some b ∧ s.component.get? v = some (a : Int))) := by
  obtain ⟨s, hs, _, hgr, hnum⟩ := new_spec g hg
  subst hgr
  obtain ⟨cg, m, _, hr, hadj⟩ := rebuild_spec s hg hn hnum
  refine ⟨s, cg, hs, hr, fun a b hab => ?_⟩
  obtain ⟨v, hv, e, he, cv, ce, hcv, hce, hne, hxy⟩ := (hadj a b).1 hab
  have hv0 := (hnum.range v cv hcv).1
  have he0 := (hnum.range e ce hce).1
  rcases hxy with ⟨ha, hb⟩ | ⟨ha, hb⟩
  · have hac : (a : Int) = cv := by rw [ha, Int.toNat_of_nonneg hv0]
    rw [hac, hb]
    refine ⟨hne, he0, ?_, v, e, he, Or.inl ⟨hcv, hce⟩⟩
    exact (hadj _ _).2 ⟨v, hv, e, he, cv, ce, hcv, hce, hne, Or.inr ⟨rfl, rfl⟩⟩
  · have hac : (a : Int) = ce := by rw [ha, Int.toNat_of_nonneg he0]
    rw [hac, hb]
    refine ⟨Ne.symm hne, hv0, ?_, v, e, he, Or.inr ⟨hcv, hce⟩⟩
    exact (hadj _ _).2 ⟨v, hv, e, he, cv, ce, hcv, hce, hne, Or.inl ⟨rfl, rfl⟩⟩

/-- The scenario of `rebuild_links_components`: with the edges
`0→1, 1→2, 2→0, 1→3`, `rebuild()` is `[[1], [0]]`. -/
theorem rebuild_links_components_witness :
    InRange graph4 ∧ 0 < graph4.length ∧
    (∃ s, new graph4 = some s ∧ rebuild s = some [[1], [0]]) ∧
    ∃ s cg, new graph4 = some s ∧ rebuild s = some cg ∧
      ∀ (a : Nat) (b : Int), Adj cg a b →
        (a : Int) ≠ b ∧ 0 ≤ b ∧ Adj cg b.toNat (a : Int) ∧
        ∃ u v, Edge graph4 u v ∧
          ((s.component.get? u = some (a : Int) ∧ s.component.get? v = some b) ∨
            (s.component.get? u = some b ∧ s.component.get? v = some (a : Int))) :=
  ⟨inRange_of_all graph4 (by decide), by decide,
    ⟨⟨4, graph4, [[2], [0], [1], [1]], [0, 1, 3, 2], [0, 0, 0, 1], [true, true, true, true]⟩,
      by decide, by decide⟩,
    rebuild_links_components graph4 (inRange_of_all graph4 (by decide)) (by decide)⟩

/-- Claim C15 fails on the code: the loop of `rebuild()` stops at the number
of components instead of the number of vertices. With the edges
`0→1, 1→0, 2→0` the component numbers are `1, 1, 0`, the edge `2→0` goes from
component `0` to component `1`, and `rebuild()` is `[[], []]`, so `1` does not
appear in `rebuild()[0]`. -/
theorem rebuild_skips_vertices :
    ∃ s cg, new [[1], [0], [0]] = some s ∧ rebuild s = some cg ∧
      s.component = [1, 1, 0] ∧ cg = [[], []] ∧
      (Edge [[1], [0], [0]] 2 0 ∧ s.component.get? 2 = some 0 ∧
        s.component.get? 0 = some 1) ∧
      ¬ Adj cg 0 1 := by
  refine ⟨⟨3, [[1], [0], [0]], [[1, 2], [0], []], [2, 0, 1], [1, 1, 0], [true, true, true]⟩,
    [[], []], by decide, by decide, rfl, rfl, ⟨⟨[0], rfl, by decide⟩, rfl, rfl⟩, ?_⟩
  rintro ⟨row, h1, h2⟩
  obtain rfl : [] = row := Option.some.inj h1
  cases h2

end StronglyConnectedComponents
